import Mathlib

/-!
# thtbl: a fixed-capacity open-addressing hash table (src/thtbl.c, src/thtbl.h)

Shallow embedding of the table engine.

* A pointer (`void *`, `slot_t`) is the natural number of its address.
* `size_t` is 64 bits wide when `THTBL_LP64` is defined and 32 bits wide
  otherwise; the build is the parameter `lp64 : Bool` and every `size_t`
  increment and addition is reduced modulo `2 ^ SIZE_BITS lp64`.
* The callbacks `hash` and `cmp` are pure functions.  The destroyer `rem`
  is either null or bound; each of its calls is recorded, in order, in the
  trace field `rem_calls` of the table.
* The allocator is a function telling whether a request is granted; granted
  memory is zero-filled (it is `calloc`).
* A loop `for (k = 0; k < limit_overhead; k++, ...)` is a function that is
  structurally recursive on the number of iterations still to run.
-/

namespace Thtbl

/-! ## thtbl.h -/

/-- Result codes, `enum thtbl_e`. -/
inductive thtbl_e where
  | THTBL_EOK
  | THTBL_EINVAL
  | THTBL_ENOMEM
  | THTBL_ENOENT
  | THTBL_EEXIST
  | THTBL_EFULL
  deriving DecidableEq, Repr

open thtbl_e

/-- Numeric value of a result code as declared in the enum. -/
def thtbl_e.code : thtbl_e → Nat
  | THTBL_EOK => 0
  | THTBL_EINVAL => 1
  | THTBL_ENOMEM => 2
  | THTBL_ENOENT => 3
  | THTBL_EEXIST => 4
  | THTBL_EFULL => 5

/-- Width of `size_t` and of a pointer in bits. -/
def SIZE_BITS (lp64 : Bool) : Nat := if lp64 then 64 else 32

/-- Number of values of `size_t`: arithmetic on `size_t` is modulo this. -/
def SIZE_MOD (lp64 : Bool) : Nat := 2 ^ SIZE_BITS lp64

/-- Size in bytes of a pointer and of a `size_t`. -/
def WORD_BYTES (lp64 : Bool) : Nat := SIZE_BITS lp64 / 8

/-! ## thtbl.c: slot states -/

/-- The null pointer. -/
def NULL : Nat := 0

/-- `#define EMPTY ((void *) (0))`. -/
def EMPTY : Nat := 0

/-- `#define DELETED ((void *) (0xffff...))`: the all-ones pointer. -/
def DELETED (lp64 : Bool) : Nat := if lp64 then 0xffffffffffffffff else 0xffffffff

/-- `#define IS_USED(x) (x != EMPTY && x != DELETED)`. -/
def IS_USED (lp64 : Bool) (x : Nat) : Bool := x != EMPTY && x != DELETED lp64

/-- `#define IS_NOT_USED(x) (x == EMPTY || x == DELETED)`. -/
def IS_NOT_USED (lp64 : Bool) (x : Nat) : Bool := x == EMPTY || x == DELETED lp64

/-- `#define IS_EMPTY(x) (x == EMPTY)`. -/
def IS_EMPTY (x : Nat) : Bool := x == EMPTY

/-- `#define IS_DELETED(x) (x == DELETED)`. -/
def IS_DELETED (lp64 : Bool) (x : Nat) : Bool := x == DELETED lp64

/-- The record `struct thtbl_t`.  `rem` tells whether a destroyer is bound;
`rem_calls` is the trace of the destroyer's arguments, oldest first.  The
fields `calloc` and `free` of the C record are not read by any operation
modelled here except `thtbl_destroy`, which is outside this development. -/
structure thtbl_t where
  hash : Nat → Nat
  cmp : Nat → Nat → Int
  rem : Bool
  limit_overhead : Nat
  limit : Nat
  used : Nat
  cols : Nat
  searches : Nat
  slots : List Nat
  rem_calls : List Nat

/-! ## calc_limit -/

/-- The C expression `1 << i` with `1` of type `int` (32 bits).  For
`i < 31` this is `2 ^ i`.  Larger counts are outside what ISO C defines for
a 32-bit `int`; the value taken here is the one the usual targets produce:
the count is reduced modulo 32 and the 32-bit pattern is read as a signed
number. -/
def int_shl1 (i : Nat) : Int :=
  let bits : Nat := 2 ^ (i % 32) % 2 ^ 32
  if bits < 2 ^ 31 then (bits : Int) else (bits : Int) - 2 ^ 32

/-- Conversion of an `int` to `size_t` (the assignment `r = 1 << i`). -/
def to_size_t (lp64 : Bool) (x : Int) : Nat := (x % (SIZE_MOD lp64 : Int)).toNat

/-- The loop of `calc_limit`, `n` iterations left, counter at `i`. -/
def calc_limit_loop (lp64 : Bool) (limit : Nat) : Nat → Nat → Nat
  | 0, _ => 0
  | n + 1, i =>
    let r := to_size_t lp64 (int_shl1 i)
    if r > limit then r else calc_limit_loop lp64 limit n (i + 1)

/-- `static size_t calc_limit(size_t limit)`: `i` runs from 4 while
`i < 63` under `THTBL_LP64` and while `i < 31` otherwise. -/
def calc_limit (lp64 : Bool) (limit : Nat) : Nat :=
  calc_limit_loop lp64 limit (if lp64 then 59 else 27) 4

/-! ## thtbl_create -/

/-- `thtbl_create`.  `self_ok` tells whether the out-parameter `self` is
non-null; a null callback is `none` (for `rem` and `free`, `false`).  The
allocator answers `true` when it returns zero-filled memory for
`calloc(nmemb, size)` and `false` when it returns null.  `sizeof(thtbl_t)`
is eleven words, `sizeof(slot_t)` one word. -/
def thtbl_create (lp64 : Bool) (self_ok : Bool) (limit : Nat)
    (hash : Option (Nat → Nat)) (cmp : Option (Nat → Nat → Int)) (rem : Bool)
    (calloc : Option (Nat → Nat → Bool)) (free : Bool) : thtbl_e × Option thtbl_t :=
  if !self_ok then (THTBL_EINVAL, none)
  else if limit = 0 then (THTBL_EINVAL, none)
  else
    let limit_overhead := calc_limit lp64 limit
    if limit_overhead = 0 then (THTBL_EINVAL, none)
    else match hash with
      | none => (THTBL_EINVAL, none)
      | some hash => match cmp with
        | none => (THTBL_EINVAL, none)
        | some cmp => match calloc with
          | none => (THTBL_EINVAL, none)
          | some calloc =>
            if !free then (THTBL_EINVAL, none)
            else if !calloc 1 (11 * WORD_BYTES lp64) then (THTBL_ENOMEM, none)
            else if !calloc limit_overhead (WORD_BYTES lp64) then (THTBL_ENOMEM, none)
            else
              (THTBL_EOK, some
                { hash := hash, cmp := cmp, rem := rem,
                  limit_overhead := limit_overhead, limit := limit,
                  used := 0, cols := 0, searches := 0,
                  slots := List.replicate limit_overhead EMPTY,
                  rem_calls := [] })

/-! ## thtbl_size, thtbl_stat -/

/-- `thtbl_size`: the code and the value written to `*size`. -/
def thtbl_size (self : Option thtbl_t) : thtbl_e × Option Nat :=
  match self with
  | none => (THTBL_EINVAL, none)
  | some self => (THTBL_EOK, some self.used)

/-- `thtbl_stat`: the code and the values written to `*searches` and
`*collisions`. -/
def thtbl_stat (self : Option thtbl_t) : thtbl_e × Option (Nat × Nat) :=
  match self with
  | none => (THTBL_EINVAL, none)
  | some self => (THTBL_EOK, some (self.searches, self.cols))

/-! ## remove_values, thtbl_clear -/

/-- The loop of `remove_values` over the slots still to visit: the
destroyer is called on every used slot. -/
def remove_values_loop (lp64 : Bool) : List Nat → List Nat → List Nat
  | [], calls => calls
  | s :: rest, calls =>
    if IS_USED lp64 s then remove_values_loop lp64 rest (calls ++ [s])
    else remove_values_loop lp64 rest calls

/-- `static void remove_values(thtbl_t *self)`. -/
def remove_values (lp64 : Bool) (self : thtbl_t) : thtbl_t :=
  if self.rem then
    { self with
      rem_calls := remove_values_loop lp64 (self.slots.take self.limit_overhead) self.rem_calls }
  else self

/-- The loop of `thtbl_clear`: `slots[i] = EMPTY` for `i` below
`limit_overhead`, `n` iterations left. -/
def clear_loop (slots : List Nat) : Nat → Nat → List Nat
  | 0, _ => slots
  | n + 1, i => clear_loop (slots.set i EMPTY) n (i + 1)

/-- `thtbl_clear`. -/
def thtbl_clear (lp64 : Bool) (self : Option thtbl_t) : thtbl_e × Option thtbl_t :=
  match self with
  | none => (THTBL_EINVAL, none)
  | some self =>
    let self := remove_values lp64 self
    (THTBL_EOK, some
      { self with slots := clear_loop self.slots self.limit_overhead 0, used := 0 })

/-! ## The probing operations -/

/-- The index expression `(hash + k) & (self->limit_overhead - 1)`; the sum
is a `size_t` sum.  The loops evaluate it only for `k < limit_overhead`, so
`limit_overhead - 1` does not wrap. -/
def probe_index (lp64 : Bool) (limit_overhead hash k : Nat) : Nat :=
  ((hash + k) % SIZE_MOD lp64) &&& (limit_overhead - 1)

/-- The loop of `thtbl_insert`, `n` iterations left, counter at `k`. -/
def insert_loop (lp64 : Bool) (value hash : Nat) : thtbl_t → Nat → Nat → thtbl_e × thtbl_t
  | self, 0, _ => (THTBL_EFULL, self)
  | self, n + 1, k =>
    let index := probe_index lp64 self.limit_overhead hash k
    let slot := self.slots.getD index EMPTY
    if IS_NOT_USED lp64 slot then
      (THTBL_EOK,
        { self with slots := self.slots.set index value,
                    used := (self.used + 1) % SIZE_MOD lp64 })
    else if self.cmp value slot ≠ 0 then
      insert_loop lp64 value hash
        { self with cols := (self.cols + 1) % SIZE_MOD lp64 } n (k + 1)
    else (THTBL_EEXIST, self)

/-- `thtbl_insert`. -/
def thtbl_insert (lp64 : Bool) (self : Option thtbl_t) (value : Nat) :
    thtbl_e × Option thtbl_t :=
  match self with
  | none => (THTBL_EINVAL, none)
  | some self =>
    if value = NULL then (THTBL_EINVAL, some self)
    else if self.used ≥ self.limit then (THTBL_ENOMEM, some self)
    else
      let self := { self with searches := (self.searches + 1) % SIZE_MOD lp64 }
      let r := insert_loop lp64 value (self.hash value) self self.limit_overhead 0
      (r.1, some r.2)

/-- The loop of `thtbl_remove`, `n` iterations left, counter at `k`. -/
def remove_loop (lp64 : Bool) (value hash : Nat) : thtbl_t → Nat → Nat → thtbl_e × thtbl_t
  | self, 0, _ => (THTBL_EFULL, self)
  | self, n + 1, k =>
    let index := probe_index lp64 self.limit_overhead hash k
    let slot := self.slots.getD index EMPTY
    if IS_NOT_USED lp64 slot then (THTBL_ENOENT, self)
    else if self.cmp value slot ≠ 0 then
      remove_loop lp64 value hash
        { self with cols := (self.cols + 1) % SIZE_MOD lp64 } n (k + 1)
    else
      (THTBL_EOK,
        { self with
          rem_calls := if self.rem then self.rem_calls ++ [slot] else self.rem_calls,
          slots := self.slots.set index (DELETED lp64),
          used := self.used - 1 })

/-- `thtbl_remove`. -/
def thtbl_remove (lp64 : Bool) (self : Option thtbl_t) (value : Nat) :
    thtbl_e × Option thtbl_t :=
  match self with
  | none => (THTBL_EINVAL, none)
  | some self =>
    if value = NULL then (THTBL_EINVAL, some self)
    else if self.used = 0 then (THTBL_ENOENT, some self)
    else
      let self := { self with searches := (self.searches + 1) % SIZE_MOD lp64 }
      let r := remove_loop lp64 value (self.hash value) self self.limit_overhead 0
      (r.1, some r.2)

/-- The loop of `thtbl_find`, `n` iterations left, counter at `k`; the third
component is the value written to `*found`, if any. -/
def find_loop (lp64 : Bool) (value hash : Nat) :
    thtbl_t → Nat → Nat → thtbl_e × thtbl_t × Option Nat
  | self, 0, _ => (THTBL_EFULL, self, none)
  | self, n + 1, k =>
    let index := probe_index lp64 self.limit_overhead hash k
    let slot := self.slots.getD index EMPTY
    if IS_EMPTY slot then (THTBL_ENOENT, self, none)
    else if IS_DELETED lp64 slot then
      find_loop lp64 value hash
        { self with cols := (self.cols + 1) % SIZE_MOD lp64 } n (k + 1)
    else if self.cmp value slot ≠ 0 then
      find_loop lp64 value hash
        { self with cols := (self.cols + 1) % SIZE_MOD lp64 } n (k + 1)
    else (THTBL_EOK, self, some slot)

/-- `thtbl_find`: the code, the table, and the value written to `*found`
(`none` when `*found` is left as it was). -/
def thtbl_find (lp64 : Bool) (self : Option thtbl_t) (value : Nat) :
    thtbl_e × Option thtbl_t × Option Nat :=
  match self with
  | none => (THTBL_EINVAL, none, none)
  | some self =>
    if value = NULL then (THTBL_EINVAL, some self, none)
    else if self.used = 0 then (THTBL_ENOENT, some self, none)
    else
      let self := { self with searches := (self.searches + 1) % SIZE_MOD lp64 }
      let r := find_loop lp64 value (self.hash value) self self.limit_overhead 0
      (r.1, some r.2.1, r.2.2)

/-! ## thtbl_enum -/

/-- The loop of `thtbl_enum` over the slots still to visit.  The callback
`cb value aux` returns its `int` result and the new contents of `*aux`, and
does not touch the table; the result is the final `*aux` and the values the
callback was called on, in call order. -/
def enum_loop {σ : Type} (lp64 : Bool) (cb : Nat → σ → Int × σ) :
    List Nat → σ → σ × List Nat
  | [], aux => (aux, [])
  | s :: rest, aux =>
    if IS_USED lp64 s then
      let r := cb s aux
      if r.1 ≠ 0 then (r.2, [s])
      else
        let q := enum_loop lp64 cb rest r.2
        (q.1, s :: q.2)
    else enum_loop lp64 cb rest aux

/-- `thtbl_enum`: the code, the table, the final `*aux`, and the trace of
callback arguments.  A null callback is `none`. -/
def thtbl_enum {σ : Type} (lp64 : Bool) (self : Option thtbl_t)
    (cb : Option (Nat → σ → Int × σ)) (aux : σ) :
    thtbl_e × Option thtbl_t × σ × List Nat :=
  match self with
  | none => (THTBL_EINVAL, none, aux, [])
  | some self =>
    match cb with
    | none => (THTBL_EINVAL, some self, aux, [])
    | some cb =>
      let r := enum_loop lp64 cb (self.slots.take self.limit_overhead) aux
      (THTBL_EOK, some self, r.1, r.2)

/-! ## Definitions used to state the properties -/

/-- The slot the `k`-th probe step for hash value `hash` reads. -/
def probe_slot (lp64 : Bool) (self : thtbl_t) (hash k : Nat) : Nat :=
  self.slots.getD (probe_index lp64 self.limit_overhead hash k) EMPTY

/-- The counter `cols` after `m` executions of `self->cols++`. -/
def bump_cols (lp64 : Bool) (m cols : Nat) : Nat :=
  (fun c => (c + 1) % SIZE_MOD lp64)^[m] cols

/-- Invariant of the tables that hold no tombstone (every table built from
a fresh or cleared one by insertions of non-sentinel values): the
capacity is a power of two within `size_t`, `used` counts the used slots,
and every stored value is reached from its home slot along used slots. -/
structure chain_inv (lp64 : Bool) (t : thtbl_t) : Prop where
  pow : ∃ n, n ≤ SIZE_BITS lp64 ∧ t.limit_overhead = 2 ^ n
  len : t.slots.length = t.limit_overhead
  lim : t.limit < t.limit_overhead
  nodel : ∀ s, s ∈ t.slots → s ≠ DELETED lp64
  count : t.slots.countP (fun s => IS_USED lp64 s) = t.used
  chain : ∀ j, j < t.limit_overhead → t.slots.getD j EMPTY ≠ EMPTY →
    ∃ k, k < t.limit_overhead ∧
      probe_index lp64 t.limit_overhead (t.hash (t.slots.getD j EMPTY)) k = j ∧
      ∀ d, d < k → probe_slot lp64 t (t.hash (t.slots.getD j EMPTY)) d ≠ EMPTY

/-- Insertion of the values of a list, first to last: the codes returned and
the final table. -/
def insert_all (lp64 : Bool) : Option thtbl_t → List Nat → List thtbl_e × Option thtbl_t
  | self, [] => ([], self)
  | self, v :: vs =>
    let r := thtbl_insert lp64 self v
    let q := insert_all lp64 r.2 vs
    (r.1 :: q.1, q.2)

/-- Example hash callback: the value is an integer cast to a pointer and
hashes to itself. -/
def ptr_hash (v : Nat) : Nat := v

/-- Example comparison callback: the order of the two pointers, as -1, 0
or 1. -/
def ptr_cmp (a b : Nat) : Int := if a < b then -1 else if a = b then 0 else 1

/-- Example allocator: every request is granted. -/
def ok_calloc (_nmemb _size : Nat) : Bool := true

/-- The table `thtbl_create` returns for the example callbacks, if any. -/
def example_table (lp64 : Bool) (limit : Nat) (rem : Bool) : Option thtbl_t :=
  (thtbl_create lp64 true limit (some ptr_hash) (some ptr_cmp) rem (some ok_calloc) true).2

/-- Successive insertions: the table after inserting the values of a list. -/
def insert_list (lp64 : Bool) (self : Option thtbl_t) (vs : List Nat) : Option thtbl_t :=
  (insert_all lp64 self vs).2

/-- A 32-bit table of limit 15 (16 slots) in which no slot is Empty: the
values 1 to 15 are inserted, 1 is removed, and 16, whose home is slot 0, is
inserted. -/
def no_empty_table : Option thtbl_t :=
  (thtbl_insert false
    (thtbl_remove false
      (insert_list false (example_table false 15 false)
        [1, 2, 3, 4, 5, 6, 7, 8, 9, 10, 11, 12, 13, 14, 15]) 1).2 16).2

/-- A 32-bit table of limit 2 with a tombstone in front of a stored value:
16 and 32, whose home is slot 0, are inserted, then 16 is removed. -/
def tombstone_table : Option thtbl_t :=
  (thtbl_remove false
    (thtbl_insert false (thtbl_insert false (example_table false 2 false) 16).2 32).2 16).2

/-- The values of the Occupied slots of a table, in increasing slot index. -/
def occupied_values (lp64 : Bool) (t : thtbl_t) : List Nat :=
  (t.slots.take t.limit_overhead).filter (fun s => IS_USED lp64 s)

/-- Specification of an enumeration with early stop: the callback is offered
the values of a list in order, each once, and nothing after the first value
for which it returns non-zero.  The result is the final `*aux` and the values
offered. -/
def visit_until {σ : Type} (cb : Nat → σ → Int × σ) : List Nat → σ → σ × List Nat
  | [], aux => (aux, [])
  | v :: vs, aux =>
    if (cb v aux).1 ≠ 0 then ((cb v aux).2, [v])
    else ((visit_until cb vs (cb v aux).2).1, v :: (visit_until cb vs (cb v aux).2).2)

/-- Example enumeration callback: never asks to stop, leaves `*aux` alone. -/
def never_stop (_value : Nat) (aux : Unit) : Int × Unit := (0, aux)

/-- A 32-bit table with a bound destroyer where A = 17, B = 33 and C = 49,
all with home slot 1, were inserted and B was removed. -/
def abc_table : Option thtbl_t :=
  (thtbl_remove false (insert_list false (example_table false 4 true) [17, 33, 49]) 33).2

/-- The record of `abc_table`, field by field. -/
def abc_record : thtbl_t :=
  { hash := ptr_hash, cmp := ptr_cmp, rem := true, limit_overhead := 16, limit := 4,
    used := 2, cols := 4, searches := 4,
    slots := [0, 17, DELETED false, 49, 0, 0, 0, 0, 0, 0, 0, 0, 0, 0, 0, 0],
    rem_calls := [33] }

/-- The slot at index `(hash(v) + k) mod limit_overhead`, the `k`-th slot of
the scan for `v` as the specification words it. -/
def scan_slot (t : thtbl_t) (v k : Nat) : Nat :=
  t.slots.getD ((t.hash v + k) % t.limit_overhead) EMPTY

/-- The scan for `v` skips its `k`-th slot: the slot is Deleted, or Occupied
by a value that does not compare equal to `v`. -/
def scan_skips (lp64 : Bool) (t : thtbl_t) (v k : Nat) : Prop :=
  scan_slot t v k = DELETED lp64 ∨
    (IS_USED lp64 (scan_slot t v k) = true ∧ t.cmp v (scan_slot t v k) ≠ 0)

/-- The record of `tombstone_table`, field by field. -/
def tombstone_record : thtbl_t :=
  { hash := ptr_hash, cmp := ptr_cmp, rem := false, limit_overhead := 16, limit := 2,
    used := 1, cols := 1, searches := 3,
    slots := [DELETED false, 32, 0, 0, 0, 0, 0, 0, 0, 0, 0, 0, 0, 0, 0, 0],
    rem_calls := [] }

/-- The table `t0` is one `thtbl_create` returned with `THTBL_EOK`. -/
def created (lp64 : Bool) (t0 : thtbl_t) : Prop :=
  ∃ (self_ok : Bool) (limit : Nat) (hash : Option (Nat → Nat))
    (cmp : Option (Nat → Nat → Int)) (rem : Bool) (calloc : Option (Nat → Nat → Bool))
    (free : Bool),
    thtbl_create lp64 self_ok limit hash cmp rem calloc free = (THTBL_EOK, some t0)

/-- The table states reached from `t0` by calls of `thtbl_insert`,
`thtbl_remove`, `thtbl_find`, `thtbl_clear` and `thtbl_enum` with any
arguments and any outcome (`thtbl_size` and `thtbl_stat` only read the
table). -/
inductive reachable (lp64 : Bool) (t0 : thtbl_t) : thtbl_t → Prop where
  | init : reachable lp64 t0 t0
  | insert (t t' : thtbl_t) (v : Nat) (e : thtbl_e) :
      reachable lp64 t0 t → thtbl_insert lp64 (some t) v = (e, some t') →
      reachable lp64 t0 t'
  | remove (t t' : thtbl_t) (v : Nat) (e : thtbl_e) :
      reachable lp64 t0 t → thtbl_remove lp64 (some t) v = (e, some t') →
      reachable lp64 t0 t'
  | find (t t' : thtbl_t) (v : Nat) (e : thtbl_e) (f : Option Nat) :
      reachable lp64 t0 t → thtbl_find lp64 (some t) v = (e, some t', f) →
      reachable lp64 t0 t'
  | clear (t t' : thtbl_t) (e : thtbl_e) :
      reachable lp64 t0 t → thtbl_clear lp64 (some t) = (e, some t') →
      reachable lp64 t0 t'
  | enum (t t' : thtbl_t) (σ : Type) (cb : Option (Nat → σ → Int × σ)) (aux : σ)
      (e : thtbl_e) (r : σ × List Nat) :
      reachable lp64 t0 t → thtbl_enum lp64 (some t) cb aux = (e, some t', r) →
      reachable lp64 t0 t'

/-- Invariant of every reachable table, tombstones or not: the slot array has
`limit_overhead > 0` slots, and every Occupied value is reached by its own
probe sequence without passing an Empty slot. -/
structure probe_inv (lp64 : Bool) (t : thtbl_t) : Prop where
  lo_pos : 0 < t.limit_overhead
  len : t.slots.length = t.limit_overhead
  chain : ∀ j, j < t.limit_overhead → IS_USED lp64 (t.slots.getD j EMPTY) = true →
    ∃ k, k < t.limit_overhead ∧
      probe_index lp64 t.limit_overhead (t.hash (t.slots.getD j EMPTY)) k = j ∧
      ∀ d, d < k → probe_slot lp64 t (t.hash (t.slots.getD j EMPTY)) d ≠ EMPTY

/-- The fresh 32-bit table of limit 4 for the example callbacks. -/
def fresh_record : thtbl_t :=
  { hash := ptr_hash, cmp := ptr_cmp, rem := false, limit_overhead := 16, limit := 4,
    used := 0, cols := 0, searches := 0, slots := List.replicate 16 EMPTY, rem_calls := [] }

/-- The table `fresh_record` after the insertion of 17. -/
def one_value_record : thtbl_t :=
  { hash := ptr_hash, cmp := ptr_cmp, rem := false, limit_overhead := 16, limit := 4,
    used := 1, cols := 0, searches := 1,
    slots := [0, 17, 0, 0, 0, 0, 0, 0, 0, 0, 0, 0, 0, 0, 0, 0], rem_calls := [] }

/-- The table `one_value_record` after the removal of 17. -/
def one_tombstone_record : thtbl_t :=
  { hash := ptr_hash, cmp := ptr_cmp, rem := false, limit_overhead := 16, limit := 4,
    used := 0, cols := 0, searches := 2,
    slots := [0, DELETED false, 0, 0, 0, 0, 0, 0, 0, 0, 0, 0, 0, 0, 0, 0], rem_calls := [] }

/-- The table `fresh_record` after the insertions of 1, 2, 3 and 4: `used`
has reached `limit`. -/
def full_record : thtbl_t :=
  { hash := ptr_hash, cmp := ptr_cmp, rem := false, limit_overhead := 16, limit := 4,
    used := 4, cols := 0, searches := 4,
    slots := [0, 1, 2, 3, 4, 0, 0, 0, 0, 0, 0, 0, 0, 0, 0, 0], rem_calls := [] }

/-- The probe of `thtbl_insert` or `thtbl_remove` for `v` passes over its
first `m` slots: each is used and does not compare equal to `v`. -/
def probe_passes (lp64 : Bool) (t : thtbl_t) (v m : Nat) : Prop :=
  ∀ d, d < m → IS_NOT_USED lp64 (probe_slot lp64 t (t.hash v) d) = false ∧
    t.cmp v (probe_slot lp64 t (t.hash v) d) ≠ 0

/-- The probe of `thtbl_find` for `v` passes over its first `m` slots: each is
Deleted, or used and not comparing equal to `v`. -/
def find_passes (lp64 : Bool) (t : thtbl_t) (v m : Nat) : Prop :=
  ∀ d, d < m → IS_EMPTY (probe_slot lp64 t (t.hash v) d) = false ∧
    (IS_DELETED lp64 (probe_slot lp64 t (t.hash v) d) = true ∨
      t.cmp v (probe_slot lp64 t (t.hash v) d) ≠ 0)

/-- Example allocator: every request is refused (it returns null). -/
def no_calloc (_nmemb _size : Nat) : Bool := false

/-- Example allocator that behaves as the C library's `calloc` does on a
request whose byte count does not fit `size_t`: it refuses such a request
and grants every other one. -/
def libc_calloc (lp64 : Bool) (nmemb size : Nat) : Bool :=
  decide (nmemb * size < SIZE_MOD lp64)

/-- A 32-bit table of limit 4 that holds one value twice: 16 and 32, whose
home is slot 0, are inserted, 16 is removed, and 32 is inserted again. -/
def duplicate_table : Option thtbl_t :=
  (thtbl_insert false
    (thtbl_remove false
      (thtbl_insert false (thtbl_insert false (some fresh_record) 16).2 32).2 16).2 32).2

/-- Capacity invariant of the tables reached from the created table `t0`: the
callbacks, `limit` and `limit_overhead` are those of `t0`, the slot array has
`limit_overhead` slots, and `1 ≤ limit`, `used ≤ limit`,
`limit < limit_overhead < 2 ^ SIZE_BITS`. -/
structure cap_inv (lp64 : Bool) (t0 t : thtbl_t) : Prop where
  hash_eq : t.hash = t0.hash
  cmp_eq : t.cmp = t0.cmp
  rem_eq : t.rem = t0.rem
  limit_eq : t.limit = t0.limit
  lo_eq : t.limit_overhead = t0.limit_overhead
  len : t.slots.length = t.limit_overhead
  one_le : 1 ≤ t.limit
  used_le : t.used ≤ t.limit
  lim_lt : t.limit < t.limit_overhead
  lo_lt : t.limit_overhead < SIZE_MOD lp64

/-- The number of Occupied slots of a table (neither `EMPTY` nor `DELETED`). -/
def count_used (lp64 : Bool) (t : thtbl_t) : Nat :=
  t.slots.countP (fun s => IS_USED lp64 s)

/-- The table states reached from `t0` like `reachable`, except that the value
given to `thtbl_insert` is never the `DELETED` sentinel pointer. -/
inductive reachable_values (lp64 : Bool) (t0 : thtbl_t) : thtbl_t → Prop where
  | init : reachable_values lp64 t0 t0
  | insert (t t' : thtbl_t) (v : Nat) (e : thtbl_e) :
      reachable_values lp64 t0 t → v ≠ DELETED lp64 →
      thtbl_insert lp64 (some t) v = (e, some t') →
      reachable_values lp64 t0 t'
  | remove (t t' : thtbl_t) (v : Nat) (e : thtbl_e) :
      reachable_values lp64 t0 t → thtbl_remove lp64 (some t) v = (e, some t') →
      reachable_values lp64 t0 t'
  | find (t t' : thtbl_t) (v : Nat) (e : thtbl_e) (f : Option Nat) :
      reachable_values lp64 t0 t → thtbl_find lp64 (some t) v = (e, some t', f) →
      reachable_values lp64 t0 t'
  | clear (t t' : thtbl_t) (e : thtbl_e) :
      reachable_values lp64 t0 t → thtbl_clear lp64 (some t) = (e, some t') →
      reachable_values lp64 t0 t'
  | enum (t t' : thtbl_t) (σ : Type) (cb : Option (Nat → σ → Int × σ)) (aux : σ)
      (e : thtbl_e) (r : σ × List Nat) :
      reachable_values lp64 t0 t → thtbl_enum lp64 (some t) cb aux = (e, some t', r) →
      reachable_values lp64 t0 t'

/-- A call that was rejected before probing left both counters alone. -/
def uncounted (t t' : thtbl_t) : Prop :=
  t'.searches = t.searches ∧ t'.cols = t.cols

/-- A call that probed counted one search and `m` collisions, both as
`size_t` increments. -/
def counted (lp64 : Bool) (t t' : thtbl_t) (m : Nat) : Prop :=
  t'.searches = (t.searches + 1) % SIZE_MOD lp64 ∧
  t'.cols = (t.cols + m) % SIZE_MOD lp64

/-- The table states of a removal-free history: reached from the created
table `t0`, or from a table `thtbl_clear` returned in any reachable state, by
calls of `thtbl_insert` and `thtbl_find` only. -/
inductive removal_free (lp64 : Bool) (t0 : thtbl_t) : thtbl_t → Prop where
  | init : removal_free lp64 t0 t0
  | cleared (t t' : thtbl_t) (e : thtbl_e) :
      reachable lp64 t0 t → thtbl_clear lp64 (some t) = (e, some t') →
      removal_free lp64 t0 t'
  | insert (t t' : thtbl_t) (v : Nat) (e : thtbl_e) :
      removal_free lp64 t0 t → thtbl_insert lp64 (some t) v = (e, some t') →
      removal_free lp64 t0 t'
  | find (t t' : thtbl_t) (v : Nat) (e : thtbl_e) (f : Option Nat) :
      removal_free lp64 t0 t → thtbl_find lp64 (some t) v = (e, some t', f) →
      removal_free lp64 t0 t'

/-- Invariant of removal-free histories: every Occupied value is reached by
its own probe sequence through used slots only, and no two Occupied slots
compare equal. -/
structure set_inv (lp64 : Bool) (t : thtbl_t) : Prop where
  chain : ∀ j, j < t.limit_overhead → IS_USED lp64 (t.slots.getD j EMPTY) = true →
    ∃ k, k < t.limit_overhead ∧
      probe_index lp64 t.limit_overhead (t.hash (t.slots.getD j EMPTY)) k = j ∧
      ∀ d, d < k →
        IS_NOT_USED lp64 (probe_slot lp64 t (t.hash (t.slots.getD j EMPTY)) d) = false
  nodup : ∀ i j, i < t.limit_overhead → j < t.limit_overhead → i ≠ j →
    IS_USED lp64 (t.slots.getD i EMPTY) = true → IS_USED lp64 (t.slots.getD j EMPTY) = true →
    t.cmp (t.slots.getD i EMPTY) (t.slots.getD j EMPTY) ≠ 0

/-- The `THTBL_LP64` table of limit 128 for the example callbacks, as
`thtbl_create` returns it: 256 Empty slots. -/
def created_128 : thtbl_t :=
  { hash := ptr_hash, cmp := ptr_cmp, rem := false, limit_overhead := 256, limit := 128,
    used := 0, cols := 0, searches := 0, slots := List.replicate 256 EMPTY, rem_calls := [] }

/-- The table `one_value_record` after the insertion of 33, whose home slot 1
is taken. -/
def two_value_record : thtbl_t :=
  { hash := ptr_hash, cmp := ptr_cmp, rem := false, limit_overhead := 16, limit := 4,
    used := 2, cols := 1, searches := 2,
    slots := [0, 17, 33, 0, 0, 0, 0, 0, 0, 0, 0, 0, 0, 0, 0, 0], rem_calls := [] }

/-- The table `two_value_record` after the insertion of 49, whose home slot
is 1 as well. -/
def three_value_record : thtbl_t :=
  { hash := ptr_hash, cmp := ptr_cmp, rem := false, limit_overhead := 16, limit := 4,
    used := 3, cols := 3, searches := 3,
    slots := [0, 17, 33, 49, 0, 0, 0, 0, 0, 0, 0, 0, 0, 0, 0, 0], rem_calls := [] }

/-- The fresh 32-bit table of limit 4 after the insertions of A = `DELETED`
(the sentinel pointer `0xffffffff`), B = 33 and C = 49 and the removal of
B. -/
def sentinel_abc_table : Option thtbl_t :=
  (thtbl_remove false (insert_list false (some fresh_record) [DELETED false, 33, 49]) 33).2

/-! ## Properties -/

theorem probe_index_lt (lp64 : Bool) (lo h k : Nat) (hlo : 0 < lo) :
    probe_index lp64 lo h k < lo := by
  unfold probe_index
  have := @Nat.and_le_right ((h + k) % SIZE_MOD lp64) (lo - 1)
  omega

theorem probe_index_pow2 (lp64 : Bool) (n h k : Nat) (hn : n ≤ SIZE_BITS lp64) :
    probe_index lp64 (2 ^ n) h k = (h + k) % 2 ^ n := by
  unfold probe_index SIZE_MOD
  rw [Nat.and_pow_two_sub_one_eq_mod]
  exact Nat.mod_mod_of_dvd _ (Nat.pow_dvd_pow 2 hn)

theorem getD_set (l : List Nat) (i j v d : Nat) :
    (l.set i v).getD j d = if i = j ∧ i < l.length then v else l.getD j d := by
  simp only [List.getD_eq_getElem?_getD, List.getElem?_set]
  by_cases hij : i = j
  · subst hij
    by_cases hl : i < l.length
    · simp [hl]
    · simp [hl, List.getElem?_eq_none (Nat.le_of_not_lt hl)]
  · simp [hij]

theorem insert_loop_succ (lp64 : Bool) (v h : Nat) (self : thtbl_t) (n k : Nat) :
    insert_loop lp64 v h self (n + 1) k =
      if IS_NOT_USED lp64 (probe_slot lp64 self h k) then
        (THTBL_EOK,
          { self with
            slots := self.slots.set (probe_index lp64 self.limit_overhead h k) v,
            used := (self.used + 1) % SIZE_MOD lp64 })
      else if self.cmp v (probe_slot lp64 self h k) ≠ 0 then
        insert_loop lp64 v h { self with cols := (self.cols + 1) % SIZE_MOD lp64 } n (k + 1)
      else (THTBL_EEXIST, self) := rfl

theorem insert_loop_cases (lp64 : Bool) (v h : Nat) :
    ∀ (n : Nat) (self : thtbl_t) (k : Nat),
      (∃ m, m < n ∧
        (∀ d, d < m → IS_NOT_USED lp64 (probe_slot lp64 self h (k + d)) = false ∧
          self.cmp v (probe_slot lp64 self h (k + d)) ≠ 0) ∧
        IS_NOT_USED lp64 (probe_slot lp64 self h (k + m)) = true ∧
        insert_loop lp64 v h self n k =
          (THTBL_EOK,
            { self with
              cols := bump_cols lp64 m self.cols,
              slots := self.slots.set (probe_index lp64 self.limit_overhead h (k + m)) v,
              used := (self.used + 1) % SIZE_MOD lp64 }))
      ∨ (∃ m, m < n ∧
        (∀ d, d < m → IS_NOT_USED lp64 (probe_slot lp64 self h (k + d)) = false ∧
          self.cmp v (probe_slot lp64 self h (k + d)) ≠ 0) ∧
        IS_NOT_USED lp64 (probe_slot lp64 self h (k + m)) = false ∧
        self.cmp v (probe_slot lp64 self h (k + m)) = 0 ∧
        insert_loop lp64 v h self n k =
          (THTBL_EEXIST, { self with cols := bump_cols lp64 m self.cols }))
      ∨ ((∀ d, d < n → IS_NOT_USED lp64 (probe_slot lp64 self h (k + d)) = false ∧
          self.cmp v (probe_slot lp64 self h (k + d)) ≠ 0) ∧
        insert_loop lp64 v h self n k =
          (THTBL_EFULL, { self with cols := bump_cols lp64 n self.cols })) := by
  intro n
  induction n with
  | zero =>
    intro self k
    right; right
    exact ⟨fun d hd => absurd hd (Nat.not_lt_zero d), rfl⟩
  | succ n ih =>
    intro self k
    by_cases h1 : IS_NOT_USED lp64 (probe_slot lp64 self h k) = true
    · left
      refine ⟨0, Nat.succ_pos n, fun d hd => absurd hd (Nat.not_lt_zero d), h1, ?_⟩
      rw [insert_loop_succ, if_pos h1]; rfl
    · have h1f : IS_NOT_USED lp64 (probe_slot lp64 self h k) = false := by simpa using h1
      by_cases h2 : self.cmp v (probe_slot lp64 self h k) = 0
      · right; left
        refine ⟨0, Nat.succ_pos n, fun d hd => absurd hd (Nat.not_lt_zero d), h1f, h2, ?_⟩
        rw [insert_loop_succ, if_neg h1, if_neg (not_not.mpr h2)]; rfl
      · have hstep : insert_loop lp64 v h self (n + 1) k =
            insert_loop lp64 v h { self with cols := (self.cols + 1) % SIZE_MOD lp64 } n (k + 1) := by
          rw [insert_loop_succ, if_neg h1, if_pos h2]
        have hshift : ∀ d, k + 1 + d = k + (d + 1) := fun d => by omega
        have hall : ∀ m, (∀ d, d < m →
              IS_NOT_USED lp64 (probe_slot lp64 self h (k + 1 + d)) = false ∧
              self.cmp v (probe_slot lp64 self h (k + 1 + d)) ≠ 0) →
            ∀ d, d < m + 1 →
              IS_NOT_USED lp64 (probe_slot lp64 self h (k + d)) = false ∧
              self.cmp v (probe_slot lp64 self h (k + d)) ≠ 0 := by
          intro m hm d hd
          cases d with
          | zero => exact ⟨h1f, h2⟩
          | succ d =>
            have := hm d (by omega)
            rwa [hshift] at this
        rcases ih { self with cols := (self.cols + 1) % SIZE_MOD lp64 } (k + 1) with
          ⟨m, hm, hpre, hnu, heq⟩ | ⟨m, hm, hpre, hnu, hc, heq⟩ | ⟨hpre, heq⟩
        · left
          refine ⟨m + 1, by omega, hall m hpre, ?_, ?_⟩
          · have := hnu; rwa [hshift] at this
          · rw [hstep, heq, hshift]; rfl
        · right; left
          refine ⟨m + 1, by omega, hall m hpre, ?_, ?_, ?_⟩
          · have := hnu; rwa [hshift] at this
          · have := hc; rwa [hshift] at this
          · rw [hstep, heq]; rfl
        · right; right
          refine ⟨hall n hpre, ?_⟩
          rw [hstep, heq]; rfl

theorem remove_loop_succ (lp64 : Bool) (v h : Nat) (self : thtbl_t) (n k : Nat) :
    remove_loop lp64 v h self (n + 1) k =
      if IS_NOT_USED lp64 (probe_slot lp64 self h k) then (THTBL_ENOENT, self)
      else if self.cmp v (probe_slot lp64 self h k) ≠ 0 then
        remove_loop lp64 v h { self with cols := (self.cols + 1) % SIZE_MOD lp64 } n (k + 1)
      else
        (THTBL_EOK,
          { self with
            rem_calls :=
              if self.rem then self.rem_calls ++ [probe_slot lp64 self h k] else self.rem_calls,
            slots := self.slots.set (probe_index lp64 self.limit_overhead h k) (DELETED lp64),
            used := self.used - 1 }) := rfl

theorem remove_loop_cases (lp64 : Bool) (v h : Nat) :
    ∀ (n : Nat) (self : thtbl_t) (k : Nat),
      (∃ m, m < n ∧
        (∀ d, d < m → IS_NOT_USED lp64 (probe_slot lp64 self h (k + d)) = false ∧
          self.cmp v (probe_slot lp64 self h (k + d)) ≠ 0) ∧
        IS_NOT_USED lp64 (probe_slot lp64 self h (k + m)) = true ∧
        remove_loop lp64 v h self n k =
          (THTBL_ENOENT, { self with cols := bump_cols lp64 m self.cols }))
      ∨ (∃ m, m < n ∧
        (∀ d, d < m → IS_NOT_USED lp64 (probe_slot lp64 self h (k + d)) = false ∧
          self.cmp v (probe_slot lp64 self h (k + d)) ≠ 0) ∧
        IS_NOT_USED lp64 (probe_slot lp64 self h (k + m)) = false ∧
        self.cmp v (probe_slot lp64 self h (k + m)) = 0 ∧
        remove_loop lp64 v h self n k =
          (THTBL_EOK,
            { self with
              cols := bump_cols lp64 m self.cols,
              rem_calls :=
                if self.rem then self.rem_calls ++ [probe_slot lp64 self h (k + m)]
                else self.rem_calls,
              slots :=
                self.slots.set (probe_index lp64 self.limit_overhead h (k + m)) (DELETED lp64),
              used := self.used - 1 }))
      ∨ ((∀ d, d < n → IS_NOT_USED lp64 (probe_slot lp64 self h (k + d)) = false ∧
          self.cmp v (probe_slot lp64 self h (k + d)) ≠ 0) ∧
        remove_loop lp64 v h self n k =
          (THTBL_EFULL, { self with cols := bump_cols lp64 n self.cols })) := by
  intro n
  induction n with
  | zero =>
    intro self k
    right; right
    exact ⟨fun d hd => absurd hd (Nat.not_lt_zero d), rfl⟩
  | succ n ih =>
    intro self k
    by_cases h1 : IS_NOT_USED lp64 (probe_slot lp64 self h k) = true
    · left
      refine ⟨0, Nat.succ_pos n, fun d hd => absurd hd (Nat.not_lt_zero d), h1, ?_⟩
      rw [remove_loop_succ, if_pos h1]; rfl
    · have h1f : IS_NOT_USED lp64 (probe_slot lp64 self h k) = false := by simpa using h1
      by_cases h2 : self.cmp v (probe_slot lp64 self h k) = 0
      · right; left
        refine ⟨0, Nat.succ_pos n, fun d hd => absurd hd (Nat.not_lt_zero d), h1f, h2, ?_⟩
        rw [remove_loop_succ, if_neg h1, if_neg (not_not.mpr h2)]; rfl
      · have hstep : remove_loop lp64 v h self (n + 1) k =
            remove_loop lp64 v h { self with cols := (self.cols + 1) % SIZE_MOD lp64 } n (k + 1) := by
          rw [remove_loop_succ, if_neg h1, if_pos h2]
        have hshift : ∀ d, k + 1 + d = k + (d + 1) := fun d => by omega
        have hall : ∀ m, (∀ d, d < m →
              IS_NOT_USED lp64 (probe_slot lp64 self h (k + 1 + d)) = false ∧
              self.cmp v (probe_slot lp64 self h (k + 1 + d)) ≠ 0) →
            ∀ d, d < m + 1 →
              IS_NOT_USED lp64 (probe_slot lp64 self h (k + d)) = false ∧
              self.cmp v (probe_slot lp64 self h (k + d)) ≠ 0 := by
          intro m hm d hd
          cases d with
          | zero => exact ⟨h1f, h2⟩
          | succ d =>
            have := hm d (by omega)
            rwa [hshift] at this
        rcases ih { self with cols := (self.cols + 1) % SIZE_MOD lp64 } (k + 1) with
          ⟨m, hm, hpre, hnu, heq⟩ | ⟨m, hm, hpre, hnu, hc, heq⟩ | ⟨hpre, heq⟩
        · left
          refine ⟨m + 1, by omega, hall m hpre, ?_, ?_⟩
          · have := hnu; rwa [hshift] at this
          · rw [hstep, heq]; rfl
        · right; left
          refine ⟨m + 1, by omega, hall m hpre, ?_, ?_, ?_⟩
          · have := hnu; rwa [hshift] at this
          · have := hc; rwa [hshift] at this
          · rw [hstep, heq, hshift]; rfl
        · right; right
          refine ⟨hall n hpre, ?_⟩
          rw [hstep, heq]; rfl

theorem find_loop_succ (lp64 : Bool) (v h : Nat) (self : thtbl_t) (n k : Nat) :
    find_loop lp64 v h self (n + 1) k =
      if IS_EMPTY (probe_slot lp64 self h k) then (THTBL_ENOENT, self, none)
      else if IS_DELETED lp64 (probe_slot lp64 self h k) then
        find_loop lp64 v h { self with cols := (self.cols + 1) % SIZE_MOD lp64 } n (k + 1)
      else if self.cmp v (probe_slot lp64 self h k) ≠ 0 then
        find_loop lp64 v h { self with cols := (self.cols + 1) % SIZE_MOD lp64 } n (k + 1)
      else (THTBL_EOK, self, some (probe_slot lp64 self h k)) := rfl

theorem find_loop_cases (lp64 : Bool) (v h : Nat) :
    ∀ (n : Nat) (self : thtbl_t) (k : Nat),
      (∃ m, m < n ∧
        (∀ d, d < m → IS_EMPTY (probe_slot lp64 self h (k + d)) = false ∧
          (IS_DELETED lp64 (probe_slot lp64 self h (k + d)) = true ∨
            self.cmp v (probe_slot lp64 self h (k + d)) ≠ 0)) ∧
        IS_EMPTY (probe_slot lp64 self h (k + m)) = true ∧
        find_loop lp64 v h self n k =
          (THTBL_ENOENT, { self with cols := bump_cols lp64 m self.cols }, none))
      ∨ (∃ m, m < n ∧
        (∀ d, d < m → IS_EMPTY (probe_slot lp64 self h (k + d)) = false ∧
          (IS_DELETED lp64 (probe_slot lp64 self h (k + d)) = true ∨
            self.cmp v (probe_slot lp64 self h (k + d)) ≠ 0)) ∧
        IS_EMPTY (probe_slot lp64 self h (k + m)) = false ∧
        IS_DELETED lp64 (probe_slot lp64 self h (k + m)) = false ∧
        self.cmp v (probe_slot lp64 self h (k + m)) = 0 ∧
        find_loop lp64 v h self n k =
          (THTBL_EOK, { self with cols := bump_cols lp64 m self.cols },
            some (probe_slot lp64 self h (k + m))))
      ∨ ((∀ d, d < n → IS_EMPTY (probe_slot lp64 self h (k + d)) = false ∧
          (IS_DELETED lp64 (probe_slot lp64 self h (k + d)) = true ∨
            self.cmp v (probe_slot lp64 self h (k + d)) ≠ 0)) ∧
        find_loop lp64 v h self n k =
          (THTBL_EFULL, { self with cols := bump_cols lp64 n self.cols }, none)) := by
  intro n
  induction n with
  | zero =>
    intro self k
    right; right
    exact ⟨fun d hd => absurd hd (Nat.not_lt_zero d), rfl⟩
  | succ n ih =>
    intro self k
    by_cases h1 : IS_EMPTY (probe_slot lp64 self h k) = true
    · left
      refine ⟨0, Nat.succ_pos n, fun d hd => absurd hd (Nat.not_lt_zero d), h1, ?_⟩
      rw [find_loop_succ, if_pos h1]; rfl
    · have h1f : IS_EMPTY (probe_slot lp64 self h k) = false := by simpa using h1
      by_cases h2 : IS_DELETED lp64 (probe_slot lp64 self h k) = false ∧
          self.cmp v (probe_slot lp64 self h k) = 0
      · right; left
        refine ⟨0, Nat.succ_pos n, fun d hd => absurd hd (Nat.not_lt_zero d), h1f, h2.1, h2.2, ?_⟩
        rw [find_loop_succ, if_neg h1, if_neg (by simp [h2.1]), if_neg (not_not.mpr h2.2)]; rfl
      · have h2' : IS_DELETED lp64 (probe_slot lp64 self h k) = true ∨
            self.cmp v (probe_slot lp64 self h k) ≠ 0 := by
          by_cases hd : IS_DELETED lp64 (probe_slot lp64 self h k) = true
          · exact Or.inl hd
          · right
            intro hc
            exact h2 ⟨by simpa using hd, hc⟩
        have hstep : find_loop lp64 v h self (n + 1) k =
            find_loop lp64 v h { self with cols := (self.cols + 1) % SIZE_MOD lp64 } n (k + 1) := by
          rw [find_loop_succ, if_neg h1]
          by_cases hd : IS_DELETED lp64 (probe_slot lp64 self h k) = true
          · rw [if_pos hd]
          · rw [if_neg hd, if_pos (h2'.resolve_left hd)]
        have hshift : ∀ d, k + 1 + d = k + (d + 1) := fun d => by omega
        have hall : ∀ m, (∀ d, d < m →
              IS_EMPTY (probe_slot lp64 self h (k + 1 + d)) = false ∧
              (IS_DELETED lp64 (probe_slot lp64 self h (k + 1 + d)) = true ∨
                self.cmp v (probe_slot lp64 self h (k + 1 + d)) ≠ 0)) →
            ∀ d, d < m + 1 →
              IS_EMPTY (probe_slot lp64 self h (k + d)) = false ∧
              (IS_DELETED lp64 (probe_slot lp64 self h (k + d)) = true ∨
                self.cmp v (probe_slot lp64 self h (k + d)) ≠ 0) := by
          intro m hm d hd
          cases d with
          | zero => exact ⟨h1f, h2'⟩
          | succ d =>
            have := hm d (by omega)
            rwa [hshift] at this
        rcases ih { self with cols := (self.cols + 1) % SIZE_MOD lp64 } (k + 1) with
          ⟨m, hm, hpre, hnu, heq⟩ | ⟨m, hm, hpre, hnu, hdl, hc, heq⟩ | ⟨hpre, heq⟩
        · left
          refine ⟨m + 1, by omega, hall m hpre, ?_, ?_⟩
          · have := hnu; rwa [hshift] at this
          · rw [hstep, heq]; rfl
        · right; left
          refine ⟨m + 1, by omega, hall m hpre, ?_, ?_, ?_, ?_⟩
          · have := hnu; rwa [hshift] at this
          · have := hdl; rwa [hshift] at this
          · have := hc; rwa [hshift] at this
          · rw [hstep, heq, hshift]; rfl
        · right; right
          refine ⟨hall n hpre, ?_⟩
          rw [hstep, heq]; rfl

theorem shl_small (lp64 : Bool) (i : Nat) (hi : i < 31) :
    to_size_t lp64 (int_shl1 i) = 2 ^ i := by
  cases lp64 <;> interval_cases i <;> rfl

theorem calc_limit_loop_small (lp64 : Bool) (limit : Nat) (hlim : limit < 2 ^ 30) :
    ∀ (n i : Nat), 4 ≤ i → i ≤ 30 → 31 ≤ i + n → (i = 4 ∨ 2 ^ (i - 1) ≤ limit) →
      ∃ m, 4 ≤ m ∧ m ≤ 30 ∧ calc_limit_loop lp64 limit n i = 2 ^ m ∧ limit < 2 ^ m ∧
        (m = 4 ∨ 2 ^ (m - 1) ≤ limit) := by
  intro n
  induction n with
  | zero => intro i _ h30 hn _; omega
  | succ n ih =>
    intro i h4 h30 hn hprev
    have hr : to_size_t lp64 (int_shl1 i) = 2 ^ i := shl_small lp64 i (by omega)
    by_cases hgt : 2 ^ i > limit
    · refine ⟨i, h4, h30, ?_, hgt, hprev⟩
      simp only [calc_limit_loop, hr, if_pos hgt]
    · have hle : 2 ^ i ≤ limit := Nat.le_of_not_lt hgt
      have hi30 : i < 30 := by
        by_contra hc
        have : i = 30 := by omega
        subst this
        omega
      obtain ⟨m, hm4, hm30, hm, hlt, hleast⟩ :=
        ih (i + 1) (by omega) (by omega) (by omega) (Or.inr (by simpa using hle))
      refine ⟨m, hm4, hm30, ?_, hlt, hleast⟩
      simp only [calc_limit_loop, hr, if_neg hgt]
      exact hm

theorem calc_limit_small (lp64 : Bool) (limit : Nat) (hlim : limit < 2 ^ 30) :
    ∃ m, 4 ≤ m ∧ m ≤ 30 ∧ calc_limit lp64 limit = 2 ^ m ∧ limit < 2 ^ m ∧
      (m = 4 ∨ 2 ^ (m - 1) ≤ limit) := by
  unfold calc_limit
  apply calc_limit_loop_small lp64 limit hlim _ 4 (le_refl 4) (by omega) _ (Or.inl rfl)
  cases lp64 <;> simp

theorem calc_limit_loop_zero (limit : Nat) (hlim : 2 ^ 30 ≤ limit) :
    ∀ (n i : Nat), i + n ≤ 31 → calc_limit_loop false limit n i = 0 := by
  intro n
  induction n with
  | zero => intro i _; rfl
  | succ n ih =>
    intro i hn
    have hr : to_size_t false (int_shl1 i) = 2 ^ i := shl_small false i (by omega)
    have hle : 2 ^ i ≤ 2 ^ 30 := Nat.pow_le_pow_right (by omega) (by omega)
    have hgt : ¬ 2 ^ i > limit := by omega
    simp only [calc_limit_loop, hr, if_neg hgt]
    exact ih (i + 1) (by omega)

theorem calc_limit_32_large (limit : Nat) (hlim : 2 ^ 30 ≤ limit) :
    calc_limit false limit = 0 :=
  calc_limit_loop_zero limit hlim 27 4 (by omega)

theorem is_used_of_not_not_used (lp64 : Bool) (x : Nat) (h : IS_NOT_USED lp64 x = false) :
    IS_USED lp64 x = true := by
  simp only [IS_NOT_USED, Bool.or_eq_false_iff, beq_eq_false_iff_ne] at h
  simp only [IS_USED, Bool.and_eq_true, bne_iff_ne]
  exact h

theorem not_used_iff (lp64 : Bool) (x : Nat) :
    IS_NOT_USED lp64 x = true ↔ (x = EMPTY ∨ x = DELETED lp64) := by
  simp [IS_NOT_USED]

theorem is_used_iff (lp64 : Bool) (x : Nat) :
    IS_USED lp64 x = true ↔ (x ≠ EMPTY ∧ x ≠ DELETED lp64) := by
  simp [IS_USED]

theorem deleted_ne_empty (lp64 : Bool) : DELETED lp64 ≠ EMPTY := by
  cases lp64 <;> decide

theorem size_mod_pos (lp64 : Bool) : 0 < SIZE_MOD lp64 := by
  unfold SIZE_MOD; exact Nat.pos_pow_of_pos _ (by decide)

theorem probe_index_surj (lp64 : Bool) (n h j : Nat) (hn : n ≤ SIZE_BITS lp64)
    (hj : j < 2 ^ n) : ∃ k, k < 2 ^ n ∧ probe_index lp64 (2 ^ n) h k = j := by
  have ha : h % 2 ^ n < 2 ^ n := Nat.mod_lt _ (Nat.pos_pow_of_pos _ (by decide))
  by_cases hle : h % 2 ^ n ≤ j
  · refine ⟨j - h % 2 ^ n, by omega, ?_⟩
    rw [probe_index_pow2 lp64 n h _ hn, ← Nat.mod_add_mod]
    have : h % 2 ^ n + (j - h % 2 ^ n) = j := by omega
    rw [this, Nat.mod_eq_of_lt hj]
  · refine ⟨j + 2 ^ n - h % 2 ^ n, by omega, ?_⟩
    rw [probe_index_pow2 lp64 n h _ hn, ← Nat.mod_add_mod]
    have : h % 2 ^ n + (j + 2 ^ n - h % 2 ^ n) = j + 2 ^ n := by omega
    rw [this, Nat.add_mod_right, Nat.mod_eq_of_lt hj]

theorem chain_inv_lo_pos (lp64 : Bool) (t : thtbl_t) (hinv : chain_inv lp64 t) :
    0 < t.limit_overhead := by
  obtain ⟨n, _, hlo⟩ := hinv.pow
  rw [hlo]; exact Nat.pos_pow_of_pos _ (by decide)

theorem chain_inv_lo_le (lp64 : Bool) (t : thtbl_t) (hinv : chain_inv lp64 t) :
    t.limit_overhead ≤ SIZE_MOD lp64 := by
  obtain ⟨n, hn, hlo⟩ := hinv.pow
  rw [hlo]; exact Nat.pow_le_pow_right (by decide) hn

/-- Pigeonhole: when a whole probe sequence sees only used slots, the table
is physically full. -/
theorem chain_inv_full (lp64 : Bool) (t : thtbl_t) (hinv : chain_inv lp64 t) (h : Nat)
    (hall : ∀ d, d < t.limit_overhead → IS_NOT_USED lp64 (probe_slot lp64 t h d) = false) :
    t.used = t.limit_overhead := by
  obtain ⟨n, hn, hlo⟩ := hinv.pow
  rw [← hinv.count, ← hinv.len, List.countP_eq_length]
  intro s hs
  obtain ⟨j, hj, hjs⟩ := List.mem_iff_getElem.mp hs
  have hj' : j < 2 ^ n := by rw [← hlo, ← hinv.len]; exact hj
  obtain ⟨k, hk, hidx⟩ := probe_index_surj lp64 n h j hn hj'
  have := hall k (by rw [hlo]; exact hk)
  unfold probe_slot at this
  rw [hlo, hidx, List.getD_eq_getElem _ _ hj, hjs] at this
  exact is_used_of_not_not_used lp64 s this

theorem countP_set_used (lp64 : Bool) (l : List Nat) (p v : Nat) (hp : p < l.length)
    (hold : IS_USED lp64 (l.getD p EMPTY) = false) (hv : IS_USED lp64 v = true) :
    (l.set p v).countP (fun s => IS_USED lp64 s) =
      l.countP (fun s => IS_USED lp64 s) + 1 := by
  rw [List.countP_set _ _ _ _ hp]
  rw [List.getD_eq_getElem _ _ hp] at hold
  simp [hold, hv]

theorem getD_set_ne_empty (l : List Nat) (p i v : Nat) (hv : v ≠ EMPTY)
    (hold : l.getD i EMPTY ≠ EMPTY) : (l.set p v).getD i EMPTY ≠ EMPTY := by
  rw [getD_set]
  split
  · exact hv
  · exact hold

theorem probe_slot_mem (lp64 : Bool) (t : thtbl_t) (h k : Nat)
    (hlen : t.slots.length = t.limit_overhead) (hlo : 0 < t.limit_overhead) :
    probe_slot lp64 t h k ∈ t.slots := by
  unfold probe_slot
  have hlt : probe_index lp64 t.limit_overhead h k < t.slots.length := by
    rw [hlen]; exact probe_index_lt lp64 _ h k hlo
  rw [List.getD_eq_getElem _ _ hlt]
  exact List.getElem_mem hlt

theorem insert_fresh (lp64 : Bool) (t : thtbl_t) (v : Nat) (hinv : chain_inv lp64 t)
    (hv0 : v ≠ NULL) (hvd : v ≠ DELETED lp64) (hused : t.used < t.limit)
    (hne : ∀ s, s ∈ t.slots → s ≠ EMPTY → t.cmp v s ≠ 0) :
    ∃ t' p, thtbl_insert lp64 (some t) v = (THTBL_EOK, some t') ∧ chain_inv lp64 t' ∧
      p < t.limit_overhead ∧ t.slots.getD p EMPTY = EMPTY ∧ t'.slots = t.slots.set p v ∧
      t'.hash = t.hash ∧ t'.cmp = t.cmp ∧ t'.limit = t.limit ∧
      t'.limit_overhead = t.limit_overhead ∧ t'.used = t.used + 1 := by
  have hlo := chain_inv_lo_pos lp64 t hinv
  have hlole := chain_inv_lo_le lp64 t hinv
  have hlen := hinv.len
  have hlim := hinv.lim
  have hins : thtbl_insert lp64 (some t) v =
      ((insert_loop lp64 v (t.hash v)
          { t with searches := (t.searches + 1) % SIZE_MOD lp64 } t.limit_overhead 0).1,
        some (insert_loop lp64 v (t.hash v)
          { t with searches := (t.searches + 1) % SIZE_MOD lp64 } t.limit_overhead 0).2) := by
    have h1 : ¬ t.used ≥ t.limit := Nat.not_le.mpr hused
    unfold thtbl_insert
    simp only [if_neg hv0, if_neg h1]
  have hps : ∀ d, probe_slot lp64 { t with searches := (t.searches + 1) % SIZE_MOD lp64 }
      (t.hash v) (0 + d) = probe_slot lp64 t (t.hash v) d := by
    intro d; rw [Nat.zero_add]; rfl
  rcases insert_loop_cases lp64 v (t.hash v) t.limit_overhead
      { t with searches := (t.searches + 1) % SIZE_MOD lp64 } 0 with
    ⟨m, hm, hpre, hnu, heq⟩ | ⟨m, hm, hpre, hnu, hc, heq⟩ | ⟨hpre, heq⟩
  · -- placed
    simp only [hps] at hpre hnu
    have hmem := probe_slot_mem lp64 t (t.hash v) m hlen hlo
    have hempty : probe_slot lp64 t (t.hash v) m = EMPTY := by
      rcases (not_used_iff lp64 _).mp hnu with h | h
      · exact h
      · exact absurd h (hinv.nodel _ hmem)
    have hplt : probe_index lp64 t.limit_overhead (t.hash v) m < t.limit_overhead :=
      probe_index_lt lp64 _ _ _ hlo
    have hvu : IS_USED lp64 v = true := (is_used_iff lp64 v).mpr ⟨hv0, hvd⟩
    rw [heq] at hins
    simp only [Nat.zero_add] at hins
    refine ⟨_, probe_index lp64 t.limit_overhead (t.hash v) m, hins, ?_, hplt, hempty,
      rfl, rfl, rfl, rfl, rfl, ?_⟩
    · refine ⟨hinv.pow, ?_, hlim, ?_, ?_, ?_⟩
      · show (t.slots.set _ v).length = t.limit_overhead
        rw [List.length_set]; exact hlen
      · intro s hs
        rcases List.mem_or_eq_of_mem_set hs with h | h
        · exact hinv.nodel s h
        · rw [h]; exact hvd
      · show (t.slots.set _ v).countP _ = (t.used + 1) % SIZE_MOD lp64
        rw [countP_set_used lp64 _ _ _ (by rw [hlen]; exact hplt) _ hvu, hinv.count]
        · exact (Nat.mod_eq_of_lt (by omega)).symm
        · have : t.slots.getD (probe_index lp64 t.limit_overhead (t.hash v) m) EMPTY = EMPTY :=
            hempty
          rw [this]; rfl
      · intro j hj hjne
        have hjne' : (t.slots.set (probe_index lp64 t.limit_overhead (t.hash v) m) v).getD j
            EMPTY ≠ EMPTY := hjne
        show ∃ k, k < t.limit_overhead ∧
          probe_index lp64 t.limit_overhead (t.hash
            ((t.slots.set (probe_index lp64 t.limit_overhead (t.hash v) m) v).getD j EMPTY)) k
              = j ∧
          ∀ d, d < k → (t.slots.set (probe_index lp64 t.limit_overhead (t.hash v) m) v).getD
            (probe_index lp64 t.limit_overhead (t.hash
              ((t.slots.set (probe_index lp64 t.limit_overhead (t.hash v) m) v).getD j EMPTY)) d)
            EMPTY ≠ EMPTY
        by_cases hjp : probe_index lp64 t.limit_overhead (t.hash v) m = j
        · have hval : (t.slots.set (probe_index lp64 t.limit_overhead (t.hash v) m) v).getD j
              EMPTY = v := by
            rw [getD_set, if_pos ⟨hjp, by rw [hlen]; exact hplt⟩]
          rw [hval]
          refine ⟨m, hm, hjp, ?_⟩
          intro d hd
          apply getD_set_ne_empty _ _ _ _ hv0
          have := (hpre d hd).1
          exact ((is_used_iff lp64 _).mp (is_used_of_not_not_used lp64 _ this)).1
        · have hval : (t.slots.set (probe_index lp64 t.limit_overhead (t.hash v) m) v).getD j
              EMPTY = t.slots.getD j EMPTY := by
            rw [getD_set, if_neg (fun h => hjp h.1)]
          rw [hval] at hjne' ⊢
          obtain ⟨k, hk, hidx, hch⟩ := hinv.chain j hj hjne'
          refine ⟨k, hk, hidx, ?_⟩
          intro d hd
          exact getD_set_ne_empty _ _ _ _ hv0 (hch d hd)
    · show (t.used + 1) % SIZE_MOD lp64 = t.used + 1
      exact Nat.mod_eq_of_lt (by omega)
  · -- an equal value is met: excluded
    simp only [hps] at hnu hc
    have hmem := probe_slot_mem lp64 t (t.hash v) m hlen hlo
    have hs0 := ((is_used_iff lp64 _).mp (is_used_of_not_not_used lp64 _ hnu)).1
    exact absurd hc (hne _ hmem hs0)
  · -- physically full: excluded
    simp only [hps] at hpre
    have := chain_inv_full lp64 t hinv (t.hash v) (fun d hd => (hpre d hd).1)
    omega

theorem find_stored (lp64 : Bool) (t : thtbl_t) (v j : Nat) (hinv : chain_inv lp64 t)
    (hj : j < t.limit_overhead) (hjv : t.slots.getD j EMPTY = v) (hv0 : v ≠ NULL)
    (hrefl : t.cmp v v = 0) :
    ∃ t' f, thtbl_find lp64 (some t) v = (THTBL_EOK, some t', some f) ∧ t.cmp v f = 0 := by
  have hlo := chain_inv_lo_pos lp64 t hinv
  have hlen := hinv.len
  have hjl : j < t.slots.length := by rw [hlen]; exact hj
  have hvmem : v ∈ t.slots := by
    rw [← hjv, List.getD_eq_getElem _ _ hjl]; exact List.getElem_mem hjl
  have hvd : v ≠ DELETED lp64 := hinv.nodel v hvmem
  have hused : ¬ t.used = 0 := by
    rw [← hinv.count]
    have : 0 < t.slots.countP (fun s => IS_USED lp64 s) :=
      List.countP_pos_iff.mpr ⟨v, hvmem, (is_used_iff lp64 v).mpr ⟨hv0, hvd⟩⟩
    omega
  have hfind : thtbl_find lp64 (some t) v =
      ((find_loop lp64 v (t.hash v)
          { t with searches := (t.searches + 1) % SIZE_MOD lp64 } t.limit_overhead 0).1,
        some (find_loop lp64 v (t.hash v)
          { t with searches := (t.searches + 1) % SIZE_MOD lp64 } t.limit_overhead 0).2.1,
        (find_loop lp64 v (t.hash v)
          { t with searches := (t.searches + 1) % SIZE_MOD lp64 } t.limit_overhead 0).2.2) := by
    unfold thtbl_find
    simp only [if_neg hv0, if_neg hused]
  have hps : ∀ d, probe_slot lp64 { t with searches := (t.searches + 1) % SIZE_MOD lp64 }
      (t.hash v) (0 + d) = probe_slot lp64 t (t.hash v) d := by
    intro d; rw [Nat.zero_add]; rfl
  have hjne : t.slots.getD j EMPTY ≠ EMPTY := by rw [hjv]; exact hv0
  obtain ⟨k, hk, hidx, hch⟩ := hinv.chain j hj hjne
  rw [hjv] at hidx hch
  have hslotk : probe_slot lp64 t (t.hash v) k = v := by
    unfold probe_slot; rw [hidx]; exact hjv
  have hnotskip : ¬ (IS_EMPTY (probe_slot lp64 t (t.hash v) k) = false ∧
      (IS_DELETED lp64 (probe_slot lp64 t (t.hash v) k) = true ∨
        t.cmp v (probe_slot lp64 t (t.hash v) k) ≠ 0)) := by
    rw [hslotk]
    rintro ⟨_, h | h⟩
    · exact hvd (by simpa [IS_DELETED] using h)
    · exact h hrefl
  rcases find_loop_cases lp64 v (t.hash v) t.limit_overhead
      { t with searches := (t.searches + 1) % SIZE_MOD lp64 } 0 with
    ⟨m, hm, hpre, hemp, heq⟩ | ⟨m, hm, hpre, hemp, hdel, hc, heq⟩ | ⟨hpre, heq⟩
  · simp only [hps] at hpre hemp
    exfalso
    have hemp' : probe_slot lp64 t (t.hash v) m = EMPTY := by simpa [IS_EMPTY] using hemp
    rcases Nat.lt_trichotomy m k with h | h | h
    · exact hch m h hemp'
    · rw [h, hslotk] at hemp'; exact hv0 hemp'
    · exact hnotskip (hpre k h)
  · simp only [hps] at hc
    rw [heq] at hfind
    exact ⟨_, _, hfind, by simpa [hps] using hc⟩
  · simp only [hps] at hpre
    exact absurd (hpre k hk) hnotskip

theorem getD_replicate_empty (n j : Nat) : (List.replicate n EMPTY).getD j EMPTY = EMPTY := by
  rw [List.getD_eq_getElem?_getD, List.getElem?_replicate]
  split <;> rfl

theorem fresh_chain_inv (lp64 : Bool) (hash : Nat → Nat) (cmp : Nat → Nat → Int) (rem : Bool)
    (lo limit n : Nat) (hn : n ≤ SIZE_BITS lp64) (hlo : lo = 2 ^ n) (hlim : limit < lo) :
    chain_inv lp64
      { hash := hash, cmp := cmp, rem := rem, limit_overhead := lo, limit := limit,
        used := 0, cols := 0, searches := 0, slots := List.replicate lo EMPTY,
        rem_calls := [] } := by
  refine ⟨⟨n, hn, hlo⟩, List.length_replicate _ _, hlim, ?_, ?_, ?_⟩
  · intro s hs
    rw [List.eq_of_mem_replicate hs]
    exact (deleted_ne_empty lp64).symm
  · show (List.replicate lo EMPTY).countP _ = 0
    rw [List.countP_eq_zero]
    intro s hs
    rw [List.eq_of_mem_replicate hs]
    simp [IS_USED]
  · intro j _ hne
    exact absurd (getD_replicate_empty lo j) hne

theorem create_eok (lp64 self_ok : Bool) (limit : Nat) (hash : Option (Nat → Nat))
    (cmp : Option (Nat → Nat → Int)) (rem : Bool) (calloc : Option (Nat → Nat → Bool))
    (free : Bool) (t : thtbl_t)
    (h : thtbl_create lp64 self_ok limit hash cmp rem calloc free = (THTBL_EOK, some t)) :
    limit ≠ 0 ∧ calc_limit lp64 limit ≠ 0 ∧
    ∃ hf cf, hash = some hf ∧ cmp = some cf ∧
      t = { hash := hf, cmp := cf, rem := rem, limit_overhead := calc_limit lp64 limit,
            limit := limit, used := 0, cols := 0, searches := 0,
            slots := List.replicate (calc_limit lp64 limit) EMPTY, rem_calls := [] } := by
  unfold thtbl_create at h
  split at h
  · simp at h
  split at h
  · simp at h
  rename_i hl
  simp only at h
  split at h
  · simp at h
  rename_i hc
  refine ⟨hl, hc, ?_⟩
  cases hash with
  | none => simp at h
  | some hf =>
    cases cmp with
    | none => simp at h
    | some cf =>
      cases calloc with
      | none => simp at h
      | some af =>
        simp only at h
        split at h
        · simp at h
        split at h
        · simp at h
        split at h
        · simp at h
        simp only [Prod.mk.injEq, Option.some.injEq, true_and] at h
        exact ⟨hf, cf, rfl, rfl, h.symm⟩

theorem insert_all_fresh (lp64 : Bool) (hash : Nat → Nat) (cmp : Nat → Nat → Int)
    (hsymm : ∀ a b, cmp a b = 0 → cmp b a = 0) :
    ∀ (vs ps : List Nat) (t : thtbl_t), chain_inv lp64 t → t.hash = hash → t.cmp = cmp →
      (∀ s, s ∈ t.slots → s ≠ EMPTY → s ∈ ps) →
      (∀ v, v ∈ ps → ∃ j, j < t.limit_overhead ∧ t.slots.getD j EMPTY = v) →
      (∀ v, v ∈ ps → v ≠ NULL) →
      t.used + vs.length ≤ t.limit →
      (∀ v, v ∈ vs → v ≠ NULL ∧ v ≠ DELETED lp64) →
      (ps ++ vs).Pairwise (fun a b => cmp a b ≠ 0) →
      ∃ t', insert_all lp64 (some t) vs = (List.replicate vs.length THTBL_EOK, some t') ∧
        chain_inv lp64 t' ∧ t'.hash = hash ∧ t'.cmp = cmp ∧
        (∀ v, v ∈ ps ++ vs → ∃ j, j < t'.limit_overhead ∧ t'.slots.getD j EMPTY = v) := by
  intro vs
  induction vs with
  | nil =>
    intro ps t hinv hh hc _ hpres _ _ _ _
    refine ⟨t, rfl, hinv, hh, hc, ?_⟩
    intro v hv
    rw [List.append_nil] at hv
    exact hpres v hv
  | cons v vs ih =>
    intro ps t hinv hh hc hsub hpres hps0 hroom hval hpw
    have hvv := hval v (List.mem_cons_self v vs)
    have hlen : (v :: vs).length = vs.length + 1 := rfl
    rw [List.pairwise_append] at hpw
    obtain ⟨hpp, hpv, hcross⟩ := hpw
    have hne : ∀ s, s ∈ t.slots → s ≠ EMPTY → t.cmp v s ≠ 0 := by
      intro s hs hs0 hcv
      rw [hc] at hcv
      exact hcross s (hsub s hs hs0) v (List.mem_cons_self v vs) (hsymm v s hcv)
    obtain ⟨t1, p, hins, hinv1, hp, hpe, hslots, hh1, hc1, hl1, hlo1, hu1⟩ :=
      insert_fresh lp64 t v hinv hvv.1 hvv.2 (by omega) hne
    have hpl : p < t.slots.length := by rw [hinv.len]; exact hp
    have hpw1 : ((ps ++ [v]) ++ vs).Pairwise (fun a b => cmp a b ≠ 0) := by
      rw [List.append_assoc, List.singleton_append, List.pairwise_append]
      exact ⟨hpp, hpv, hcross⟩
    obtain ⟨t2, hall, hinv2, hh2, hc2, hpres2⟩ :=
      ih (ps ++ [v]) t1 hinv1 (hh1.trans hh) (hc1.trans hc)
        (by
          intro s hs hs0
          rw [hslots] at hs
          rcases List.mem_or_eq_of_mem_set hs with h | h
          · exact List.mem_append_left _ (hsub s h hs0)
          · rw [h]; exact List.mem_append_right _ (List.mem_singleton_self v))
        (by
          intro w hw
          rw [hlo1, hslots]
          rcases List.mem_append.mp hw with h | h
          · obtain ⟨j, hj, hjw⟩ := hpres w h
            refine ⟨j, hj, ?_⟩
            rw [getD_set, if_neg]
            · exact hjw
            · rintro ⟨hpj, _⟩
              rw [← hpj, hpe] at hjw
              exact hps0 w h hjw.symm
          · rw [List.mem_singleton.mp h]
            exact ⟨p, hp, by rw [getD_set, if_pos ⟨rfl, hpl⟩]⟩)
        (by
          intro w hw
          rcases List.mem_append.mp hw with h | h
          · exact hps0 w h
          · rw [List.mem_singleton.mp h]; exact hvv.1)
        (by rw [hu1, hl1]; simp only [List.length_cons] at hroom; omega)
        (fun w hw => hval w (List.mem_cons_of_mem v hw))
        hpw1
    refine ⟨t2, ?_, hinv2, hh2, hc2, ?_⟩
    · show ((thtbl_insert lp64 (some t) v).1 ::
          (insert_all lp64 (thtbl_insert lp64 (some t) v).2 vs).1,
          (insert_all lp64 (thtbl_insert lp64 (some t) v).2 vs).2) = _
      rw [hins]
      simp only [hall, List.length_cons, List.replicate_succ]
    · intro w hw
      apply hpres2 w
      rw [List.append_assoc, List.singleton_append]
      exact hw

theorem thtbl_insert_run (lp64 : Bool) (t : thtbl_t) (v : Nat) (hv : v ≠ NULL)
    (hu : t.used < t.limit) :
    thtbl_insert lp64 (some t) v =
      ((insert_loop lp64 v (t.hash v)
          { t with searches := (t.searches + 1) % SIZE_MOD lp64 } t.limit_overhead 0).1,
        some (insert_loop lp64 v (t.hash v)
          { t with searches := (t.searches + 1) % SIZE_MOD lp64 } t.limit_overhead 0).2) := by
  have h1 : ¬ t.used ≥ t.limit := Nat.not_le.mpr hu
  unfold thtbl_insert
  simp only [if_neg hv, if_neg h1]

theorem thtbl_remove_run (lp64 : Bool) (t : thtbl_t) (v : Nat) (hv : v ≠ NULL)
    (hu : t.used ≠ 0) :
    thtbl_remove lp64 (some t) v =
      ((remove_loop lp64 v (t.hash v)
          { t with searches := (t.searches + 1) % SIZE_MOD lp64 } t.limit_overhead 0).1,
        some (remove_loop lp64 v (t.hash v)
          { t with searches := (t.searches + 1) % SIZE_MOD lp64 } t.limit_overhead 0).2) := by
  unfold thtbl_remove
  simp only [if_neg hv, if_neg hu]

theorem thtbl_find_run (lp64 : Bool) (t : thtbl_t) (v : Nat) (hv : v ≠ NULL)
    (hu : t.used ≠ 0) :
    thtbl_find lp64 (some t) v =
      ((find_loop lp64 v (t.hash v)
          { t with searches := (t.searches + 1) % SIZE_MOD lp64 } t.limit_overhead 0).1,
        some (find_loop lp64 v (t.hash v)
          { t with searches := (t.searches + 1) % SIZE_MOD lp64 } t.limit_overhead 0).2.1,
        (find_loop lp64 v (t.hash v)
          { t with searches := (t.searches + 1) % SIZE_MOD lp64 } t.limit_overhead 0).2.2) := by
  unfold thtbl_find
  simp only [if_neg hv, if_neg hu]

/-- The probe of `thtbl_find` is decided by the first slot it does not skip:
the code and `*found` when the first such slot is the `k`-th. -/
theorem find_loop_first (lp64 : Bool) (v h : Nat) (self : thtbl_t) (n k : Nat) (hk : k < n)
    (hpre : ∀ d, d < k → IS_EMPTY (probe_slot lp64 self h d) = false ∧
      (IS_DELETED lp64 (probe_slot lp64 self h d) = true ∨
        self.cmp v (probe_slot lp64 self h d) ≠ 0))
    (hstop : ¬ (IS_EMPTY (probe_slot lp64 self h k) = false ∧
      (IS_DELETED lp64 (probe_slot lp64 self h k) = true ∨
        self.cmp v (probe_slot lp64 self h k) ≠ 0))) :
    find_loop lp64 v h self n 0 =
      if IS_EMPTY (probe_slot lp64 self h k) then
        (THTBL_ENOENT, { self with cols := bump_cols lp64 k self.cols }, none)
      else
        (THTBL_EOK, { self with cols := bump_cols lp64 k self.cols },
          some (probe_slot lp64 self h k)) := by
  rcases find_loop_cases lp64 v h n self 0 with
    ⟨m, hm, hpre', hemp, heq⟩ | ⟨m, hm, hpre', hemp, hdel, hc, heq⟩ | ⟨hpre', heq⟩
  · simp only [Nat.zero_add] at hpre' hemp heq
    have hmk : m = k := by
      rcases Nat.lt_trichotomy m k with hlt | heq' | hgt
      · have := (hpre m hlt).1; rw [hemp] at this; cases this
      · exact heq'
      · exact absurd (hpre' k hgt) hstop
    subst hmk
    rw [heq, if_pos hemp]
  · simp only [Nat.zero_add] at hpre' hemp hdel hc heq
    have hmk : m = k := by
      rcases Nat.lt_trichotomy m k with hlt | heq' | hgt
      · rcases (hpre m hlt).2 with hd | hd
        · rw [hdel] at hd; cases hd
        · exact absurd hc hd
      · exact heq'
      · exact absurd (hpre' k hgt) hstop
    subst hmk
    rw [heq, if_neg (by rw [hemp]; simp)]
  · simp only [Nat.zero_add] at hpre'
    exact absurd (hpre' k hk) hstop

theorem find_loop_full (lp64 : Bool) (v h : Nat) (self : thtbl_t) (n : Nat)
    (hpre : ∀ d, d < n → IS_EMPTY (probe_slot lp64 self h d) = false ∧
      (IS_DELETED lp64 (probe_slot lp64 self h d) = true ∨
        self.cmp v (probe_slot lp64 self h d) ≠ 0)) :
    find_loop lp64 v h self n 0 =
      (THTBL_EFULL, { self with cols := bump_cols lp64 n self.cols }, none) := by
  rcases find_loop_cases lp64 v h n self 0 with
    ⟨m, hm, _, hemp, _⟩ | ⟨m, hm, _, _, hdel, hc, _⟩ | ⟨_, heq⟩
  · simp only [Nat.zero_add] at hemp
    have := (hpre m hm).1; rw [hemp] at this; cases this
  · simp only [Nat.zero_add] at hdel hc
    rcases (hpre m hm).2 with hd | hd
    · rw [hdel] at hd; cases hd
    · exact absurd hc hd
  · exact heq

theorem scan_slot_eq (lp64 : Bool) (t : thtbl_t) (v n k : Nat) (hn : n ≤ SIZE_BITS lp64)
    (hlo : t.limit_overhead = 2 ^ n) :
    probe_slot lp64 { t with searches := (t.searches + 1) % SIZE_MOD lp64 } (t.hash v) k =
      scan_slot t v k := by
  unfold probe_slot scan_slot
  show t.slots.getD (probe_index lp64 t.limit_overhead (t.hash v) k) EMPTY = _
  rw [hlo, probe_index_pow2 lp64 n _ _ hn]

theorem scan_skips_continue (lp64 : Bool) (t : thtbl_t) (v k : Nat)
    (h : scan_skips lp64 t v k) :
    IS_EMPTY (scan_slot t v k) = false ∧
      (IS_DELETED lp64 (scan_slot t v k) = true ∨ t.cmp v (scan_slot t v k) ≠ 0) := by
  rcases h with h | ⟨hu, hc⟩
  · rw [h]
    exact ⟨by simpa [IS_EMPTY] using deleted_ne_empty lp64, Or.inl (by simp [IS_DELETED])⟩
  · exact ⟨by simpa [IS_EMPTY] using ((is_used_iff lp64 _).mp hu).1, Or.inr hc⟩

theorem remove_values_loop_eq (lp64 : Bool) :
    ∀ (l calls : List Nat),
      remove_values_loop lp64 l calls = calls ++ l.filter (fun s => IS_USED lp64 s) := by
  intro l
  induction l with
  | nil => intro calls; simp [remove_values_loop]
  | cons s rest ih =>
    intro calls
    by_cases hs : IS_USED lp64 s = true
    · simp only [remove_values_loop, if_pos hs, ih, List.filter_cons_of_pos hs,
        List.append_assoc, List.singleton_append]
    · simp only [remove_values_loop, if_neg hs, ih, List.filter_cons_of_neg hs]

theorem take_succ_set (a : Nat) :
    ∀ (l : List Nat) (i : Nat), i < l.length → (l.set i a).take (i + 1) = l.take i ++ [a] := by
  intro l
  induction l with
  | nil => intro i hi; exact absurd hi (Nat.not_lt_zero i)
  | cons x xs ih =>
    intro i hi
    cases i with
    | zero => rfl
    | succ i =>
      have hi' : i < xs.length := Nat.lt_of_succ_lt_succ hi
      simp only [List.set_cons_succ, List.take_succ_cons, List.cons_append, ih i hi']

theorem clear_loop_eq :
    ∀ (n : Nat) (l : List Nat) (i : Nat), i + n = l.length →
      clear_loop l n i = l.take i ++ List.replicate n EMPTY := by
  intro n
  induction n with
  | zero =>
    intro l i hi
    simp only [clear_loop, List.replicate_zero, List.append_nil]
    exact (List.take_of_length_le (by omega)).symm
  | succ n ih =>
    intro l i hi
    have hlt : i < l.length := by omega
    simp only [clear_loop]
    rw [ih (l.set i EMPTY) (i + 1) (by rw [List.length_set]; omega), take_succ_set EMPTY l i hlt,
      List.append_assoc, List.singleton_append, ← List.replicate_succ]

theorem find_enoent_of_unused (lp64 : Bool) (t : thtbl_t) (v : Nat) (hv : v ≠ NULL)
    (hu : t.used = 0) : thtbl_find lp64 (some t) v = (THTBL_ENOENT, some t, none) := by
  unfold thtbl_find
  simp only [if_neg hv, if_pos hu]

theorem getD_mem_of_ne (l : List Nat) (i d : Nat) (h : l.getD i d ≠ d) : l.getD i d ∈ l := by
  by_cases hi : i < l.length
  · rw [List.getD_eq_getElem _ _ hi]; exact List.getElem_mem hi
  · exfalso
    apply h
    rw [List.getD_eq_getElem?_getD, List.getElem?_eq_none (Nat.le_of_not_lt hi)]
    rfl

/-- What a successful `thtbl_remove` did: the probe met, after `m` used and
non-equal slots, a used slot comparing equal to the value. -/
theorem remove_eok (lp64 : Bool) (t t' : thtbl_t) (v : Nat)
    (h : thtbl_remove lp64 (some t) v = (THTBL_EOK, some t')) :
    v ≠ NULL ∧ t.used ≠ 0 ∧ ∃ m, m < t.limit_overhead ∧
      (∀ d, d < m → IS_NOT_USED lp64 (probe_slot lp64 t (t.hash v) d) = false ∧
        t.cmp v (probe_slot lp64 t (t.hash v) d) ≠ 0) ∧
      IS_NOT_USED lp64 (probe_slot lp64 t (t.hash v) m) = false ∧
      t.cmp v (probe_slot lp64 t (t.hash v) m) = 0 ∧
      t' = { t with
        searches := (t.searches + 1) % SIZE_MOD lp64,
        cols := bump_cols lp64 m t.cols,
        rem_calls :=
          if t.rem then t.rem_calls ++ [probe_slot lp64 t (t.hash v) m] else t.rem_calls,
        slots := t.slots.set (probe_index lp64 t.limit_overhead (t.hash v) m) (DELETED lp64),
        used := t.used - 1 } := by
  unfold thtbl_remove at h
  simp only at h
  split at h
  · simp at h
  rename_i hv0
  split at h
  · simp at h
  rename_i hu
  refine ⟨hv0, hu, ?_⟩
  have hps : ∀ d, probe_slot lp64 { t with searches := (t.searches + 1) % SIZE_MOD lp64 }
      (t.hash v) (0 + d) = probe_slot lp64 t (t.hash v) d := by
    intro d; rw [Nat.zero_add]; rfl
  rcases remove_loop_cases lp64 v (t.hash v) t.limit_overhead
      { t with searches := (t.searches + 1) % SIZE_MOD lp64 } 0 with
    ⟨m, hm, hpre, hnu, heq⟩ | ⟨m, hm, hpre, hnu, hc, heq⟩ | ⟨hpre, heq⟩
  · rw [heq] at h; simp at h
  · simp only [hps] at hpre hnu hc
    simp only [Nat.zero_add] at heq
    rw [heq] at h
    simp only [Prod.mk.injEq, Option.some.injEq, true_and] at h
    refine ⟨m, hm, hpre, hnu, hc, ?_⟩
    rw [← h]
    rfl
  · rw [heq] at h; simp at h

/-- The codes `thtbl_find` can return for a non-null value, and what the
slots look like for each. -/
theorem find_code_cases (lp64 : Bool) (t : thtbl_t) (v : Nat) (hv : v ≠ NULL) :
    (thtbl_find lp64 (some t) v).1 = THTBL_ENOENT
    ∨ ((thtbl_find lp64 (some t) v).1 = THTBL_EOK ∧
        ∃ s, s ∈ t.slots ∧ IS_USED lp64 s = true ∧ t.cmp v s = 0)
    ∨ ((thtbl_find lp64 (some t) v).1 = THTBL_EFULL ∧ t.used ≠ 0 ∧
        ∀ d, d < t.limit_overhead → probe_slot lp64 t (t.hash v) d ≠ EMPTY) := by
  unfold thtbl_find
  simp only [if_neg hv]
  by_cases hu : t.used = 0
  · left; simp only [if_pos hu]
  simp only [if_neg hu]
  have hps : ∀ d, probe_slot lp64 { t with searches := (t.searches + 1) % SIZE_MOD lp64 }
      (t.hash v) (0 + d) = probe_slot lp64 t (t.hash v) d := by
    intro d; rw [Nat.zero_add]; rfl
  rcases find_loop_cases lp64 v (t.hash v) t.limit_overhead
      { t with searches := (t.searches + 1) % SIZE_MOD lp64 } 0 with
    ⟨m, hm, hpre, hemp, heq⟩ | ⟨m, hm, hpre, hemp, hdel, hc, heq⟩ | ⟨hpre, heq⟩
  · left; rw [heq]
  · right; left
    rw [heq]
    simp only [hps] at hemp hdel hc
    refine ⟨rfl, probe_slot lp64 t (t.hash v) m, ?_, ?_, hc⟩
    · have hne : probe_slot lp64 t (t.hash v) m ≠ EMPTY := by simpa [IS_EMPTY] using hemp
      exact getD_mem_of_ne _ _ _ hne
    · rw [is_used_iff]
      exact ⟨by simpa [IS_EMPTY] using hemp, by simpa [IS_DELETED] using hdel⟩
  · right; right
    rw [heq]
    simp only [hps] at hpre
    refine ⟨rfl, hu, ?_⟩
    intro d hd
    simpa [IS_EMPTY] using (hpre d hd).1

/-- The probe of `thtbl_insert` ends with `THTBL_EEXIST` when it passes used
slots only up to a slot that compares equal to the value. -/
theorem insert_loop_eexist (lp64 : Bool) (v h : Nat) (self : thtbl_t) (n m : Nat) (hm : m < n)
    (hused : ∀ d, d ≤ m → IS_NOT_USED lp64 (probe_slot lp64 self h d) = false)
    (hc : self.cmp v (probe_slot lp64 self h m) = 0) :
    ∃ c, insert_loop lp64 v h self n 0 = (THTBL_EEXIST, { self with cols := c }) := by
  rcases insert_loop_cases lp64 v h n self 0 with
    ⟨m', hm', hpre, hnu, _⟩ | ⟨m', _, _, _, _, heq⟩ | ⟨hpre, _⟩
  · exfalso
    simp only [Nat.zero_add] at hpre hnu
    by_cases hle : m' ≤ m
    · have := hused m' hle
      rw [hnu] at this; cases this
    · exact (hpre m (by omega)).2 hc
  · exact ⟨_, heq⟩
  · exfalso
    simp only [Nat.zero_add] at hpre
    exact (hpre m hm).2 hc

/-- What a successful `thtbl_insert` did: the probe passed `m` used, non-equal
slots and stored the value in the next slot, which was Empty or Deleted. -/
theorem insert_eok (lp64 : Bool) (t t' : thtbl_t) (v : Nat)
    (h : thtbl_insert lp64 (some t) v = (THTBL_EOK, some t')) :
    v ≠ NULL ∧ t.used < t.limit ∧ ∃ m, m < t.limit_overhead ∧
      (∀ d, d < m → IS_NOT_USED lp64 (probe_slot lp64 t (t.hash v) d) = false ∧
        t.cmp v (probe_slot lp64 t (t.hash v) d) ≠ 0) ∧
      IS_NOT_USED lp64 (probe_slot lp64 t (t.hash v) m) = true ∧
      t' = { t with
        searches := (t.searches + 1) % SIZE_MOD lp64,
        cols := bump_cols lp64 m t.cols,
        slots := t.slots.set (probe_index lp64 t.limit_overhead (t.hash v) m) v,
        used := (t.used + 1) % SIZE_MOD lp64 } := by
  unfold thtbl_insert at h
  simp only at h
  split at h
  · simp at h
  rename_i hv0
  split at h
  · simp at h
  rename_i hu
  refine ⟨hv0, Nat.lt_of_not_le hu, ?_⟩
  have hps : ∀ d, probe_slot lp64 { t with searches := (t.searches + 1) % SIZE_MOD lp64 }
      (t.hash v) (0 + d) = probe_slot lp64 t (t.hash v) d := by
    intro d; rw [Nat.zero_add]; rfl
  rcases insert_loop_cases lp64 v (t.hash v) t.limit_overhead
      { t with searches := (t.searches + 1) % SIZE_MOD lp64 } 0 with
    ⟨m, hm, hpre, hnu, heq⟩ | ⟨m, hm, hpre, hnu, hc, heq⟩ | ⟨hpre, heq⟩
  · simp only [hps] at hpre hnu
    simp only [Nat.zero_add] at heq
    rw [heq] at h
    simp only [Prod.mk.injEq, Option.some.injEq, true_and] at h
    refine ⟨m, hm, hpre, hnu, ?_⟩
    rw [← h]
  · rw [heq] at h; simp at h
  · rw [heq] at h; simp at h

theorem enum_loop_eq_visit {σ : Type} (lp64 : Bool) (cb : Nat → σ → Int × σ) :
    ∀ (l : List Nat) (aux : σ),
      enum_loop lp64 cb l aux = visit_until cb (l.filter (fun s => IS_USED lp64 s)) aux := by
  intro l
  induction l with
  | nil => intro aux; rfl
  | cons s rest ih =>
    intro aux
    by_cases hs : IS_USED lp64 s = true
    · rw [List.filter_cons_of_pos hs]
      simp only [enum_loop, if_pos hs, visit_until]
      by_cases hr : (cb s aux).1 ≠ 0
      · rw [if_pos hr, if_pos hr]
      · rw [if_neg hr, if_neg hr, ih]
    · rw [List.filter_cons_of_neg hs]
      simp only [enum_loop, if_neg hs]
      exact ih aux

theorem visit_until_prefix {σ : Type} (cb : Nat → σ → Int × σ) :
    ∀ (l : List Nat) (aux : σ), (visit_until cb l aux).2 <+: l := by
  intro l
  induction l with
  | nil => intro aux; exact List.prefix_refl _
  | cons v vs ih =>
    intro aux
    simp only [visit_until]
    split
    · exact ⟨vs, rfl⟩
    · exact (List.prefix_cons_inj v).mpr (ih _)

theorem visit_until_all {σ : Type} (cb : Nat → σ → Int × σ)
    (hnever : ∀ v aux, (cb v aux).1 = 0) :
    ∀ (l : List Nat) (aux : σ), (visit_until cb l aux).2 = l := by
  intro l
  induction l with
  | nil => intro aux; rfl
  | cons v vs ih =>
    intro aux
    simp only [visit_until, hnever v aux, ne_eq, not_true_eq_false, if_false, ih]

theorem insert_loop_place (lp64 : Bool) (v h : Nat) (self : thtbl_t) (n k : Nat) (hn : 0 < n)
    (hnu : IS_NOT_USED lp64 (probe_slot lp64 self h k) = true) :
    insert_loop lp64 v h self n k =
      (THTBL_EOK,
        { self with
          slots := self.slots.set (probe_index lp64 self.limit_overhead h k) v,
          used := (self.used + 1) % SIZE_MOD lp64 }) := by
  cases n with
  | zero => exact absurd hn (Nat.lt_irrefl 0)
  | succ n => rw [insert_loop_succ, if_pos hnu]

theorem remove_loop_hit (lp64 : Bool) (v h : Nat) (self : thtbl_t) (n k : Nat) (hn : 0 < n)
    (hnu : IS_NOT_USED lp64 (probe_slot lp64 self h k) = false)
    (hc : self.cmp v (probe_slot lp64 self h k) = 0) :
    remove_loop lp64 v h self n k =
      (THTBL_EOK,
        { self with
          rem_calls :=
            if self.rem then self.rem_calls ++ [probe_slot lp64 self h k] else self.rem_calls,
          slots := self.slots.set (probe_index lp64 self.limit_overhead h k) (DELETED lp64),
          used := self.used - 1 }) := by
  cases n with
  | zero => exact absurd hn (Nat.lt_irrefl 0)
  | succ n =>
    rw [remove_loop_succ, if_neg (by rw [hnu]; simp), if_neg (not_not.mpr hc)]

theorem one_lt_size_mod (lp64 : Bool) : 1 < SIZE_MOD lp64 := by
  cases lp64 <;> decide

theorem probe_inv_congr (lp64 : Bool) (t t' : thtbl_t) (hs : t'.slots = t.slots)
    (hlo : t'.limit_overhead = t.limit_overhead) (hh : t'.hash = t.hash)
    (hinv : probe_inv lp64 t) : probe_inv lp64 t' := by
  refine ⟨by rw [hlo]; exact hinv.lo_pos, by rw [hs, hlo]; exact hinv.len, ?_⟩
  intro j hj hu
  rw [hlo] at hj
  unfold probe_slot
  rw [hs, hlo, hh] at *
  exact hinv.chain j hj hu

theorem probe_inv_set (lp64 : Bool) (t t' : thtbl_t) (v m : Nat)
    (hinv : probe_inv lp64 t) (hv : v ≠ EMPTY)
    (hlo : t'.limit_overhead = t.limit_overhead) (hh : t'.hash = t.hash)
    (hs : t'.slots = t.slots.set (probe_index lp64 t.limit_overhead (t.hash v) m) v)
    (hm : m < t.limit_overhead)
    (hpre : ∀ d, d < m → probe_slot lp64 t (t.hash v) d ≠ EMPTY) :
    probe_inv lp64 t' := by
  have hplt : probe_index lp64 t.limit_overhead (t.hash v) m < t.slots.length := by
    rw [hinv.len]; exact probe_index_lt lp64 _ _ _ hinv.lo_pos
  refine ⟨by rw [hlo]; exact hinv.lo_pos, by rw [hs, List.length_set, hlo]; exact hinv.len, ?_⟩
  intro j hj hu
  unfold probe_slot
  rw [hlo] at hj ⊢
  rw [hh]
  rw [hs] at hu ⊢
  by_cases hjp : probe_index lp64 t.limit_overhead (t.hash v) m = j
  · have hval : (t.slots.set (probe_index lp64 t.limit_overhead (t.hash v) m) v).getD j
        EMPTY = v := by
      rw [getD_set, if_pos ⟨hjp, hplt⟩]
    rw [hval]
    exact ⟨m, hm, hjp, fun d hd => getD_set_ne_empty _ _ _ _ hv (hpre d hd)⟩
  · have hval : (t.slots.set (probe_index lp64 t.limit_overhead (t.hash v) m) v).getD j
        EMPTY = t.slots.getD j EMPTY := by
      rw [getD_set, if_neg (fun h => hjp h.1)]
    rw [hval] at hu ⊢
    obtain ⟨k, hk, hidx, hch⟩ := hinv.chain j hj hu
    exact ⟨k, hk, hidx, fun d hd => getD_set_ne_empty _ _ _ _ hv (hch d hd)⟩

theorem probe_inv_delete (lp64 : Bool) (t t' : thtbl_t) (p : Nat)
    (hinv : probe_inv lp64 t)
    (hlo : t'.limit_overhead = t.limit_overhead) (hh : t'.hash = t.hash)
    (hs : t'.slots = t.slots.set p (DELETED lp64)) :
    probe_inv lp64 t' := by
  refine ⟨by rw [hlo]; exact hinv.lo_pos, by rw [hs, List.length_set, hlo]; exact hinv.len, ?_⟩
  intro j hj hu
  unfold probe_slot
  rw [hlo] at hj ⊢
  rw [hh]
  rw [hs] at hu ⊢
  by_cases hjp : p = j ∧ p < t.slots.length
  · exfalso
    rw [getD_set, if_pos hjp] at hu
    exact ((is_used_iff lp64 _).mp hu).2 rfl
  · have hval : (t.slots.set p (DELETED lp64)).getD j EMPTY = t.slots.getD j EMPTY := by
      rw [getD_set, if_neg hjp]
    rw [hval] at hu ⊢
    obtain ⟨k, hk, hidx, hch⟩ := hinv.chain j hj hu
    exact ⟨k, hk, hidx,
      fun d hd => getD_set_ne_empty _ _ _ _ (deleted_ne_empty lp64) (hch d hd)⟩

theorem probe_inv_empty (lp64 : Bool) (t : thtbl_t) (hlo : 0 < t.limit_overhead)
    (hs : t.slots = List.replicate t.limit_overhead EMPTY) : probe_inv lp64 t := by
  refine ⟨hlo, by rw [hs, List.length_replicate], ?_⟩
  intro j _ hu
  rw [hs, getD_replicate_empty] at hu
  exact absurd hu (by simp [IS_USED])

theorem probe_inv_created (lp64 : Bool) (t0 : thtbl_t) (h : created lp64 t0) :
    probe_inv lp64 t0 := by
  obtain ⟨self_ok, limit, hash, cmp, rem, calloc, free, hc⟩ := h
  obtain ⟨_, hcl, hf, cf, _, _, ht0⟩ := create_eok _ _ _ _ _ _ _ _ _ hc
  apply probe_inv_empty
  · rw [ht0]; exact Nat.pos_of_ne_zero hcl
  · rw [ht0]

theorem probe_inv_insert (lp64 : Bool) (t t' : thtbl_t) (v : Nat) (e : thtbl_e)
    (hinv : probe_inv lp64 t) (h : thtbl_insert lp64 (some t) v = (e, some t')) :
    probe_inv lp64 t' := by
  unfold thtbl_insert at h
  simp only at h
  split at h
  · simp only [Prod.mk.injEq, Option.some.injEq] at h
    rw [← h.2]; exact hinv
  rename_i hv0
  split at h
  · simp only [Prod.mk.injEq, Option.some.injEq] at h
    rw [← h.2]; exact hinv
  simp only [Prod.mk.injEq, Option.some.injEq] at h
  have hps : ∀ d, probe_slot lp64 { t with searches := (t.searches + 1) % SIZE_MOD lp64 }
      (t.hash v) (0 + d) = probe_slot lp64 t (t.hash v) d := by
    intro d; rw [Nat.zero_add]; rfl
  rcases insert_loop_cases lp64 v (t.hash v) t.limit_overhead
      { t with searches := (t.searches + 1) % SIZE_MOD lp64 } 0 with
    ⟨m, hm, hpre, hnu, heq⟩ | ⟨m, hm, hpre, hnu, hc, heq⟩ | ⟨hpre, heq⟩
  · rw [heq] at h
    simp only [hps] at hpre
    simp only [Nat.zero_add] at h
    rw [← h.2]
    exact probe_inv_set lp64 t _ v m hinv hv0 rfl rfl rfl hm
      (fun d hd => ((is_used_iff lp64 _).mp (is_used_of_not_not_used lp64 _ (hpre d hd).1)).1)
  · rw [heq] at h
    rw [← h.2]
    exact probe_inv_congr lp64 t _ rfl rfl rfl hinv
  · rw [heq] at h
    rw [← h.2]
    exact probe_inv_congr lp64 t _ rfl rfl rfl hinv

theorem probe_inv_remove (lp64 : Bool) (t t' : thtbl_t) (v : Nat) (e : thtbl_e)
    (hinv : probe_inv lp64 t) (h : thtbl_remove lp64 (some t) v = (e, some t')) :
    probe_inv lp64 t' := by
  unfold thtbl_remove at h
  simp only at h
  split at h
  · simp only [Prod.mk.injEq, Option.some.injEq] at h
    rw [← h.2]; exact hinv
  split at h
  · simp only [Prod.mk.injEq, Option.some.injEq] at h
    rw [← h.2]; exact hinv
  simp only [Prod.mk.injEq, Option.some.injEq] at h
  rcases remove_loop_cases lp64 v (t.hash v) t.limit_overhead
      { t with searches := (t.searches + 1) % SIZE_MOD lp64 } 0 with
    ⟨m, hm, hpre, hnu, heq⟩ | ⟨m, hm, hpre, hnu, hc, heq⟩ | ⟨hpre, heq⟩
  · rw [heq] at h
    rw [← h.2]
    exact probe_inv_congr lp64 t _ rfl rfl rfl hinv
  · rw [heq] at h
    rw [← h.2]
    exact probe_inv_delete lp64 t _ _ hinv rfl rfl rfl
  · rw [heq] at h
    rw [← h.2]
    exact probe_inv_congr lp64 t _ rfl rfl rfl hinv

theorem probe_inv_find (lp64 : Bool) (t t' : thtbl_t) (v : Nat) (e : thtbl_e)
    (f : Option Nat)
    (hinv : probe_inv lp64 t) (h : thtbl_find lp64 (some t) v = (e, some t', f)) :
    probe_inv lp64 t' := by
  unfold thtbl_find at h
  simp only at h
  split at h
  · simp only [Prod.mk.injEq, Option.some.injEq] at h
    rw [← h.2.1]; exact hinv
  split at h
  · simp only [Prod.mk.injEq, Option.some.injEq] at h
    rw [← h.2.1]; exact hinv
  simp only [Prod.mk.injEq, Option.some.injEq] at h
  rcases find_loop_cases lp64 v (t.hash v) t.limit_overhead
      { t with searches := (t.searches + 1) % SIZE_MOD lp64 } 0 with
    ⟨m, hm, hpre, hnu, heq⟩ | ⟨m, hm, hpre, hnu, hdl, hc, heq⟩ | ⟨hpre, heq⟩
  · rw [heq] at h
    rw [← h.2.1]
    exact probe_inv_congr lp64 t _ rfl rfl rfl hinv
  · rw [heq] at h
    rw [← h.2.1]
    exact probe_inv_congr lp64 t _ rfl rfl rfl hinv
  · rw [heq] at h
    rw [← h.2.1]
    exact probe_inv_congr lp64 t _ rfl rfl rfl hinv

theorem clear_slots (lp64 : Bool) (t t' : thtbl_t) (e : thtbl_e)
    (hlen : t.slots.length = t.limit_overhead)
    (h : thtbl_clear lp64 (some t) = (e, some t')) :
    e = THTBL_EOK ∧ t'.slots = List.replicate t.limit_overhead EMPTY ∧ t'.used = 0 ∧
    t'.limit_overhead = t.limit_overhead ∧ t'.limit = t.limit ∧ t'.hash = t.hash ∧
    t'.cmp = t.cmp ∧ t'.rem = t.rem ∧ t'.searches = t.searches ∧ t'.cols = t.cols := by
  unfold thtbl_clear at h
  simp only [Prod.mk.injEq, Option.some.injEq] at h
  obtain ⟨he, ht⟩ := h
  subst ht
  have hrv : (remove_values lp64 t).slots = t.slots ∧
      (remove_values lp64 t).limit_overhead = t.limit_overhead ∧
      (remove_values lp64 t).limit = t.limit ∧ (remove_values lp64 t).hash = t.hash ∧
      (remove_values lp64 t).cmp = t.cmp ∧ (remove_values lp64 t).rem = t.rem ∧
      (remove_values lp64 t).searches = t.searches ∧ (remove_values lp64 t).cols = t.cols := by
    unfold remove_values
    split <;> exact ⟨rfl, rfl, rfl, rfl, rfl, rfl, rfl, rfl⟩
  obtain ⟨h1, h2, h3, h4, h5, h6, h7, h8⟩ := hrv
  refine ⟨he.symm, ?_, rfl, h2, h3, h4, h5, h6, h7, h8⟩
  show clear_loop (remove_values lp64 t).slots (remove_values lp64 t).limit_overhead 0 = _
  rw [h1, h2, clear_loop_eq t.limit_overhead t.slots 0 (by omega)]
  simp only [List.take_zero, List.nil_append]

theorem probe_inv_clear (lp64 : Bool) (t t' : thtbl_t) (e : thtbl_e)
    (hinv : probe_inv lp64 t) (h : thtbl_clear lp64 (some t) = (e, some t')) :
    probe_inv lp64 t' := by
  obtain ⟨_, hs, _, hlo, _⟩ := clear_slots lp64 t t' e hinv.len h
  apply probe_inv_empty
  · rw [hlo]; exact hinv.lo_pos
  · rw [hs, hlo]

theorem enum_table {σ : Type} (lp64 : Bool) (t t' : thtbl_t)
    (cb : Option (Nat → σ → Int × σ)) (aux : σ) (e : thtbl_e) (r : σ × List Nat)
    (h : thtbl_enum lp64 (some t) cb aux = (e, some t', r)) : t' = t := by
  unfold thtbl_enum at h
  cases cb with
  | none =>
    simp only [Prod.mk.injEq, Option.some.injEq] at h
    exact h.2.1.symm
  | some cb =>
    simp only [Prod.mk.injEq, Option.some.injEq] at h
    exact h.2.1.symm

theorem probe_inv_reachable (lp64 : Bool) (t0 t : thtbl_t) (h0 : created lp64 t0)
    (h : reachable lp64 t0 t) : probe_inv lp64 t := by
  induction h with
  | init => exact probe_inv_created lp64 t0 h0
  | insert t t' v e _ hop ih => exact probe_inv_insert lp64 t t' v e ih hop
  | remove t t' v e _ hop ih => exact probe_inv_remove lp64 t t' v e ih hop
  | find t t' v e f _ hop ih => exact probe_inv_find lp64 t t' v e f ih hop
  | clear t t' e _ hop ih => exact probe_inv_clear lp64 t t' e ih hop
  | enum t t' σ cb aux e r _ hop ih => rw [enum_table lp64 t t' cb aux e r hop]; exact ih

/-- Every way `thtbl_insert` can end on a table, with the table it leaves. -/
theorem insert_result (lp64 : Bool) (t : thtbl_t) (v : Nat) :
    (v = NULL ∧ thtbl_insert lp64 (some t) v = (THTBL_EINVAL, some t)) ∨
    (v ≠ NULL ∧ t.limit ≤ t.used ∧ thtbl_insert lp64 (some t) v = (THTBL_ENOMEM, some t)) ∨
    (v ≠ NULL ∧ t.used < t.limit ∧
      ((∃ m, m < t.limit_overhead ∧ probe_passes lp64 t v m ∧
          IS_NOT_USED lp64 (probe_slot lp64 t (t.hash v) m) = true ∧
          thtbl_insert lp64 (some t) v =
            (THTBL_EOK, some
              { t with
                searches := (t.searches + 1) % SIZE_MOD lp64,
                cols := bump_cols lp64 m t.cols,
                slots := t.slots.set (probe_index lp64 t.limit_overhead (t.hash v) m) v,
                used := (t.used + 1) % SIZE_MOD lp64 })) ∨
        (∃ m, m < t.limit_overhead ∧ probe_passes lp64 t v m ∧
          IS_NOT_USED lp64 (probe_slot lp64 t (t.hash v) m) = false ∧
          t.cmp v (probe_slot lp64 t (t.hash v) m) = 0 ∧
          thtbl_insert lp64 (some t) v =
            (THTBL_EEXIST, some
              { t with
                searches := (t.searches + 1) % SIZE_MOD lp64,
                cols := bump_cols lp64 m t.cols })) ∨
        (probe_passes lp64 t v t.limit_overhead ∧
          thtbl_insert lp64 (some t) v =
            (THTBL_EFULL, some
              { t with
                searches := (t.searches + 1) % SIZE_MOD lp64,
                cols := bump_cols lp64 t.limit_overhead t.cols })))) := by
  by_cases hv : v = NULL
  · left
    refine ⟨hv, ?_⟩
    unfold thtbl_insert
    simp only [if_pos hv]
  by_cases hu : t.used < t.limit
  · right; right
    refine ⟨hv, hu, ?_⟩
    have hps : ∀ d, probe_slot lp64 { t with searches := (t.searches + 1) % SIZE_MOD lp64 }
        (t.hash v) (0 + d) = probe_slot lp64 t (t.hash v) d := by
      intro d; rw [Nat.zero_add]; rfl
    rw [thtbl_insert_run lp64 t v hv hu]
    rcases insert_loop_cases lp64 v (t.hash v) t.limit_overhead
        { t with searches := (t.searches + 1) % SIZE_MOD lp64 } 0 with
      ⟨m, hm, hpre, hnu, heq⟩ | ⟨m, hm, hpre, hnu, hc, heq⟩ | ⟨hpre, heq⟩
    · left
      simp only [hps] at hpre hnu
      simp only [Nat.zero_add] at heq
      exact ⟨m, hm, hpre, hnu, by rw [heq]⟩
    · right; left
      simp only [hps] at hpre hnu hc
      exact ⟨m, hm, hpre, hnu, hc, by rw [heq]⟩
    · right; right
      simp only [hps] at hpre
      exact ⟨hpre, by rw [heq]⟩
  · right; left
    refine ⟨hv, Nat.le_of_not_lt hu, ?_⟩
    unfold thtbl_insert
    simp only [if_neg hv]
    rw [if_pos (Nat.le_of_not_lt hu)]

/-- Every way `thtbl_remove` can end on a table, with the table it leaves. -/
theorem remove_result (lp64 : Bool) (t : thtbl_t) (v : Nat) :
    (v = NULL ∧ thtbl_remove lp64 (some t) v = (THTBL_EINVAL, some t)) ∨
    (v ≠ NULL ∧ t.used = 0 ∧ thtbl_remove lp64 (some t) v = (THTBL_ENOENT, some t)) ∨
    (v ≠ NULL ∧ t.used ≠ 0 ∧
      ((∃ m, m < t.limit_overhead ∧ probe_passes lp64 t v m ∧
          IS_NOT_USED lp64 (probe_slot lp64 t (t.hash v) m) = true ∧
          thtbl_remove lp64 (some t) v =
            (THTBL_ENOENT, some
              { t with
                searches := (t.searches + 1) % SIZE_MOD lp64,
                cols := bump_cols lp64 m t.cols })) ∨
        (∃ m, m < t.limit_overhead ∧ probe_passes lp64 t v m ∧
          IS_NOT_USED lp64 (probe_slot lp64 t (t.hash v) m) = false ∧
          t.cmp v (probe_slot lp64 t (t.hash v) m) = 0 ∧
          thtbl_remove lp64 (some t) v =
            (THTBL_EOK, some
              { t with
                searches := (t.searches + 1) % SIZE_MOD lp64,
                cols := bump_cols lp64 m t.cols,
                rem_calls :=
                  if t.rem then t.rem_calls ++ [probe_slot lp64 t (t.hash v) m]
                  else t.rem_calls,
                slots :=
                  t.slots.set (probe_index lp64 t.limit_overhead (t.hash v) m) (DELETED lp64),
                used := t.used - 1 })) ∨
        (probe_passes lp64 t v t.limit_overhead ∧
          thtbl_remove lp64 (some t) v =
            (THTBL_EFULL, some
              { t with
                searches := (t.searches + 1) % SIZE_MOD lp64,
                cols := bump_cols lp64 t.limit_overhead t.cols })))) := by
  by_cases hv : v = NULL
  · left
    refine ⟨hv, ?_⟩
    unfold thtbl_remove
    simp only [if_pos hv]
  by_cases hu : t.used = 0
  · right; left
    refine ⟨hv, hu, ?_⟩
    unfold thtbl_remove
    simp only [if_neg hv, if_pos hu]
  · right; right
    refine ⟨hv, hu, ?_⟩
    have hps : ∀ d, probe_slot lp64 { t with searches := (t.searches + 1) % SIZE_MOD lp64 }
        (t.hash v) (0 + d) = probe_slot lp64 t (t.hash v) d := by
      intro d; rw [Nat.zero_add]; rfl
    rw [thtbl_remove_run lp64 t v hv hu]
    rcases remove_loop_cases lp64 v (t.hash v) t.limit_overhead
        { t with searches := (t.searches + 1) % SIZE_MOD lp64 } 0 with
      ⟨m, hm, hpre, hnu, heq⟩ | ⟨m, hm, hpre, hnu, hc, heq⟩ | ⟨hpre, heq⟩
    · left
      simp only [hps] at hpre hnu
      exact ⟨m, hm, hpre, hnu, by rw [heq]⟩
    · right; left
      simp only [hps] at hpre hnu hc
      simp only [Nat.zero_add] at heq
      exact ⟨m, hm, hpre, hnu, hc, by rw [heq]; rfl⟩
    · right; right
      simp only [hps] at hpre
      exact ⟨hpre, by rw [heq]⟩

/-- Every way `thtbl_find` can end on a table, with the table it leaves and
the value written to `*found`. -/
theorem find_result (lp64 : Bool) (t : thtbl_t) (v : Nat) :
    (v = NULL ∧ thtbl_find lp64 (some t) v = (THTBL_EINVAL, some t, none)) ∨
    (v ≠ NULL ∧ t.used = 0 ∧ thtbl_find lp64 (some t) v = (THTBL_ENOENT, some t, none)) ∨
    (v ≠ NULL ∧ t.used ≠ 0 ∧
      ((∃ m, m < t.limit_overhead ∧ find_passes lp64 t v m ∧
          IS_EMPTY (probe_slot lp64 t (t.hash v) m) = true ∧
          thtbl_find lp64 (some t) v =
            (THTBL_ENOENT, some
              { t with
                searches := (t.searches + 1) % SIZE_MOD lp64,
                cols := bump_cols lp64 m t.cols }, none)) ∨
        (∃ m, m < t.limit_overhead ∧ find_passes lp64 t v m ∧
          IS_EMPTY (probe_slot lp64 t (t.hash v) m) = false ∧
          IS_DELETED lp64 (probe_slot lp64 t (t.hash v) m) = false ∧
          t.cmp v (probe_slot lp64 t (t.hash v) m) = 0 ∧
          thtbl_find lp64 (some t) v =
            (THTBL_EOK, some
              { t with
                searches := (t.searches + 1) % SIZE_MOD lp64,
                cols := bump_cols lp64 m t.cols },
              some (probe_slot lp64 t (t.hash v) m))) ∨
        (find_passes lp64 t v t.limit_overhead ∧
          thtbl_find lp64 (some t) v =
            (THTBL_EFULL, some
              { t with
                searches := (t.searches + 1) % SIZE_MOD lp64,
                cols := bump_cols lp64 t.limit_overhead t.cols }, none)))) := by
  by_cases hv : v = NULL
  · left
    refine ⟨hv, ?_⟩
    unfold thtbl_find
    simp only [if_pos hv]
  by_cases hu : t.used = 0
  · right; left
    exact ⟨hv, hu, find_enoent_of_unused lp64 t v hv hu⟩
  · right; right
    refine ⟨hv, hu, ?_⟩
    have hps : ∀ d, probe_slot lp64 { t with searches := (t.searches + 1) % SIZE_MOD lp64 }
        (t.hash v) (0 + d) = probe_slot lp64 t (t.hash v) d := by
      intro d; rw [Nat.zero_add]; rfl
    rw [thtbl_find_run lp64 t v hv hu]
    rcases find_loop_cases lp64 v (t.hash v) t.limit_overhead
        { t with searches := (t.searches + 1) % SIZE_MOD lp64 } 0 with
      ⟨m, hm, hpre, hemp, heq⟩ | ⟨m, hm, hpre, hemp, hdel, hc, heq⟩ | ⟨hpre, heq⟩
    · left
      simp only [hps] at hpre hemp
      exact ⟨m, hm, hpre, hemp, by rw [heq]⟩
    · right; left
      simp only [hps] at hpre hemp hdel hc
      simp only [Nat.zero_add] at heq
      exact ⟨m, hm, hpre, hemp, hdel, hc, by rw [heq]; rfl⟩
    · right; right
      simp only [hps] at hpre
      exact ⟨hpre, by rw [heq]⟩

theorem to_size_t_lt (lp64 : Bool) (x : Int) : to_size_t lp64 x < SIZE_MOD lp64 := by
  unfold to_size_t
  have hpos : (0 : Int) < (SIZE_MOD lp64 : Int) := by exact_mod_cast size_mod_pos lp64
  have h1 := Int.emod_lt_of_pos x hpos
  have h2 := Int.emod_nonneg x (ne_of_gt hpos)
  omega

theorem calc_limit_loop_bounds (lp64 : Bool) (limit : Nat) :
    ∀ (n i : Nat), calc_limit_loop lp64 limit n i = 0 ∨
      (limit < calc_limit_loop lp64 limit n i ∧
        calc_limit_loop lp64 limit n i < SIZE_MOD lp64) := by
  intro n
  induction n with
  | zero => intro i; left; rfl
  | succ n ih =>
    intro i
    simp only [calc_limit_loop]
    split
    · rename_i h
      right
      exact ⟨h, to_size_t_lt lp64 _⟩
    · exact ih (i + 1)

theorem calc_limit_bounds (lp64 : Bool) (limit : Nat) (h : calc_limit lp64 limit ≠ 0) :
    limit < calc_limit lp64 limit ∧ calc_limit lp64 limit < SIZE_MOD lp64 := by
  unfold calc_limit at h ⊢
  rcases calc_limit_loop_bounds lp64 limit (if lp64 then 59 else 27) 4 with h0 | hb
  · exact absurd h0 h
  · exact hb

theorem cap_inv_created (lp64 : Bool) (t0 : thtbl_t) (h : created lp64 t0) :
    cap_inv lp64 t0 t0 := by
  obtain ⟨self_ok, limit, hash, cmp, rem, calloc, free, hc⟩ := h
  obtain ⟨hl, hcl, hf, cf, _, _, ht0⟩ := create_eok _ _ _ _ _ _ _ _ _ hc
  obtain ⟨hlt, hM⟩ := calc_limit_bounds lp64 limit hcl
  subst ht0
  exact ⟨rfl, rfl, rfl, rfl, rfl, List.length_replicate _ _, Nat.pos_of_ne_zero hl,
    Nat.zero_le _, hlt, hM⟩

/-- A table that differs from one satisfying the capacity invariant only in
counters, trace, slot contents and a `used` within `limit` satisfies it. -/
theorem cap_inv_step (lp64 : Bool) (t0 t t' : thtbl_t) (hinv : cap_inv lp64 t0 t)
    (hh : t'.hash = t.hash) (hc : t'.cmp = t.cmp) (hr : t'.rem = t.rem)
    (hl : t'.limit = t.limit) (hlo : t'.limit_overhead = t.limit_overhead)
    (hlen : t'.slots.length = t.slots.length) (hu : t'.used ≤ t.limit) :
    cap_inv lp64 t0 t' :=
  ⟨hh.trans hinv.hash_eq, hc.trans hinv.cmp_eq, hr.trans hinv.rem_eq,
    hl.trans hinv.limit_eq, hlo.trans hinv.lo_eq, by rw [hlen, hlo]; exact hinv.len,
    by rw [hl]; exact hinv.one_le, by rw [hl]; exact hu,
    by rw [hl, hlo]; exact hinv.lim_lt, by rw [hlo]; exact hinv.lo_lt⟩

theorem cap_inv_insert (lp64 : Bool) (t0 t t' : thtbl_t) (v : Nat) (e : thtbl_e)
    (hinv : cap_inv lp64 t0 t) (h : thtbl_insert lp64 (some t) v = (e, some t')) :
    cap_inv lp64 t0 t' := by
  have hul := hinv.used_le
  have hlt := hinv.lim_lt
  have hM := hinv.lo_lt
  rcases insert_result lp64 t v with ⟨_, h'⟩ | ⟨_, _, h'⟩ |
    ⟨_, hroom, ⟨m, _, _, _, h'⟩ | ⟨m, _, _, _, _, h'⟩ | ⟨_, h'⟩⟩ <;>
  · rw [h'] at h
    simp only [Prod.mk.injEq, Option.some.injEq] at h
    obtain ⟨_, rfl⟩ := h
    first
      | exact hinv
      | exact cap_inv_step lp64 t0 t _ hinv rfl rfl rfl rfl rfl rfl hul
      | exact cap_inv_step lp64 t0 t _ hinv rfl rfl rfl rfl rfl (List.length_set _ _ _)
          (by
            show (t.used + 1) % SIZE_MOD lp64 ≤ t.limit
            rw [Nat.mod_eq_of_lt (by omega)]; omega)

theorem cap_inv_remove (lp64 : Bool) (t0 t t' : thtbl_t) (v : Nat) (e : thtbl_e)
    (hinv : cap_inv lp64 t0 t) (h : thtbl_remove lp64 (some t) v = (e, some t')) :
    cap_inv lp64 t0 t' := by
  have hul := hinv.used_le
  rcases remove_result lp64 t v with ⟨_, h'⟩ | ⟨_, _, h'⟩ |
    ⟨_, _, ⟨m, _, _, _, h'⟩ | ⟨m, _, _, _, _, h'⟩ | ⟨_, h'⟩⟩ <;>
  · rw [h'] at h
    simp only [Prod.mk.injEq, Option.some.injEq] at h
    obtain ⟨_, rfl⟩ := h
    first
      | exact hinv
      | exact cap_inv_step lp64 t0 t _ hinv rfl rfl rfl rfl rfl rfl hul
      | exact cap_inv_step lp64 t0 t _ hinv rfl rfl rfl rfl rfl (List.length_set _ _ _)
          (by show t.used - 1 ≤ t.limit; omega)

theorem cap_inv_find (lp64 : Bool) (t0 t t' : thtbl_t) (v : Nat) (e : thtbl_e)
    (f : Option Nat)
    (hinv : cap_inv lp64 t0 t) (h : thtbl_find lp64 (some t) v = (e, some t', f)) :
    cap_inv lp64 t0 t' := by
  have hul := hinv.used_le
  rcases find_result lp64 t v with ⟨_, h'⟩ | ⟨_, _, h'⟩ |
    ⟨_, _, ⟨m, _, _, _, h'⟩ | ⟨m, _, _, _, _, _, h'⟩ | ⟨_, h'⟩⟩ <;>
  · rw [h'] at h
    simp only [Prod.mk.injEq, Option.some.injEq] at h
    obtain ⟨_, rfl, _⟩ := h
    first
      | exact hinv
      | exact cap_inv_step lp64 t0 t _ hinv rfl rfl rfl rfl rfl rfl hul

theorem cap_inv_clear (lp64 : Bool) (t0 t t' : thtbl_t) (e : thtbl_e)
    (hinv : cap_inv lp64 t0 t) (h : thtbl_clear lp64 (some t) = (e, some t')) :
    cap_inv lp64 t0 t' := by
  obtain ⟨_, hs, hu, hlo, hl, hh, hc, hr, _, _⟩ := clear_slots lp64 t t' e hinv.len h
  exact cap_inv_step lp64 t0 t t' hinv hh hc hr hl hlo
    (by rw [hs, List.length_replicate, hinv.len]) (by rw [hu]; exact Nat.zero_le _)

theorem cap_inv_reachable (lp64 : Bool) (t0 t : thtbl_t) (h0 : created lp64 t0)
    (h : reachable lp64 t0 t) : cap_inv lp64 t0 t := by
  induction h with
  | init => exact cap_inv_created lp64 t0 h0
  | insert t t' v e _ hop ih => exact cap_inv_insert lp64 t0 t t' v e ih hop
  | remove t t' v e _ hop ih => exact cap_inv_remove lp64 t0 t t' v e ih hop
  | find t t' v e f _ hop ih => exact cap_inv_find lp64 t0 t t' v e f ih hop
  | clear t t' e _ hop ih => exact cap_inv_clear lp64 t0 t t' e ih hop
  | enum t t' σ cb aux e r _ hop ih => rw [enum_table lp64 t t' cb aux e r hop]; exact ih

theorem is_used_false_of_not_used (lp64 : Bool) (x : Nat) (h : IS_NOT_USED lp64 x = true) :
    IS_USED lp64 x = false := by
  cases hu : IS_USED lp64 x
  · rfl
  · exfalso
    have h1 := (is_used_iff lp64 x).mp hu
    rcases (not_used_iff lp64 x).mp h with h2 | h2
    · exact h1.1 h2
    · exact h1.2 h2

theorem countP_set_not_used (lp64 : Bool) (l : List Nat) (p v : Nat) (hp : p < l.length)
    (hold : IS_USED lp64 (l.getD p EMPTY) = false) :
    (l.set p v).countP (fun s => IS_USED lp64 s) =
      l.countP (fun s => IS_USED lp64 s) + (if IS_USED lp64 v = true then 1 else 0) := by
  rw [List.countP_set _ _ _ _ hp]
  rw [List.getD_eq_getElem _ _ hp] at hold
  simp [hold]

theorem countP_set_deleted (lp64 : Bool) (l : List Nat) (p : Nat) (hp : p < l.length)
    (hold : IS_USED lp64 (l.getD p EMPTY) = true) :
    (l.set p (DELETED lp64)).countP (fun s => IS_USED lp64 s) + 1 =
      l.countP (fun s => IS_USED lp64 s) := by
  rw [List.countP_set _ _ _ _ hp]
  rw [List.getD_eq_getElem _ _ hp] at hold
  have hpos : 0 < l.countP (fun s => IS_USED lp64 s) :=
    List.countP_pos_iff.mpr ⟨l[p], List.getElem_mem hp, hold⟩
  have hdel : IS_USED lp64 (DELETED lp64) = false := by simp [IS_USED]
  simp only [hold, hdel, if_true, Bool.false_eq_true, if_false, Nat.add_zero]
  omega

theorem count_used_replicate (lp64 : Bool) (n : Nat) :
    (List.replicate n EMPTY).countP (fun s => IS_USED lp64 s) = 0 := by
  rw [List.countP_eq_zero]
  intro s hs
  rw [List.eq_of_mem_replicate hs]
  simp [IS_USED]

/-- How one `thtbl_insert` changes the occupancy count against `used`: the
count never overtakes `used`, and stays equal to it unless the value is the
sentinel. -/
theorem count_insert (lp64 : Bool) (t0 t t' : thtbl_t) (v : Nat) (e : thtbl_e)
    (hcap : cap_inv lp64 t0 t) (h : thtbl_insert lp64 (some t) v = (e, some t')) :
    (count_used lp64 t ≤ t.used → count_used lp64 t' ≤ t'.used) ∧
    (v ≠ DELETED lp64 → count_used lp64 t = t.used → count_used lp64 t' = t'.used) := by
  have hul := hcap.used_le
  have hlt := hcap.lim_lt
  have hM := hcap.lo_lt
  have hlen := hcap.len
  rcases insert_result lp64 t v with ⟨_, h'⟩ | ⟨_, _, h'⟩ |
    ⟨hv0, hroom, ⟨m, _, _, hnu, h'⟩ | ⟨m, _, _, _, _, h'⟩ | ⟨_, h'⟩⟩
  · rw [h'] at h
    simp only [Prod.mk.injEq, Option.some.injEq] at h
    obtain ⟨_, rfl⟩ := h
    exact ⟨id, fun _ => id⟩
  · rw [h'] at h
    simp only [Prod.mk.injEq, Option.some.injEq] at h
    obtain ⟨_, rfl⟩ := h
    exact ⟨id, fun _ => id⟩
  · rw [h'] at h
    simp only [Prod.mk.injEq, Option.some.injEq] at h
    obtain ⟨_, rfl⟩ := h
    have hplt : probe_index lp64 t.limit_overhead (t.hash v) m < t.slots.length := by
      rw [hlen]; exact probe_index_lt lp64 _ _ _ (by omega)
    have hcount : count_used lp64
        { t with
          searches := (t.searches + 1) % SIZE_MOD lp64,
          cols := bump_cols lp64 m t.cols,
          slots := t.slots.set (probe_index lp64 t.limit_overhead (t.hash v) m) v,
          used := (t.used + 1) % SIZE_MOD lp64 } =
        count_used lp64 t + (if IS_USED lp64 v = true then 1 else 0) :=
      countP_set_not_used lp64 t.slots _ v hplt (is_used_false_of_not_used lp64 _ hnu)
    have hused : (t.used + 1) % SIZE_MOD lp64 = t.used + 1 := Nat.mod_eq_of_lt (by omega)
    rw [hcount]
    show (count_used lp64 t ≤ t.used →
        count_used lp64 t + (if IS_USED lp64 v = true then 1 else 0) ≤
          (t.used + 1) % SIZE_MOD lp64) ∧
      (v ≠ DELETED lp64 → count_used lp64 t = t.used →
        count_used lp64 t + (if IS_USED lp64 v = true then 1 else 0) =
          (t.used + 1) % SIZE_MOD lp64)
    rw [hused]
    constructor
    · intro hle
      split <;> omega
    · intro hvd heq
      rw [if_pos ((is_used_iff lp64 v).mpr ⟨hv0, hvd⟩), heq]
  · rw [h'] at h
    simp only [Prod.mk.injEq, Option.some.injEq] at h
    obtain ⟨_, rfl⟩ := h
    exact ⟨id, fun _ => id⟩
  · rw [h'] at h
    simp only [Prod.mk.injEq, Option.some.injEq] at h
    obtain ⟨_, rfl⟩ := h
    exact ⟨id, fun _ => id⟩

theorem count_remove (lp64 : Bool) (t0 t t' : thtbl_t) (v : Nat) (e : thtbl_e)
    (hcap : cap_inv lp64 t0 t) (h : thtbl_remove lp64 (some t) v = (e, some t')) :
    (count_used lp64 t ≤ t.used → count_used lp64 t' ≤ t'.used) ∧
    (count_used lp64 t = t.used → count_used lp64 t' = t'.used) := by
  have hlt := hcap.lim_lt
  have hlen := hcap.len
  rcases remove_result lp64 t v with ⟨_, h'⟩ | ⟨_, _, h'⟩ |
    ⟨hv0, hu, ⟨m, _, _, _, h'⟩ | ⟨m, _, _, hnu, _, h'⟩ | ⟨_, h'⟩⟩
  · rw [h'] at h
    simp only [Prod.mk.injEq, Option.some.injEq] at h
    obtain ⟨_, rfl⟩ := h
    exact ⟨id, id⟩
  · rw [h'] at h
    simp only [Prod.mk.injEq, Option.some.injEq] at h
    obtain ⟨_, rfl⟩ := h
    exact ⟨id, id⟩
  · rw [h'] at h
    simp only [Prod.mk.injEq, Option.some.injEq] at h
    obtain ⟨_, rfl⟩ := h
    exact ⟨id, id⟩
  · rw [h'] at h
    simp only [Prod.mk.injEq, Option.some.injEq] at h
    obtain ⟨_, rfl⟩ := h
    have hplt : probe_index lp64 t.limit_overhead (t.hash v) m < t.slots.length := by
      rw [hlen]; exact probe_index_lt lp64 _ _ _ (by omega)
    have hcount : count_used lp64
        { t with
          searches := (t.searches + 1) % SIZE_MOD lp64,
          cols := bump_cols lp64 m t.cols,
          rem_calls :=
            if t.rem then t.rem_calls ++ [probe_slot lp64 t (t.hash v) m] else t.rem_calls,
          slots :=
            t.slots.set (probe_index lp64 t.limit_overhead (t.hash v) m) (DELETED lp64),
          used := t.used - 1 } + 1 = count_used lp64 t :=
      countP_set_deleted lp64 t.slots _ hplt (is_used_of_not_not_used lp64 _ hnu)
    constructor
    · intro hle
      show count_used lp64 _ ≤ t.used - 1
      omega
    · intro heq
      show count_used lp64 _ = t.used - 1
      omega
  · rw [h'] at h
    simp only [Prod.mk.injEq, Option.some.injEq] at h
    obtain ⟨_, rfl⟩ := h
    exact ⟨id, id⟩

theorem count_find (lp64 : Bool) (t t' : thtbl_t) (v : Nat) (e : thtbl_e) (f : Option Nat)
    (h : thtbl_find lp64 (some t) v = (e, some t', f)) :
    count_used lp64 t' = count_used lp64 t ∧ t'.used = t.used := by
  rcases find_result lp64 t v with ⟨_, h'⟩ | ⟨_, _, h'⟩ |
    ⟨_, _, ⟨m, _, _, _, h'⟩ | ⟨m, _, _, _, _, _, h'⟩ | ⟨_, h'⟩⟩ <;>
  · rw [h'] at h
    simp only [Prod.mk.injEq, Option.some.injEq] at h
    obtain ⟨_, rfl, _⟩ := h
    exact ⟨rfl, rfl⟩

theorem count_clear (lp64 : Bool) (t0 t t' : thtbl_t) (e : thtbl_e)
    (hcap : cap_inv lp64 t0 t) (h : thtbl_clear lp64 (some t) = (e, some t')) :
    count_used lp64 t' = 0 ∧ t'.used = 0 := by
  obtain ⟨_, hs, hu, _⟩ := clear_slots lp64 t t' e hcap.len h
  refine ⟨?_, hu⟩
  unfold count_used
  rw [hs]
  exact count_used_replicate lp64 _

theorem count_created (lp64 : Bool) (t0 : thtbl_t) (h : created lp64 t0) :
    count_used lp64 t0 = 0 ∧ t0.used = 0 := by
  obtain ⟨self_ok, limit, hash, cmp, rem, calloc, free, hc⟩ := h
  obtain ⟨_, _, hf, cf, _, _, ht0⟩ := create_eok _ _ _ _ _ _ _ _ _ hc
  subst ht0
  exact ⟨count_used_replicate lp64 _, rfl⟩

theorem reachable_of_values (lp64 : Bool) (t0 t : thtbl_t)
    (h : reachable_values lp64 t0 t) : reachable lp64 t0 t := by
  induction h with
  | init => exact reachable.init
  | insert t t' v e _ _ hop ih => exact reachable.insert t t' v e ih hop
  | remove t t' v e _ hop ih => exact reachable.remove t t' v e ih hop
  | find t t' v e f _ hop ih => exact reachable.find t t' v e f ih hop
  | clear t t' e _ hop ih => exact reachable.clear t t' e ih hop
  | enum t t' σ cb aux e r _ hop ih => exact reachable.enum t t' σ cb aux e r ih hop

/-- In every reachable state the Occupied slots are at most `used`. -/
theorem count_le_reachable (lp64 : Bool) (t0 t : thtbl_t) (h0 : created lp64 t0)
    (h : reachable lp64 t0 t) : count_used lp64 t ≤ t.used := by
  induction h with
  | init => rw [(count_created lp64 t0 h0).1]; exact Nat.zero_le _
  | insert t t' v e hr hop ih =>
    exact (count_insert lp64 t0 t t' v e (cap_inv_reachable lp64 t0 t h0 hr) hop).1 ih
  | remove t t' v e hr hop ih =>
    exact (count_remove lp64 t0 t t' v e (cap_inv_reachable lp64 t0 t h0 hr) hop).1 ih
  | find t t' v e f _ hop ih =>
    obtain ⟨h1, h2⟩ := count_find lp64 t t' v e f hop
    rw [h1, h2]; exact ih
  | clear t t' e hr hop ih =>
    obtain ⟨h1, h2⟩ := count_clear lp64 t0 t t' e (cap_inv_reachable lp64 t0 t h0 hr) hop
    rw [h1, h2]
  | enum t t' σ cb aux e r _ hop ih => rw [enum_table lp64 t t' cb aux e r hop]; exact ih

/-- When no sentinel is inserted, the Occupied slots are exactly `used`. -/
theorem count_eq_reachable (lp64 : Bool) (t0 t : thtbl_t) (h0 : created lp64 t0)
    (h : reachable_values lp64 t0 t) : count_used lp64 t = t.used := by
  induction h with
  | init => rw [(count_created lp64 t0 h0).1, (count_created lp64 t0 h0).2]
  | insert t t' v e hr hvd hop ih =>
    exact (count_insert lp64 t0 t t' v e
      (cap_inv_reachable lp64 t0 t h0 (reachable_of_values lp64 t0 t hr)) hop).2 hvd ih
  | remove t t' v e hr hop ih =>
    exact (count_remove lp64 t0 t t' v e
      (cap_inv_reachable lp64 t0 t h0 (reachable_of_values lp64 t0 t hr)) hop).2 ih
  | find t t' v e f _ hop ih =>
    obtain ⟨h1, h2⟩ := count_find lp64 t t' v e f hop
    rw [h1, h2]; exact ih
  | clear t t' e hr hop ih =>
    obtain ⟨h1, h2⟩ := count_clear lp64 t0 t t' e
      (cap_inv_reachable lp64 t0 t h0 (reachable_of_values lp64 t0 t hr)) hop
    rw [h1, h2]
  | enum t t' σ cb aux e r _ hop ih => rw [enum_table lp64 t t' cb aux e r hop]; exact ih

theorem bump_cols_eq (lp64 : Bool) (m c : Nat) (hc : c < SIZE_MOD lp64) :
    bump_cols lp64 m c = (c + m) % SIZE_MOD lp64 := by
  induction m generalizing c with
  | zero => exact (Nat.mod_eq_of_lt hc).symm
  | succ m ih =>
    unfold bump_cols
    rw [Function.iterate_succ_apply]
    have := ih ((c + 1) % SIZE_MOD lp64) (Nat.mod_lt _ (size_mod_pos lp64))
    unfold bump_cols at this
    rw [this, Nat.mod_add_mod]
    congr 1
    omega

/-- When a whole probe sequence of a power-of-two table sees used slots only,
every slot of the table is Occupied. -/
theorem full_of_probe (lp64 : Bool) (t : thtbl_t) (n h : Nat) (hn : n ≤ SIZE_BITS lp64)
    (hlo : t.limit_overhead = 2 ^ n) (hlen : t.slots.length = t.limit_overhead)
    (hall : ∀ d, d < t.limit_overhead → IS_NOT_USED lp64 (probe_slot lp64 t h d) = false) :
    count_used lp64 t = t.limit_overhead := by
  unfold count_used
  rw [← hlen, List.countP_eq_length]
  intro s hs
  obtain ⟨j, hj, hjs⟩ := List.mem_iff_getElem.mp hs
  have hj' : j < 2 ^ n := by rw [← hlo, ← hlen]; exact hj
  obtain ⟨k, hk, hidx⟩ := probe_index_surj lp64 n h j hn hj'
  have := hall k (by rw [hlo]; exact hk)
  unfold probe_slot at this
  rw [hlo, hidx, List.getD_eq_getElem _ _ hj, hjs] at this
  exact is_used_of_not_not_used lp64 s this

/-- The capacity `thtbl_create` stores is a power of two within `size_t` on a
32-bit build, and under `THTBL_LP64` for limits below `2 ^ 30`. -/
theorem created_pow2 (lp64 : Bool) (t0 : thtbl_t) (h0 : created lp64 t0)
    (hrange : lp64 = true → t0.limit < 2 ^ 30) :
    ∃ n, n ≤ SIZE_BITS lp64 ∧ t0.limit_overhead = 2 ^ n := by
  obtain ⟨self_ok, limit, hash, cmp, rem, calloc, free, hc⟩ := h0
  obtain ⟨_, hcl, hf, cf, _, _, ht0⟩ := create_eok _ _ _ _ _ _ _ _ _ hc
  subst ht0
  have hlim30 : limit < 2 ^ 30 := by
    cases lp64 with
    | true => exact hrange rfl
    | false =>
      by_contra hc
      exact hcl (calc_limit_32_large limit (Nat.le_of_not_lt hc))
  obtain ⟨m, _, hm30, hcalc, _, _⟩ := calc_limit_small lp64 limit hlim30
  refine ⟨m, ?_, hcalc⟩
  cases lp64 <;> simp [SIZE_BITS] <;> omega

/-- On a table of power-of-two capacity `thtbl_insert` never returns
`THTBL_EFULL`: fewer than `limit_overhead` slots are Occupied, the probe
visits every slot, and it stops at the first Empty or Deleted one. -/
theorem insert_never_full (lp64 : Bool) (t0 t : thtbl_t) (v : Nat) (h0 : created lp64 t0)
    (hrange : lp64 = true → t0.limit < 2 ^ 30) (hreach : reachable lp64 t0 t) :
    (thtbl_insert lp64 (some t) v).1 ≠ THTBL_EFULL := by
  have hcap := cap_inv_reachable lp64 t0 t h0 hreach
  have hcount := count_le_reachable lp64 t0 t h0 hreach
  obtain ⟨n, hn, hpow⟩ := created_pow2 lp64 t0 h0 hrange
  rcases insert_result lp64 t v with ⟨_, h'⟩ | ⟨_, _, h'⟩ |
    ⟨_, hroom, ⟨m, _, _, _, h'⟩ | ⟨m, _, _, _, _, h'⟩ | ⟨hpass, _⟩⟩
  · rw [h']; exact fun h => by cases h
  · rw [h']; exact fun h => by cases h
  · rw [h']; exact fun h => by cases h
  · rw [h']; exact fun h => by cases h
  · exfalso
    have hfull := full_of_probe lp64 t n (t.hash v) hn (hcap.lo_eq.trans hpow) hcap.len
      (fun d hd => (hpass d hd).1)
    have := hcap.lim_lt
    omega

theorem ptr_cmp_zero_iff (a b : Nat) : ptr_cmp a b = 0 ↔ a = b := by
  unfold ptr_cmp
  constructor
  · intro h
    split_ifs at h with h1 h2
    all_goals first | exact h2 | omega
  · intro h
    subst h
    simp

theorem reachable_of_removal_free (lp64 : Bool) (t0 t : thtbl_t)
    (h : removal_free lp64 t0 t) : reachable lp64 t0 t := by
  induction h with
  | init => exact reachable.init
  | cleared t t' e hr hop => exact reachable.clear t t' e hr hop
  | insert t t' v e _ hop ih => exact reachable.insert t t' v e ih hop
  | find t t' v e f _ hop ih => exact reachable.find t t' v e f ih hop

theorem set_inv_congr (lp64 : Bool) (t t' : thtbl_t) (hs : t'.slots = t.slots)
    (hlo : t'.limit_overhead = t.limit_overhead) (hh : t'.hash = t.hash)
    (hc : t'.cmp = t.cmp) (hinv : set_inv lp64 t) : set_inv lp64 t' := by
  constructor
  · intro j hj hu
    unfold probe_slot
    rw [hs, hlo, hh] at *
    exact hinv.chain j hj hu
  · intro i j hi hj hij hui huj
    rw [hs, hlo] at *
    rw [hc]
    exact hinv.nodup i j hi hj hij hui huj

theorem set_inv_empty (lp64 : Bool) (t : thtbl_t)
    (hs : t.slots = List.replicate t.limit_overhead EMPTY) : set_inv lp64 t := by
  have hno : ∀ j, IS_USED lp64 (t.slots.getD j EMPTY) = true → False := by
    intro j hu
    rw [hs, getD_replicate_empty] at hu
    exact absurd hu (by simp [IS_USED])
  exact ⟨fun j _ hu => (hno j hu).elim, fun i _ _ _ _ hu _ => (hno i hu).elim⟩

/-- In a table satisfying `set_inv`, a probe for `v` that reaches an Empty or
Deleted slot after passing non-equal used slots shows that no Occupied slot
compares equal to `v`. -/
theorem no_equal_of_placed (lp64 : Bool) (t : thtbl_t) (v m : Nat) (hinv : set_inv lp64 t)
    (hhash : ∀ a b, t.cmp a b = 0 → t.hash a = t.hash b)
    (hpass : probe_passes lp64 t v m)
    (hnu : IS_NOT_USED lp64 (probe_slot lp64 t (t.hash v) m) = true) :
    ∀ j, j < t.limit_overhead → IS_USED lp64 (t.slots.getD j EMPTY) = true →
      t.cmp v (t.slots.getD j EMPTY) ≠ 0 := by
  intro j hj hu hcv
  obtain ⟨k, _, hidx, hch⟩ := hinv.chain j hj hu
  rw [← hhash v _ hcv] at hidx hch
  have hslotk : probe_slot lp64 t (t.hash v) k = t.slots.getD j EMPTY := by
    unfold probe_slot; rw [hidx]
  rcases Nat.lt_trichotomy k m with hlt | heq | hgt
  · have := (hpass k hlt).2
    rw [hslotk] at this
    exact this hcv
  · rw [← heq, hslotk] at hnu
    have := is_used_false_of_not_used lp64 _ hnu
    rw [hu] at this; cases this
  · have := hch m hgt
    rw [hnu] at this; cases this

theorem set_inv_insert (lp64 : Bool) (t0 t t' : thtbl_t) (v : Nat) (e : thtbl_e)
    (hcap : cap_inv lp64 t0 t) (hinv : set_inv lp64 t)
    (hsymm : ∀ a b, t.cmp a b = 0 → t.cmp b a = 0)
    (hhash : ∀ a b, t.cmp a b = 0 → t.hash a = t.hash b)
    (h : thtbl_insert lp64 (some t) v = (e, some t')) : set_inv lp64 t' := by
  have hlen := hcap.len
  have hlt := hcap.lim_lt
  rcases insert_result lp64 t v with ⟨_, h'⟩ | ⟨_, _, h'⟩ |
    ⟨_, _, ⟨m, hm, hpass, hnu, h'⟩ | ⟨m, _, _, _, _, h'⟩ | ⟨_, h'⟩⟩
  · rw [h'] at h
    simp only [Prod.mk.injEq, Option.some.injEq] at h
    obtain ⟨_, rfl⟩ := h
    exact hinv
  · rw [h'] at h
    simp only [Prod.mk.injEq, Option.some.injEq] at h
    obtain ⟨_, rfl⟩ := h
    exact hinv
  · rw [h'] at h
    simp only [Prod.mk.injEq, Option.some.injEq] at h
    obtain ⟨_, rfl⟩ := h
    have hplt : probe_index lp64 t.limit_overhead (t.hash v) m < t.slots.length := by
      rw [hlen]; exact probe_index_lt lp64 _ _ _ (by omega)
    have hnoeq := no_equal_of_placed lp64 t v m hinv hhash hpass hnu
    have hpold : IS_USED lp64
        (t.slots.getD (probe_index lp64 t.limit_overhead (t.hash v) m) EMPTY) = false :=
      is_used_false_of_not_used lp64 _ hnu
    constructor
    · intro j hj hu
      show ∃ k, k < t.limit_overhead ∧
        probe_index lp64 t.limit_overhead (t.hash
          ((t.slots.set (probe_index lp64 t.limit_overhead (t.hash v) m) v).getD j EMPTY)) k
            = j ∧
        ∀ d, d < k → IS_NOT_USED lp64
          ((t.slots.set (probe_index lp64 t.limit_overhead (t.hash v) m) v).getD
            (probe_index lp64 t.limit_overhead (t.hash
              ((t.slots.set (probe_index lp64 t.limit_overhead (t.hash v) m) v).getD j EMPTY))
              d) EMPTY) = false
      have hu' : IS_USED lp64
          ((t.slots.set (probe_index lp64 t.limit_overhead (t.hash v) m) v).getD j EMPTY)
            = true := hu
      have hj' : j < t.limit_overhead := hj
      by_cases hjp : probe_index lp64 t.limit_overhead (t.hash v) m = j
      · have hval : (t.slots.set (probe_index lp64 t.limit_overhead (t.hash v) m) v).getD j
            EMPTY = v := by
          rw [getD_set, if_pos ⟨hjp, hplt⟩]
        rw [hval] at hu' ⊢
        refine ⟨m, hm, hjp, ?_⟩
        intro d hd
        rw [getD_set]
        split
        · cases hx : IS_NOT_USED lp64 v
          · rfl
          · have := is_used_false_of_not_used lp64 v hx
            rw [hu'] at this; cases this
        · exact (hpass d hd).1
      · have hval : (t.slots.set (probe_index lp64 t.limit_overhead (t.hash v) m) v).getD j
            EMPTY = t.slots.getD j EMPTY := by
          rw [getD_set, if_neg (fun h => hjp h.1)]
        rw [hval] at hu' ⊢
        obtain ⟨k, hk, hidx, hch⟩ := hinv.chain j hj' hu'
        refine ⟨k, hk, hidx, ?_⟩
        intro d hd
        rw [getD_set]
        split
        · rename_i hpd
          exfalso
          have := hch d hd
          unfold probe_slot at this
          rw [← hpd.1] at this
          have h2 := is_used_of_not_not_used lp64 _ this
          rw [hpold] at h2; cases h2
        · exact hch d hd
    · intro i j hi hj hij hui huj
      show t.cmp
        ((t.slots.set (probe_index lp64 t.limit_overhead (t.hash v) m) v).getD i EMPTY)
        ((t.slots.set (probe_index lp64 t.limit_overhead (t.hash v) m) v).getD j EMPTY) ≠ 0
      have hui' : IS_USED lp64
          ((t.slots.set (probe_index lp64 t.limit_overhead (t.hash v) m) v).getD i EMPTY)
            = true := hui
      have huj' : IS_USED lp64
          ((t.slots.set (probe_index lp64 t.limit_overhead (t.hash v) m) v).getD j EMPTY)
            = true := huj
      have hi' : i < t.limit_overhead := hi
      have hj' : j < t.limit_overhead := hj
      have hval : ∀ x, (t.slots.set (probe_index lp64 t.limit_overhead (t.hash v) m) v).getD x
          EMPTY =
          if probe_index lp64 t.limit_overhead (t.hash v) m = x then v
          else t.slots.getD x EMPTY := by
        intro x
        rw [getD_set]
        by_cases hx : probe_index lp64 t.limit_overhead (t.hash v) m = x
        · rw [if_pos ⟨hx, hplt⟩, if_pos hx]
        · rw [if_neg (fun h => hx h.1), if_neg hx]
      rw [hval i] at hui' ⊢
      rw [hval j] at huj' ⊢
      by_cases hip : probe_index lp64 t.limit_overhead (t.hash v) m = i
      · have hjp : ¬ probe_index lp64 t.limit_overhead (t.hash v) m = j :=
          fun h => hij (hip.symm.trans h)
        rw [if_neg hjp] at huj' ⊢
        rw [if_pos hip]
        exact hnoeq j hj' huj'
      · rw [if_neg hip] at hui' ⊢
        by_cases hjp : probe_index lp64 t.limit_overhead (t.hash v) m = j
        · rw [if_pos hjp]
          intro hc
          exact hnoeq i hi' hui' (hsymm _ _ hc)
        · rw [if_neg hjp] at huj' ⊢
          exact hinv.nodup i j hi' hj' hij hui' huj'
  · rw [h'] at h
    simp only [Prod.mk.injEq, Option.some.injEq] at h
    obtain ⟨_, rfl⟩ := h
    exact set_inv_congr lp64 t _ rfl rfl rfl rfl hinv
  · rw [h'] at h
    simp only [Prod.mk.injEq, Option.some.injEq] at h
    obtain ⟨_, rfl⟩ := h
    exact set_inv_congr lp64 t _ rfl rfl rfl rfl hinv

theorem set_inv_find (lp64 : Bool) (t t' : thtbl_t) (v : Nat) (e : thtbl_e) (f : Option Nat)
    (hinv : set_inv lp64 t) (h : thtbl_find lp64 (some t) v = (e, some t', f)) :
    set_inv lp64 t' := by
  rcases find_result lp64 t v with ⟨_, h'⟩ | ⟨_, _, h'⟩ |
    ⟨_, _, ⟨m, _, _, _, h'⟩ | ⟨m, _, _, _, _, _, h'⟩ | ⟨_, h'⟩⟩ <;>
  · rw [h'] at h
    simp only [Prod.mk.injEq, Option.some.injEq] at h
    obtain ⟨_, rfl, _⟩ := h
    first
      | exact hinv
      | exact set_inv_congr lp64 t _ rfl rfl rfl rfl hinv

theorem set_inv_removal_free (lp64 : Bool) (t0 t : thtbl_t) (h0 : created lp64 t0)
    (hsymm : ∀ a b, t0.cmp a b = 0 → t0.cmp b a = 0)
    (hhash : ∀ a b, t0.cmp a b = 0 → t0.hash a = t0.hash b)
    (h : removal_free lp64 t0 t) : set_inv lp64 t := by
  induction h with
  | init =>
    obtain ⟨self_ok, limit, hash, cmp, rem, calloc, free, hc⟩ := h0
    obtain ⟨_, _, hf, cf, _, _, ht0⟩ := create_eok _ _ _ _ _ _ _ _ _ hc
    apply set_inv_empty
    rw [ht0]
  | cleared t t' e hr hop =>
    have hcap := cap_inv_reachable lp64 t0 t h0 hr
    obtain ⟨_, hs, _, hlo, _⟩ := clear_slots lp64 t t' e hcap.len hop
    apply set_inv_empty
    rw [hs, hlo]
  | insert t t' v e hr hop ih =>
    have hcap := cap_inv_reachable lp64 t0 t h0 (reachable_of_removal_free lp64 t0 t hr)
    exact set_inv_insert lp64 t0 t t' v e hcap ih
      (by rw [hcap.cmp_eq]; exact hsymm)
      (by rw [hcap.cmp_eq, hcap.hash_eq]; exact hhash) hop
  | find t t' v e f _ hop ih => exact set_inv_find lp64 t t' v e f ih hop

/-- The three capacities the specification quotes, on both builds. -/
theorem calc_limit_examples (lp64 : Bool) :
    calc_limit lp64 128 = 256 ∧ calc_limit lp64 1024 = 2048 ∧ calc_limit lp64 1 = 16 := by
  cases lp64 <;> decide

/-- Under `THTBL_LP64` at `limit = 2 ^ 30` the `int` shift `1 << 31` wraps:
`calc_limit` returns `2 ^ 64 - 2 ^ 31`, which is not a power of two, and
`thtbl_create` stores it as `limit_overhead` when the allocator grants the
request of `2 ^ 67 - 2 ^ 34` bytes, as `ok_calloc` does. -/
theorem calc_limit_lp64_overflow :
    calc_limit true (2 ^ 30) = 2 ^ 64 - 2 ^ 31 ∧
    (thtbl_create true true (2 ^ 30) (some ptr_hash) (some ptr_cmp) false
      (some ok_calloc) true).1 = THTBL_EOK ∧
    (example_table true (2 ^ 30) false).map (fun t => t.limit_overhead) =
      some (2 ^ 64 - 2 ^ 31) ∧
    (∀ n : Nat, 2 ^ 64 - 2 ^ 31 ≠ 2 ^ n) ∧
    (2 ^ 30 < 2 ^ 31 ∧ 2 ^ 31 < 2 ^ 64 - 2 ^ 31) := by
  refine ⟨by decide, by decide, by decide, ?_, by decide⟩
  intro n hn
  have h1 : 2 ^ 63 < 2 ^ n := by rw [← hn]; decide
  have h2 : 2 ^ n < 2 ^ 64 := by rw [← hn]; decide
  have h3 := (Nat.pow_lt_pow_iff_right (by decide : 1 < 2)).mp h1
  have h4 := (Nat.pow_lt_pow_iff_right (by decide : 1 < 2)).mp h2
  omega

/-- What `calc_limit` returns, when not 0, is the value of `1 << j` at a
counter `j` of the loop, and exceeds `limit`. -/
theorem calc_limit_loop_mem (lp64 : Bool) (limit : Nat) :
    ∀ (n i : Nat), calc_limit_loop lp64 limit n i = 0 ∨
      ∃ j, i ≤ j ∧ j < i + n ∧
        calc_limit_loop lp64 limit n i = to_size_t lp64 (int_shl1 j) ∧
        limit < to_size_t lp64 (int_shl1 j) := by
  intro n
  induction n with
  | zero => intro i; left; rfl
  | succ n ih =>
    intro i
    simp only [calc_limit_loop]
    split
    · rename_i h
      right
      exact ⟨i, le_refl i, by omega, rfl, h⟩
    · rcases ih (i + 1) with h0 | ⟨j, hj1, hj2, hj3, hj4⟩
      · left; exact h0
      · right
        exact ⟨j, by omega, by omega, hj3, hj4⟩

/-- The values of `1 << j` as a 64-bit `size_t`, for the counters of the
`THTBL_LP64` loop: at most `2 ^ 30`, except for `1 << 31`. -/
theorem shl_lp64_values (j : Nat) (hj : j < 63) :
    to_size_t true (int_shl1 j) ≤ 2 ^ 30 ∨ to_size_t true (int_shl1 j) = 2 ^ 64 - 2 ^ 31 := by
  interval_cases j <;> first | (left; decide) | (right; decide)

/-- Under `THTBL_LP64`, for `limit ≥ 2 ^ 30`, `calc_limit` returns 0 or the
wrapped `2 ^ 64 - 2 ^ 31`. -/
theorem calc_limit_lp64_large (limit : Nat) (hlim : 2 ^ 30 ≤ limit) :
    calc_limit true limit = 0 ∨ calc_limit true limit = 2 ^ 64 - 2 ^ 31 := by
  unfold calc_limit
  rcases calc_limit_loop_mem true limit (if true = true then 59 else 27) 4 with
    h0 | ⟨j, _, hj2, hj3, hj4⟩
  · left; exact h0
  · right
    rw [hj3]
    have hj : j < 63 := by simpa using hj2
    rcases shl_lp64_values j hj with hle | heq
    · omega
    · exact heq

/-- A successful `thtbl_create` means the allocator granted the slot array:
`calloc(limit_overhead, sizeof(slot_t))` returned non-null. -/
theorem create_granted (lp64 self_ok : Bool) (limit : Nat) (hash : Option (Nat → Nat))
    (cmp : Option (Nat → Nat → Int)) (rem : Bool) (calloc : Option (Nat → Nat → Bool))
    (free : Bool) (t : thtbl_t)
    (h : thtbl_create lp64 self_ok limit hash cmp rem calloc free = (THTBL_EOK, some t)) :
    ∃ af, calloc = some af ∧ af (calc_limit lp64 limit) (WORD_BYTES lp64) = true := by
  unfold thtbl_create at h
  split at h
  · simp at h
  split at h
  · simp at h
  simp only at h
  split at h
  · simp at h
  cases hash with
  | none => simp at h
  | some hf =>
    cases cmp with
    | none => simp at h
    | some cf =>
      cases calloc with
      | none => simp at h
      | some af =>
        simp only at h
        split at h
        · simp at h
        split at h
        · simp at h
        split at h
        · simp at h
        rename_i hg
        refine ⟨af, rfl, ?_⟩
        simpa using hg

/-- When the allocator grants only requests whose byte count fits `size_t`,
`thtbl_create` succeeds only for limits below `2 ^ 30`, on both builds. -/
theorem create_fit_range (lp64 self_ok : Bool) (limit : Nat) (hash : Option (Nat → Nat))
    (cmp : Option (Nat → Nat → Int)) (rem : Bool) (calloc : Option (Nat → Nat → Bool))
    (free : Bool) (t : thtbl_t)
    (hfit : ∀ af, calloc = some af → ∀ n s, af n s = true → n * s < SIZE_MOD lp64)
    (h : thtbl_create lp64 self_ok limit hash cmp rem calloc free = (THTBL_EOK, some t)) :
    limit < 2 ^ 30 := by
  obtain ⟨_, hcl, _⟩ := create_eok _ _ _ _ _ _ _ _ _ h
  obtain ⟨af, haf, hg⟩ := create_granted _ _ _ _ _ _ _ _ _ h
  have hlt := hfit af haf _ _ hg
  by_contra hge
  have hge' : 2 ^ 30 ≤ limit := Nat.le_of_not_lt hge
  cases lp64 with
  | false => exact hcl (calc_limit_32_large limit hge')
  | true =>
    rcases calc_limit_lp64_large limit hge' with h0 | hw
    · exact hcl h0
    · rw [hw] at hlt
      revert hlt
      decide

/-- A list none of whose slots is Occupied has no Occupied value. -/
theorem filter_used_none (lp64 : Bool) :
    ∀ (l : List Nat), (∀ j, IS_USED lp64 (l.getD j EMPTY) = false) →
      l.filter (fun s => IS_USED lp64 s) = [] := by
  intro l
  induction l with
  | nil => intro _; rfl
  | cons x xs ih =>
    intro h
    have hx : IS_USED lp64 x = false := h 0
    have hxs : ∀ j, IS_USED lp64 (xs.getD j EMPTY) = false := fun j => h (j + 1)
    rw [List.filter_cons_of_neg (by simp [hx])]
    exact ih hxs

/-- A list whose only Occupied slot is slot `p` has the one Occupied value
stored there. -/
theorem filter_used_one (lp64 : Bool) :
    ∀ (l : List Nat) (p a : Nat), p < l.length → l.getD p EMPTY = a →
      IS_USED lp64 a = true → (∀ j, j ≠ p → IS_USED lp64 (l.getD j EMPTY) = false) →
      l.filter (fun s => IS_USED lp64 s) = [a] := by
  intro l
  induction l with
  | nil => intro p a hp; simp at hp
  | cons x xs ih =>
    intro p a hp hget ha hrest
    cases p with
    | zero =>
      have hx : x = a := hget
      subst hx
      rw [List.filter_cons_of_pos (by simp [ha])]
      rw [filter_used_none lp64 xs (fun j => hrest (j + 1) (by omega))]
    | succ p =>
      have hx : IS_USED lp64 x = false := hrest 0 (by omega)
      rw [List.filter_cons_of_neg (by simp [hx])]
      refine ih p a (by simpa using hp) hget ha ?_
      intro j hj
      exact hrest (j + 1) (by omega)

/-- A list whose only Occupied slots are `p < q` has the two Occupied values
stored there, in that order. -/
theorem filter_used_two (lp64 : Bool) :
    ∀ (l : List Nat) (p q a c : Nat), p < q → q < l.length → l.getD p EMPTY = a →
      l.getD q EMPTY = c → IS_USED lp64 a = true → IS_USED lp64 c = true →
      (∀ j, j ≠ p → j ≠ q → IS_USED lp64 (l.getD j EMPTY) = false) →
      l.filter (fun s => IS_USED lp64 s) = [a, c] := by
  intro l
  induction l with
  | nil => intro p q a c _ hq; simp at hq
  | cons x xs ih =>
    intro p q a c hpq hq hgp hgq ha hc hrest
    cases q with
    | zero => omega
    | succ q =>
      cases p with
      | zero =>
        have hx : x = a := hgp
        subst hx
        rw [List.filter_cons_of_pos (by simp [ha])]
        rw [filter_used_one lp64 xs q c (by simpa using hq) hgq hc
          (fun j hj => hrest (j + 1) (by omega) (by omega))]
      | succ p =>
        have hx : IS_USED lp64 x = false := hrest 0 (by omega) (by omega)
        rw [List.filter_cons_of_neg (by simp [hx])]
        refine ih p q a c (by omega) (by simpa using hq) hgp hgq ha hc ?_
        intro j hj1 hj2
        exact hrest (j + 1) (by omega) (by omega)

/-- Reading a list after one slot in range was written. -/
theorem getD_set_lt (l : List Nat) (p v j : Nat) (hp : p < l.length) :
    (l.set p v).getD j EMPTY = if p = j then v else l.getD j EMPTY := by
  rw [getD_set]
  by_cases hpj : p = j
  · rw [if_pos ⟨hpj, hp⟩, if_pos hpj]
  · rw [if_neg (fun h => hpj h.1), if_neg hpj]

/-- The fields of the table after a successful `thtbl_insert`: the value is
written to the slot `p` the probe for it reaches at step `m`, which was Empty
or Deleted. -/
theorem insert_eok_fields (lp64 : Bool) (t t' : thtbl_t) (v : Nat)
    (h : thtbl_insert lp64 (some t) v = (THTBL_EOK, some t')) :
    v ≠ NULL ∧ t.used < t.limit ∧ ∃ m p, m < t.limit_overhead ∧ p < t.limit_overhead ∧
      p = probe_index lp64 t.limit_overhead (t.hash v) m ∧ probe_passes lp64 t v m ∧
      IS_NOT_USED lp64 (t.slots.getD p EMPTY) = true ∧
      t'.slots = t.slots.set p v ∧
      t'.limit_overhead = t.limit_overhead ∧ t'.hash = t.hash ∧ t'.cmp = t.cmp ∧
      t'.limit = t.limit ∧ t'.used = (t.used + 1) % SIZE_MOD lp64 := by
  obtain ⟨hv, hu, m, hm, hpass, hnu, ht'⟩ := insert_eok lp64 t t' v h
  refine ⟨hv, hu, m, _, hm, probe_index_lt lp64 _ _ _ (by omega), rfl, hpass, hnu, ?_⟩
  rw [ht']
  exact ⟨rfl, rfl, rfl, rfl, rfl, rfl⟩

/-- Insert A, B, C, remove B.  On a table without an Occupied slot, when
three insertions of values other than the sentinel return `THTBL_EOK` and
the comparison finds the second value equal to itself, the removal of the
second value returns `THTBL_EOK` and the Occupied values are then the first
and the third, in slot order. -/
theorem occupied_after_abc (lp64 : Bool) (t0 t1 t2 t3 : thtbl_t) (A B C : Nat)
    (hlen : t0.slots.length = t0.limit_overhead) (hlim : t0.limit < SIZE_MOD lp64)
    (hnone : ∀ j, IS_USED lp64 (t0.slots.getD j EMPTY) = false)
    (hA : A ≠ DELETED lp64) (hB : B ≠ DELETED lp64) (hC : C ≠ DELETED lp64)
    (hrefl : t0.cmp B B = 0)
    (h1 : thtbl_insert lp64 (some t0) A = (THTBL_EOK, some t1))
    (h2 : thtbl_insert lp64 (some t1) B = (THTBL_EOK, some t2))
    (h3 : thtbl_insert lp64 (some t2) C = (THTBL_EOK, some t3)) :
    ∃ t4, thtbl_remove lp64 (some t3) B = (THTBL_EOK, some t4) ∧
      (occupied_values lp64 t4 = [A, C] ∨ occupied_values lp64 t4 = [C, A]) := by
  obtain ⟨hA0, _, mA, pA, _, hpA, _, _, _, hs1, hlo1, hh1, hc1, hl1, _⟩ :=
    insert_eok_fields lp64 t0 t1 A h1
  obtain ⟨hB0, _, mB, pB, hmB, hpB, hpBdef, hpassB, hnuB, hs2, hlo2, hh2, hc2, hl2, _⟩ :=
    insert_eok_fields lp64 t1 t2 B h2
  obtain ⟨hC0, huC, mC, pC, _, hpC, _, _, hnuC, hs3, hlo3, hh3, hc3, hl3, hu3⟩ :=
    insert_eok_fields lp64 t2 t3 C h3
  have hAu : IS_USED lp64 A = true := (is_used_iff lp64 A).mpr ⟨hA0, hA⟩
  have hBu : IS_USED lp64 B = true := (is_used_iff lp64 B).mpr ⟨hB0, hB⟩
  have hCu : IS_USED lp64 C = true := (is_used_iff lp64 C).mpr ⟨hC0, hC⟩
  have hlen1 : t1.slots.length = t1.limit_overhead := by
    rw [hs1, List.length_set, hlo1]; exact hlen
  have hlen2 : t2.slots.length = t2.limit_overhead := by
    rw [hs2, List.length_set, hlo2]; exact hlen1
  have hlen3 : t3.slots.length = t3.limit_overhead := by
    rw [hs3, List.length_set, hlo3]; exact hlen2
  have g1 : ∀ j, t1.slots.getD j EMPTY = if pA = j then A else t0.slots.getD j EMPTY := by
    intro j; rw [hs1]; exact getD_set_lt _ _ _ _ (by omega)
  have g2 : ∀ j, t2.slots.getD j EMPTY = if pB = j then B else t1.slots.getD j EMPTY := by
    intro j; rw [hs2]; exact getD_set_lt _ _ _ _ (by omega)
  have g3 : ∀ j, t3.slots.getD j EMPTY = if pC = j then C else t2.slots.getD j EMPTY := by
    intro j; rw [hs3]; exact getD_set_lt _ _ _ _ (by omega)
  have hBA : ¬ pB = pA := by
    intro e
    have hx := is_used_false_of_not_used lp64 _ hnuB
    rw [g1, if_pos e.symm, hAu] at hx
    cases hx
  have hCB : ¬ pC = pB := by
    intro e
    have hx := is_used_false_of_not_used lp64 _ hnuC
    rw [g2, if_pos e.symm, hBu] at hx
    cases hx
  have hCA : ¬ pC = pA := by
    intro e
    have hx := is_used_false_of_not_used lp64 _ hnuC
    rw [g2, if_neg (fun h => hBA (h.trans e)), g1, if_pos e.symm, hAu] at hx
    cases hx
  have hidx : ∀ d, probe_index lp64 t3.limit_overhead (t3.hash B) d =
      probe_index lp64 t1.limit_overhead (t1.hash B) d := by
    intro d; rw [hlo3, hlo2, hh3, hh2]
  have key1 : ∀ d, d < mB →
      probe_slot lp64 t3 (t3.hash B) d = probe_slot lp64 t1 (t1.hash B) d := by
    intro d hd
    have hp := (hpassB d hd).1
    unfold probe_slot at hp ⊢
    rw [hidx d]
    have hqB : ¬ pB = probe_index lp64 t1.limit_overhead (t1.hash B) d := by
      intro e
      rw [← e, hnuB] at hp
      cases hp
    have hqC : ¬ pC = probe_index lp64 t1.limit_overhead (t1.hash B) d := by
      intro e
      have hx := hnuC
      rw [e, g2, if_neg hqB, hp] at hx
      cases hx
    rw [g3, if_neg hqC, g2, if_neg hqB]
  have key2 : probe_slot lp64 t3 (t3.hash B) mB = B := by
    unfold probe_slot
    rw [hidx mB, ← hpBdef, g3, if_neg hCB, g2, if_pos rfl]
  have hcmp3 : t3.cmp = t1.cmp := by rw [hc3, hc2]
  have hcmp0 : t3.cmp = t0.cmp := by rw [hc3, hc2, hc1]
  have hused3 : t3.used ≠ 0 := by
    have hl : t2.limit = t0.limit := by rw [hl2, hl1]
    rw [hu3, Nat.mod_eq_of_lt (by omega)]
    omega
  have hmB3 : mB < t3.limit_overhead := by rw [hlo3, hlo2]; exact hmB
  have hnotpass : ∀ m, mB < m → ¬ probe_passes lp64 t3 B m := by
    intro m hm hpass
    have hx := (hpass mB hm).2
    rw [key2, hcmp0] at hx
    exact hx hrefl
  rcases remove_result lp64 t3 B with ⟨h0, _⟩ | ⟨_, hu0, _⟩ | ⟨_, _, hcase⟩
  · exact absurd h0 hB0
  · exact absurd hu0 hused3
  rcases hcase with ⟨m, _, hpass, hnu, _⟩ | ⟨m, _, hpass, hnu, hcm, heq⟩ | ⟨hpass, _⟩
  · exfalso
    rcases Nat.lt_trichotomy m mB with hlt | heq | hgt
    · rw [key1 m hlt, (hpassB m hlt).1] at hnu
      cases hnu
    · rw [heq, key2] at hnu
      have hx := is_used_false_of_not_used lp64 _ hnu
      rw [hBu] at hx
      cases hx
    · exact hnotpass m hgt hpass
  · have hm : m = mB := by
      rcases Nat.lt_trichotomy m mB with hlt | heq | hgt
      · exfalso
        rw [key1 m hlt, hcmp3] at hcm
        exact (hpassB m hlt).2 hcm
      · exact heq
      · exact absurd hpass (hnotpass m hgt)
    subst hm
    refine ⟨_, heq, ?_⟩
    unfold occupied_values
    simp only
    rw [hidx m, ← hpBdef]
    have hlen4 : (t3.slots.set pB (DELETED lp64)).length = t3.limit_overhead := by
      rw [List.length_set]; exact hlen3
    rw [List.take_of_length_le (Nat.le_of_eq hlen4)]
    have hlo30 : t3.limit_overhead = t0.limit_overhead := by rw [hlo3, hlo2, hlo1]
    have hlo10 : t1.limit_overhead = t0.limit_overhead := hlo1
    have hlo20 : t2.limit_overhead = t0.limit_overhead := by rw [hlo2, hlo1]
    have g4 : ∀ j, (t3.slots.set pB (DELETED lp64)).getD j EMPTY =
        if pB = j then DELETED lp64 else t3.slots.getD j EMPTY := by
      intro j; exact getD_set_lt _ _ _ _ (by omega)
    have hgA : (t3.slots.set pB (DELETED lp64)).getD pA EMPTY = A := by
      rw [g4, if_neg hBA, g3, if_neg hCA, g2, if_neg hBA, g1, if_pos rfl]
    have hgC : (t3.slots.set pB (DELETED lp64)).getD pC EMPTY = C := by
      rw [g4, if_neg (fun h => hCB h.symm), g3, if_pos rfl]
    have hrest : ∀ j, j ≠ pA → j ≠ pC →
        IS_USED lp64 ((t3.slots.set pB (DELETED lp64)).getD j EMPTY) = false := by
      intro j hjA hjC
      rw [g4]
      by_cases hjB : pB = j
      · rw [if_pos hjB]
        cases hd : IS_USED lp64 (DELETED lp64)
        · rfl
        · exact absurd rfl ((is_used_iff lp64 _).mp hd).2
      · rw [if_neg hjB, g3, if_neg (fun h => hjC h.symm), g2, if_neg hjB, g1,
          if_neg (fun h => hjA h.symm)]
        exact hnone j
    rcases Nat.lt_trichotomy pA pC with hlt | heq | hgt
    · left
      exact filter_used_two lp64 _ pA pC A C hlt (by omega) hgA hgC hAu hCu hrest
    · exact absurd heq.symm hCA
    · right
      exact filter_used_two lp64 _ pC pA C A hgt (by omega) hgC hgA hCu hAu
        (fun j h1 h2 => hrest j h2 h1)
  · exact absurd hpass (hnotpass _ hmB3)

/-- C1 (round trip).  On the table `thtbl_create` returns for `limit`, with a
comparison that is reflexive and symmetric, inserting fewer than `limit`
non-null, non-sentinel values that are pairwise non-equal under `cmp`
returns `THTBL_EOK` every time, and afterwards `thtbl_find` of each of them
returns `THTBL_EOK` with a found value that compares equal to it.  Under
`THTBL_LP64` the limit is taken below `2 ^ 30`, the range in which
`calc_limit` shifts within `int`; a 32-bit build accepts no other limit. -/
theorem C1_round_trip (lp64 : Bool) (limit : Nat) (hash : Nat → Nat) (cmp : Nat → Nat → Int)
    (rem : Bool) (calloc : Nat → Nat → Bool) (t0 : thtbl_t) (vs : List Nat)
    (hcreate : thtbl_create lp64 true limit (some hash) (some cmp) rem (some calloc) true =
      (THTBL_EOK, some t0))
    (hrange : lp64 = true → limit < 2 ^ 30)
    (hk : vs.length < limit)
    (hval : ∀ v, v ∈ vs → v ≠ NULL ∧ v ≠ DELETED lp64)
    (hrefl : ∀ a, cmp a a = 0)
    (hsymm : ∀ a b, cmp a b = 0 → cmp b a = 0)
    (hdist : vs.Pairwise (fun a b => cmp a b ≠ 0)) :
    (insert_all lp64 (some t0) vs).1 = List.replicate vs.length THTBL_EOK ∧
    ∀ v, v ∈ vs → ∃ t' f,
      thtbl_find lp64 (insert_all lp64 (some t0) vs).2 v = (THTBL_EOK, some t', some f) ∧
      cmp v f = 0 := by
  obtain ⟨_, hcl, hf, cf, hhf, hcf, ht0⟩ := create_eok _ _ _ _ _ _ _ _ _ hcreate
  cases hhf; cases hcf
  have hlim30 : limit < 2 ^ 30 := by
    cases lp64 with
    | true => exact hrange rfl
    | false =>
      by_contra hc
      exact hcl (calc_limit_32_large limit (Nat.le_of_not_lt hc))
  obtain ⟨m, _, hm30, hcalc, hlt, _⟩ := calc_limit_small lp64 limit hlim30
  have hbits : m ≤ SIZE_BITS lp64 := by
    cases lp64 <;> simp [SIZE_BITS] <;> omega
  have hinv0 : chain_inv lp64 t0 := by
    rw [ht0]
    exact fresh_chain_inv lp64 hash cmp rem _ limit m hbits hcalc (by rw [hcalc]; exact hlt)
  have ht0slots : t0.slots = List.replicate (calc_limit lp64 limit) EMPTY := by rw [ht0]
  obtain ⟨t', hall, hinv', hh', hc', hpres⟩ :=
    insert_all_fresh lp64 hash cmp hsymm vs [] t0 hinv0 (by rw [ht0]) (by rw [ht0])
      (by
        intro s hs hs0
        rw [ht0slots] at hs
        exact absurd (List.eq_of_mem_replicate hs) hs0)
      (by intro v hv; cases hv)
      (by intro v hv; cases hv)
      (by rw [ht0]; show 0 + vs.length ≤ limit; omega)
      hval (by simpa using hdist)
  rw [hall]
  refine ⟨rfl, ?_⟩
  intro v hv
  obtain ⟨j, hj, hjv⟩ := hpres v (by simpa using hv)
  obtain ⟨t'', f, hfind, hcv⟩ :=
    find_stored lp64 t' v j hinv' hj hjv (hval v hv).1 (by rw [hc']; exact hrefl v)
  rw [hc'] at hcv
  exact ⟨t'', f, hfind, hcv⟩

/-- Witness of C1: the fresh 32-bit table of limit 4 and the values 17, 1,
33, which all have home slot 1. -/
theorem C1_round_trip_witness :
    (insert_all false (some fresh_record) [17, 1, 33]).1 = List.replicate 3 THTBL_EOK ∧
    ∀ v, v ∈ [17, 1, 33] → ∃ t' f,
      thtbl_find false (insert_all false (some fresh_record) [17, 1, 33]).2 v =
        (THTBL_EOK, some t', some f) ∧
      ptr_cmp v f = 0 :=
  C1_round_trip false 4 ptr_hash ptr_cmp false ok_calloc fresh_record [17, 1, 33]
    rfl (by decide) (by decide) (by decide)
    (fun a => by simp [ptr_cmp])
    (fun a b h => by
      unfold ptr_cmp at *
      split_ifs at h ⊢ <;> first | rfl | omega)
    (by decide)

/-- C2, as stated, fails: in the table `no_empty_table`, reached from
`thtbl_create` by insertions and one removal, `thtbl_remove` of 16 returns
`THTBL_EOK`, and the `thtbl_find` of 16 that follows returns `THTBL_EFULL`,
not `THTBL_ENOENT`, because no slot of the table is Empty. -/
theorem C2_counterexample :
    (thtbl_remove false no_empty_table 16).1 = THTBL_EOK ∧
    (thtbl_find false (thtbl_remove false no_empty_table 16).2 16).1 = THTBL_EFULL ∧
    (thtbl_find false (thtbl_remove false no_empty_table 16).2 16).1 ≠ THTBL_ENOENT := by
  decide

/-- C2, amended.  Take a table in which no two Occupied slots compare equal,
with a symmetric and transitive comparison.  For every value `v`, when
`thtbl_remove(v)` returns `THTBL_EOK`: `used` has decreased by exactly 1; no
Occupied slot of the resulting table compares equal to `v`; and the
`thtbl_find(v)` that follows returns `THTBL_ENOENT`, or returns `THTBL_EFULL`
in the case that `used` is still non-zero and none of the `limit_overhead`
probed slots is Empty. -/
theorem C2_deletion_visibility (lp64 : Bool) (t t' : thtbl_t) (v : Nat)
    (hsymm : ∀ a b, t.cmp a b = 0 → t.cmp b a = 0)
    (htrans : ∀ a b c, t.cmp a b = 0 → t.cmp b c = 0 → t.cmp a c = 0)
    (hnodup : ∀ i, i < t.slots.length → ∀ j, j < t.slots.length → i ≠ j →
      IS_USED lp64 (t.slots.getD i EMPTY) = true →
      IS_USED lp64 (t.slots.getD j EMPTY) = true →
      t.cmp (t.slots.getD i EMPTY) (t.slots.getD j EMPTY) ≠ 0)
    (hrem : thtbl_remove lp64 (some t) v = (THTBL_EOK, some t')) :
    t'.used + 1 = t.used ∧
    (∀ s, s ∈ t'.slots → IS_USED lp64 s = true → t'.cmp v s ≠ 0) ∧
    ((thtbl_find lp64 (some t') v).1 = THTBL_ENOENT ∨
      ((thtbl_find lp64 (some t') v).1 = THTBL_EFULL ∧ t'.used ≠ 0 ∧
        ∀ d, d < t'.limit_overhead → probe_slot lp64 t' (t'.hash v) d ≠ EMPTY)) := by
  obtain ⟨hv0, hu, m, _, _, hnu, hc, ht'⟩ := remove_eok lp64 t t' v hrem
  have hslots : t'.slots =
      t.slots.set (probe_index lp64 t.limit_overhead (t.hash v) m) (DELETED lp64) := by
    rw [ht']
  have hcmp : t'.cmp = t.cmp := by rw [ht']
  have hxu := is_used_of_not_not_used lp64 _ hnu
  have hplt : probe_index lp64 t.limit_overhead (t.hash v) m < t.slots.length := by
    by_contra hge
    have h0 : probe_slot lp64 t (t.hash v) m = EMPTY := by
      unfold probe_slot
      rw [List.getD_eq_getElem?_getD, List.getElem?_eq_none (Nat.le_of_not_lt hge)]
      rfl
    exact ((is_used_iff lp64 _).mp hxu).1 h0
  have habsent : ∀ s, s ∈ t'.slots → IS_USED lp64 s = true → t'.cmp v s ≠ 0 := by
    intro s hs hsu hcv
    rw [hcmp] at hcv
    obtain ⟨j, hj, hjs⟩ := List.mem_iff_getElem.mp hs
    have hj' : j < t.slots.length := by
      rw [hslots, List.length_set] at hj; exact hj
    have hget : t'.slots.getD j EMPTY = s := by
      rw [List.getD_eq_getElem _ _ hj]; exact hjs
    rw [hslots, getD_set] at hget
    by_cases hpj : probe_index lp64 t.limit_overhead (t.hash v) m = j
    · rw [if_pos ⟨hpj, hplt⟩] at hget
      rw [← hget] at hsu
      exact ((is_used_iff lp64 _).mp hsu).2 rfl
    · rw [if_neg (fun h => hpj h.1)] at hget
      have hxs : t.cmp (probe_slot lp64 t (t.hash v) m) s = 0 :=
        htrans _ v s (hsymm _ _ hc) hcv
      refine hnodup _ hplt j hj' hpj hxu (by rw [hget]; exact hsu) ?_
      rw [hget]
      exact hxs
  refine ⟨?_, habsent, ?_⟩
  · rw [ht']
    show t.used - 1 + 1 = t.used
    omega
  · rcases find_code_cases lp64 t' v hv0 with h | ⟨_, s, hs, hsu, hc'⟩ | h
    · exact Or.inl h
    · exact absurd hc' (habsent s hs hsu)
    · exact Or.inr h

/-- Witness of the amended C2: on the 32-bit table of limit 4 that holds
17, `thtbl_remove` of 17 succeeds and the `thtbl_find` that follows returns
`THTBL_ENOENT`. -/
theorem C2_deletion_visibility_witness :
    thtbl_remove false (some one_value_record) 17 = (THTBL_EOK, some one_tombstone_record) ∧
    (one_tombstone_record.used + 1 = one_value_record.used ∧
      (∀ s, s ∈ one_tombstone_record.slots → IS_USED false s = true →
        one_tombstone_record.cmp 17 s ≠ 0) ∧
      ((thtbl_find false (some one_tombstone_record) 17).1 = THTBL_ENOENT ∨
        ((thtbl_find false (some one_tombstone_record) 17).1 = THTBL_EFULL ∧
          one_tombstone_record.used ≠ 0 ∧
          ∀ d, d < one_tombstone_record.limit_overhead →
            probe_slot false one_tombstone_record (one_tombstone_record.hash 17) d
              ≠ EMPTY))) ∧
    (thtbl_find false (some one_tombstone_record) 17).1 = THTBL_ENOENT :=
  ⟨rfl,
    C2_deletion_visibility false one_value_record one_tombstone_record 17
      (fun a b h => (ptr_cmp_zero_iff b a).mpr ((ptr_cmp_zero_iff a b).mp h).symm)
      (fun a b c h1 h2 =>
        (ptr_cmp_zero_iff a c).mpr
          (((ptr_cmp_zero_iff a b).mp h1).trans ((ptr_cmp_zero_iff b c).mp h2)))
      (fun i hi j hj hij hiu hju =>
        absurd
          (((by decide : ∀ k, k < one_value_record.slots.length →
              IS_USED false (one_value_record.slots.getD k EMPTY) = true → k = 1) i hi hiu).trans
            ((by decide : ∀ k, k < one_value_record.slots.length →
              IS_USED false (one_value_record.slots.getD k EMPTY) = true → k = 1) j hj hju).symm)
          hij)
      rfl,
    rfl⟩

/-- C3, as stated, fails at the logical-full guard: on a fresh 32-bit table of
limit 1 the insertion of 1 succeeds, and the second insertion of 1, made while
1 is stored, returns `THTBL_ENOMEM`, not `THTBL_EEXIST`. -/
theorem C3_counterexample :
    (thtbl_insert false (example_table false 1 false) 1).1 = THTBL_EOK ∧
    (thtbl_insert false (example_table false 1 false) 1).2.map (fun t => t.slots.getD 1 EMPTY)
      = some 1 ∧
    (thtbl_insert false (thtbl_insert false (example_table false 1 false) 1).2 1).1 =
      THTBL_ENOMEM := by
  decide

/-- C3, amended.  In every table state reachable from `thtbl_create`, for
non-null `v`: (1) if `used < limit` and some Occupied slot holds a value
that compares equal to `v` and has the hash of `v`, and no Deleted slot lies
on the probe sequence of `v` before that slot, then `thtbl_insert(v)` returns
`THTBL_EEXIST` and leaves slots and `used` as they were; (2) directly after a
successful insertion of a non-sentinel `v` that compares equal to itself, a
second `thtbl_insert(v)` returns `THTBL_EEXIST` if `used < limit` still holds
and `THTBL_ENOMEM` if the first insertion brought `used` to `limit`, in both
cases leaving slots and `used` as they were. -/
theorem C3_idempotent_rejection (lp64 : Bool) (t0 t : thtbl_t) (v : Nat)
    (h0 : created lp64 t0) (hreach : reachable lp64 t0 t) (hv : v ≠ NULL) :
    (∀ j, t.used < t.limit → j < t.limit_overhead →
      IS_USED lp64 (t.slots.getD j EMPTY) = true →
      t.cmp v (t.slots.getD j EMPTY) = 0 →
      t.hash v = t.hash (t.slots.getD j EMPTY) →
      (∀ k, k < t.limit_overhead → probe_index lp64 t.limit_overhead (t.hash v) k = j →
        ∀ d, d < k → probe_slot lp64 t (t.hash v) d ≠ DELETED lp64) →
      ∃ t', thtbl_insert lp64 (some t) v = (THTBL_EEXIST, some t') ∧
        t'.slots = t.slots ∧ t'.used = t.used) ∧
    (∀ t1, v ≠ DELETED lp64 → t.cmp v v = 0 →
      thtbl_insert lp64 (some t) v = (THTBL_EOK, some t1) →
      ∃ t2, thtbl_insert lp64 (some t1) v =
          (if t1.used < t1.limit then THTBL_EEXIST else THTBL_ENOMEM, some t2) ∧
        t2.slots = t1.slots ∧ t2.used = t1.used) := by
  have hinv := probe_inv_reachable lp64 t0 t h0 hreach
  constructor
  · intro j hroom hj hju hcmp hhash hnodel
    obtain ⟨k, hk, hidx, hch⟩ := hinv.chain j hj hju
    rw [← hhash] at hidx hch
    have hslotk : probe_slot lp64 t (t.hash v) k = t.slots.getD j EMPTY := by
      unfold probe_slot; rw [hidx]
    have hused : ∀ d, d ≤ k → IS_NOT_USED lp64
        (probe_slot lp64 { t with searches := (t.searches + 1) % SIZE_MOD lp64 }
          (t.hash v) d) = false := by
      intro d hd
      show IS_NOT_USED lp64 (probe_slot lp64 t (t.hash v) d) = false
      cases hnu : IS_NOT_USED lp64 (probe_slot lp64 t (t.hash v) d)
      · rfl
      · exfalso
        rcases Nat.lt_or_eq_of_le hd with hlt | heq
        · rcases (not_used_iff lp64 _).mp hnu with h | h
          · exact hch d hlt h
          · exact hnodel k hk hidx d hlt h
        · rw [heq, hslotk] at hnu
          rcases (not_used_iff lp64 _).mp hnu with h | h
          · exact ((is_used_iff lp64 _).mp hju).1 h
          · exact ((is_used_iff lp64 _).mp hju).2 h
    obtain ⟨c, hloop⟩ := insert_loop_eexist lp64 v (t.hash v)
      { t with searches := (t.searches + 1) % SIZE_MOD lp64 } t.limit_overhead k hk hused
      (by show t.cmp v (probe_slot lp64 t (t.hash v) k) = 0; rw [hslotk]; exact hcmp)
    rw [thtbl_insert_run lp64 t v hv hroom, hloop]
    exact ⟨_, rfl, rfl, rfl⟩
  · intro t1 hvd hrefl hins
    obtain ⟨_, _, m, hm, hpre, hnu, ht1⟩ := insert_eok lp64 t t1 v hins
    by_cases hroom : t1.used < t1.limit
    · rw [if_pos hroom]
      have hplen : probe_index lp64 t.limit_overhead (t.hash v) m < t.slots.length := by
        rw [hinv.len]; exact probe_index_lt lp64 _ _ _ hinv.lo_pos
      have hvu : IS_NOT_USED lp64 v = false := by
        cases hx : IS_NOT_USED lp64 v
        · rfl
        · rcases (not_used_iff lp64 v).mp hx with h | h
          · exact absurd h hv
          · exact absurd h hvd
      have hslot : ∀ d, probe_slot lp64
          { t1 with searches := (t1.searches + 1) % SIZE_MOD lp64 } (t1.hash v) d =
          if probe_index lp64 t.limit_overhead (t.hash v) m =
              probe_index lp64 t.limit_overhead (t.hash v) d ∧
              probe_index lp64 t.limit_overhead (t.hash v) m < t.slots.length
          then v else probe_slot lp64 t (t.hash v) d := by
        intro d
        rw [ht1]
        show (t.slots.set _ v).getD (probe_index lp64 t.limit_overhead (t.hash v) d) EMPTY = _
        rw [getD_set]; rfl
      have hused : ∀ d, d ≤ m → IS_NOT_USED lp64
          (probe_slot lp64 { t1 with searches := (t1.searches + 1) % SIZE_MOD lp64 }
            (t1.hash v) d) = false := by
        intro d hd
        rw [hslot d]
        split
        · exact hvu
        · rename_i hne
          rcases Nat.lt_or_eq_of_le hd with hlt | heq
          · exact (hpre d hlt).1
          · exact absurd ⟨by rw [heq], hplen⟩ hne
      have hlo1 : t1.limit_overhead = t.limit_overhead := by rw [ht1]
      obtain ⟨c, hloop⟩ := insert_loop_eexist lp64 v (t1.hash v)
        { t1 with searches := (t1.searches + 1) % SIZE_MOD lp64 } t1.limit_overhead m
        (by rw [hlo1]; exact hm) hused
        (by
          rw [hslot m, if_pos ⟨rfl, hplen⟩]
          show t1.cmp v v = 0
          rw [ht1]; exact hrefl)
      rw [thtbl_insert_run lp64 t1 v hv hroom, hloop]
      exact ⟨_, rfl, rfl, rfl⟩
    · rw [if_neg hroom]
      refine ⟨t1, ?_, rfl, rfl⟩
      unfold thtbl_insert
      simp only [if_neg hv]
      rw [if_pos (Nat.le_of_not_lt hroom)]

/-- Witness of the amended C3: on the 32-bit table of limit 4 that holds 17,
reached from the fresh table by one insertion, a second insertion of 17 is
rejected with `THTBL_EEXIST`. -/
theorem C3_idempotent_rejection_witness :
    thtbl_insert false (some fresh_record) 17 = (THTBL_EOK, some one_value_record) ∧
    ∃ t', thtbl_insert false (some one_value_record) 17 = (THTBL_EEXIST, some t') ∧
      t'.slots = one_value_record.slots ∧ t'.used = one_value_record.used :=
  ⟨rfl,
    (C3_idempotent_rejection false fresh_record one_value_record 17
      ⟨true, 4, some ptr_hash, some ptr_cmp, false, some ok_calloc, true, rfl⟩
      (reachable.insert fresh_record one_value_record 17 THTBL_EOK (reachable.init) rfl)
      (by decide)).1 1 (by decide) (by decide) (by decide) (by decide) rfl
      (fun k hk hidx d hd => by
        have hk0 : k = 0 := by
          have hk16 : k < 16 := hk
          interval_cases k <;> first | rfl | (exact absurd hidx (by decide))
        omega)⟩

/-- C4.  Let the allocator grant only requests whose byte count fits
`size_t`, as `calloc` does.  For every `limit` for which `thtbl_create`
succeeds, on both builds and with `1 << i` evaluated in `int`, the stored
`limit_overhead` is a power of two `2 ^ n` with `n ≥ 4`, is strictly greater
than `limit`, and is the least such power (every `2 ^ m` with `m ≥ 4` above
`limit` has `n ≤ m`); limit 128 gives 256, limit 1024 gives 2048 and limit 1
gives 16; and every table reached by later insert, remove, find, clear and
enum calls has the same `limit_overhead`. -/
theorem C4_capacity_rounding (lp64 self_ok : Bool) (limit : Nat)
    (hash : Option (Nat → Nat)) (cmp : Option (Nat → Nat → Int)) (rem : Bool)
    (calloc : Option (Nat → Nat → Bool)) (free : Bool) (t : thtbl_t)
    (hfit : ∀ af, calloc = some af → ∀ n s, af n s = true → n * s < SIZE_MOD lp64)
    (hcreate : thtbl_create lp64 self_ok limit hash cmp rem calloc free =
      (THTBL_EOK, some t)) :
    1 ≤ limit ∧ t.limit = limit ∧
    (∃ n, 4 ≤ n ∧ t.limit_overhead = 2 ^ n ∧ limit < t.limit_overhead ∧
      ∀ m, 4 ≤ m → limit < 2 ^ m → n ≤ m) ∧
    ((limit = 128 → t.limit_overhead = 256) ∧ (limit = 1024 → t.limit_overhead = 2048) ∧
      (limit = 1 → t.limit_overhead = 16)) ∧
    (∀ t', reachable lp64 t t' → t'.limit_overhead = t.limit_overhead) := by
  have hlim := create_fit_range _ _ _ _ _ _ _ _ _ hfit hcreate
  obtain ⟨hl, _, hf, cf, _, _, ht⟩ := create_eok _ _ _ _ _ _ _ _ _ hcreate
  have hlo : t.limit_overhead = calc_limit lp64 limit := by rw [ht]
  have hli : t.limit = limit := by rw [ht]
  obtain ⟨n, h4, _, hcalc, hlt, hprev⟩ := calc_limit_small lp64 limit hlim
  obtain ⟨e1, e2, e3⟩ := calc_limit_examples lp64
  refine ⟨Nat.pos_of_ne_zero hl, hli, ⟨n, h4, by rw [hlo, hcalc], by rw [hlo, hcalc]; exact hlt,
    ?_⟩, ⟨?_, ?_, ?_⟩, ?_⟩
  · intro m _ hm
    rcases hprev with h | h
    · omega
    · have hpow : 2 ^ (n - 1) < 2 ^ m := Nat.lt_of_le_of_lt h hm
      have := (Nat.pow_lt_pow_iff_right (by decide : 1 < 2)).mp hpow
      omega
  · intro h; rw [hlo, h, e1]
  · intro h; rw [hlo, h, e2]
  · intro h; rw [hlo, h, e3]
  · intro t' hr
    exact (cap_inv_reachable lp64 t t' ⟨_, _, _, _, _, _, _, hcreate⟩ hr).lo_eq

/-- Witness of C4: `thtbl_create` with limit 128 under `THTBL_LP64`, with an
allocator that grants exactly the requests that fit `size_t`, returns the
table `created_128` of 256 slots. -/
theorem C4_capacity_rounding_witness :
    (∀ af, some (libc_calloc true) = some af → ∀ n s, af n s = true →
      n * s < SIZE_MOD true) ∧
    thtbl_create true true 128 (some ptr_hash) (some ptr_cmp) false
      (some (libc_calloc true)) true = (THTBL_EOK, some created_128) ∧
    (1 ≤ 128 ∧ created_128.limit = 128 ∧
      (∃ n, 4 ≤ n ∧ created_128.limit_overhead = 2 ^ n ∧ 128 < created_128.limit_overhead ∧
        ∀ m, 4 ≤ m → 128 < 2 ^ m → n ≤ m) ∧
      (((128 : Nat) = 128 → created_128.limit_overhead = 256) ∧
        ((128 : Nat) = 1024 → created_128.limit_overhead = 2048) ∧
        ((128 : Nat) = 1 → created_128.limit_overhead = 16)) ∧
      (∀ t', reachable true created_128 t' →
        t'.limit_overhead = created_128.limit_overhead)) ∧
    created_128.limit_overhead = 256 :=
  ⟨fun af h n s hs => by cases h; exact of_decide_eq_true hs,
    rfl,
    C4_capacity_rounding true true 128 (some ptr_hash) (some ptr_cmp) false
      (some (libc_calloc true)) true created_128
      (fun af h n s hs => by cases h; exact of_decide_eq_true hs) rfl,
    rfl⟩

/-- C5 (logical-full boundary).  On every table with `used = limit`,
`thtbl_insert` of a non-null value returns `THTBL_ENOMEM`, a code different
from `THTBL_EFULL`, and leaves the whole table (slots, `used`, counters) as it
was, although `limit_overhead - used` is positive whenever
`limit < limit_overhead`. -/
theorem C5_logical_full (lp64 : Bool) (t : thtbl_t) (v : Nat) (hv : v ≠ NULL)
    (hfull : t.used = t.limit) :
    thtbl_insert lp64 (some t) v = (THTBL_ENOMEM, some t) ∧
    THTBL_ENOMEM ≠ THTBL_EFULL ∧
    (t.limit < t.limit_overhead → 0 < t.limit_overhead - t.used) := by
  refine ⟨?_, by decide, by omega⟩
  unfold thtbl_insert
  simp only [if_neg hv]
  rw [if_pos (by omega)]

/-- Witness of C5: the 32-bit table of limit 4 after the four successful
insertions of 1, 2, 3, 4 refuses 5, with 12 of its 16 slots not occupied. -/
theorem C5_logical_full_witness :
    (insert_all false (some fresh_record) [1, 2, 3, 4]).1 =
      [THTBL_EOK, THTBL_EOK, THTBL_EOK, THTBL_EOK] ∧
    insert_list false (some fresh_record) [1, 2, 3, 4] = some full_record ∧
    (thtbl_insert false (some full_record) 5 = (THTBL_ENOMEM, some full_record) ∧
      THTBL_ENOMEM ≠ THTBL_EFULL ∧
      (full_record.limit < full_record.limit_overhead →
        0 < full_record.limit_overhead - full_record.used)) ∧
    full_record.limit_overhead - full_record.used = 12 :=
  ⟨by decide, rfl, C5_logical_full false full_record 5 (by decide) rfl, rfl⟩

/-- C6, as stated, fails when A is the sentinel, a non-null value
`thtbl_insert` accepts: on the fresh 32-bit table of limit 4 the insertions
of A = `0xffffffff`, B = 33, C = 49 and the removal of B all return
`THTBL_EOK`, and a never-stopping callback is then called on C only: the slot
that holds A reads as Deleted. -/
theorem C6_counterexample :
    DELETED false ≠ NULL ∧
    (insert_all false (some fresh_record) [DELETED false, 33, 49]).1 =
      [THTBL_EOK, THTBL_EOK, THTBL_EOK] ∧
    (thtbl_remove false (insert_list false (some fresh_record) [DELETED false, 33, 49])
      33).1 = THTBL_EOK ∧
    (thtbl_enum false sentinel_abc_table (some never_stop) ()).1 = THTBL_EOK ∧
    (thtbl_enum false sentinel_abc_table (some never_stop) ()).2.2.2 = [49] ∧
    DELETED false ∉ (thtbl_enum false sentinel_abc_table (some never_stop) ()).2.2.2 := by
  decide

/-- C6, amended.  For every table, callback and `aux`, `thtbl_enum` returns
`THTBL_EOK`, returns the table as it was, and calls the callback on exactly
the values of the Occupied slots in increasing slot index, each once,
stopping after the first value for which the callback returns non-zero
(`visit_until`); so the calls are a prefix of the Occupied values, with no
Empty or Deleted slot among them, and are all of them when the callback never
returns non-zero.  And for every table `thtbl_create` returned and all values
A, B, C other than the `DELETED` sentinel, with B comparing equal to itself:
when the insertions of A, B and C return `THTBL_EOK`, the removal of B
returns `THTBL_EOK`, and a never-stopping callback is then called exactly
twice, on A and on C, in slot order. -/
theorem C6_enum_complete :
    (∀ (σ : Type) (lp64 : Bool) (t : thtbl_t) (cb : Nat → σ → Int × σ) (aux : σ),
      thtbl_enum lp64 (some t) (some cb) aux =
        (THTBL_EOK, some t, visit_until cb (occupied_values lp64 t) aux) ∧
      (thtbl_enum lp64 (some t) (some cb) aux).2.2.2 <+: occupied_values lp64 t ∧
      (∀ s, s ∈ (thtbl_enum lp64 (some t) (some cb) aux).2.2.2 →
        s ∈ t.slots ∧ s ≠ EMPTY ∧ s ≠ DELETED lp64) ∧
      ((∀ v a, (cb v a).1 = 0) →
        (thtbl_enum lp64 (some t) (some cb) aux).2.2.2 = occupied_values lp64 t)) ∧
    (∀ (σ : Type) (lp64 : Bool) (t0 t1 t2 t3 : thtbl_t) (A B C : Nat)
        (cb : Nat → σ → Int × σ) (aux : σ),
      created lp64 t0 →
      A ≠ DELETED lp64 → B ≠ DELETED lp64 → C ≠ DELETED lp64 →
      t0.cmp B B = 0 →
      thtbl_insert lp64 (some t0) A = (THTBL_EOK, some t1) →
      thtbl_insert lp64 (some t1) B = (THTBL_EOK, some t2) →
      thtbl_insert lp64 (some t2) C = (THTBL_EOK, some t3) →
      (∀ v a, (cb v a).1 = 0) →
      ∃ t4, thtbl_remove lp64 (some t3) B = (THTBL_EOK, some t4) ∧
        (thtbl_enum lp64 (some t4) (some cb) aux).1 = THTBL_EOK ∧
        ((thtbl_enum lp64 (some t4) (some cb) aux).2.2.2 = [A, C] ∨
          (thtbl_enum lp64 (some t4) (some cb) aux).2.2.2 = [C, A])) := by
  have hgen : ∀ (σ : Type) (lp64 : Bool) (t : thtbl_t) (cb : Nat → σ → Int × σ) (aux : σ),
      thtbl_enum lp64 (some t) (some cb) aux =
        (THTBL_EOK, some t, visit_until cb (occupied_values lp64 t) aux) := by
    intro σ lp64 t cb aux
    unfold thtbl_enum occupied_values
    simp only [enum_loop_eq_visit]
  refine ⟨?_, ?_⟩
  · intro σ lp64 t cb aux
    have heq := hgen σ lp64 t cb aux
    have hpre : (thtbl_enum lp64 (some t) (some cb) aux).2.2.2 <+: occupied_values lp64 t := by
      rw [heq]; exact visit_until_prefix cb _ aux
    refine ⟨heq, hpre, ?_, ?_⟩
    · intro s hs
      have hocc : s ∈ occupied_values lp64 t := hpre.subset hs
      unfold occupied_values at hocc
      rw [List.mem_filter] at hocc
      exact ⟨List.mem_of_mem_take hocc.1, ((is_used_iff lp64 s).mp hocc.2).1,
        ((is_used_iff lp64 s).mp hocc.2).2⟩
    · intro hnever
      rw [heq]
      exact visit_until_all cb hnever _ aux
  · intro σ lp64 t0 t1 t2 t3 A B C cb aux h0 hA hB hC hrefl h1 h2 h3 hnever
    have hcap := cap_inv_created lp64 t0 h0
    have hnone : ∀ j, IS_USED lp64 (t0.slots.getD j EMPTY) = false := by
      obtain ⟨_, _, _, _, _, _, _, hc⟩ := h0
      obtain ⟨_, _, hf, cf, _, _, ht0⟩ := create_eok _ _ _ _ _ _ _ _ _ hc
      intro j
      rw [ht0]
      show IS_USED lp64 ((List.replicate _ EMPTY).getD j EMPTY) = false
      rw [getD_replicate_empty]
      cases hd : IS_USED lp64 EMPTY
      · rfl
      · exact absurd rfl ((is_used_iff lp64 _).mp hd).1
    obtain ⟨t4, hrem, hocc⟩ := occupied_after_abc lp64 t0 t1 t2 t3 A B C hcap.len
      (Nat.lt_trans hcap.lim_lt hcap.lo_lt) hnone hA hB hC hrefl h1 h2 h3
    refine ⟨t4, hrem, ?_, ?_⟩
    · rw [hgen σ lp64 t4 cb aux]
    · rw [hgen σ lp64 t4 cb aux]
      show (visit_until cb (occupied_values lp64 t4) aux).2 = [A, C] ∨
        (visit_until cb (occupied_values lp64 t4) aux).2 = [C, A]
      rw [visit_until_all cb hnever _ aux]
      exact hocc

/-- Witness of the amended C6: A = 17, B = 33 and C = 49, all with home
slot 1, inserted in the fresh 32-bit table of limit 4. -/
theorem C6_enum_complete_witness :
    created false fresh_record ∧
    thtbl_insert false (some fresh_record) 17 = (THTBL_EOK, some one_value_record) ∧
    thtbl_insert false (some one_value_record) 33 = (THTBL_EOK, some two_value_record) ∧
    thtbl_insert false (some two_value_record) 49 = (THTBL_EOK, some three_value_record) ∧
    (∃ t4, thtbl_remove false (some three_value_record) 33 = (THTBL_EOK, some t4) ∧
      (thtbl_enum false (some t4) (some never_stop) ()).1 = THTBL_EOK ∧
      ((thtbl_enum false (some t4) (some never_stop) ()).2.2.2 = [17, 49] ∨
        (thtbl_enum false (some t4) (some never_stop) ()).2.2.2 = [49, 17])) :=
  ⟨⟨true, 4, some ptr_hash, some ptr_cmp, false, some ok_calloc, true, rfl⟩, rfl, rfl, rfl,
    C6_enum_complete.2 Unit false fresh_record one_value_record two_value_record
      three_value_record 17 33 49 never_stop ()
      ⟨true, 4, some ptr_hash, some ptr_cmp, false, some ok_calloc, true, rfl⟩
      (by decide) (by decide) (by decide) rfl rfl rfl rfl (fun _ _ => rfl)⟩

/-- C7 (clear).  On every table with a bound destroyer whose slot array has
`limit_overhead` slots, `thtbl_clear` returns `THTBL_EOK`; the destroyer is
called once on each Occupied value, in slot order, and on nothing else, so
exactly as many times as there are Occupied slots; every slot, tombstones
included, becomes Empty and `used` becomes 0, so `thtbl_size` reports 0; the
fields `searches`, `cols`, `limit` and `limit_overhead` keep their values; and
a following `thtbl_find` of any non-null value returns `THTBL_ENOENT`. -/
theorem C7_clear_contract (lp64 : Bool) (t : thtbl_t) (hrem : t.rem = true)
    (hlen : t.slots.length = t.limit_overhead) :
    thtbl_clear lp64 (some t) =
      (THTBL_EOK, some
        { t with
          rem_calls := t.rem_calls ++ occupied_values lp64 t,
          slots := List.replicate t.limit_overhead EMPTY,
          used := 0 }) ∧
    occupied_values lp64 t = t.slots.filter (fun s => IS_USED lp64 s) ∧
    (occupied_values lp64 t).length = t.slots.countP (fun s => IS_USED lp64 s) ∧
    thtbl_size (thtbl_clear lp64 (some t)).2 = (THTBL_EOK, some 0) ∧
    ∀ v, v ≠ NULL → (thtbl_find lp64 (thtbl_clear lp64 (some t)).2 v).1 = THTBL_ENOENT := by
  have hocc : occupied_values lp64 t = t.slots.filter (fun s => IS_USED lp64 s) := by
    unfold occupied_values
    rw [List.take_of_length_le (by omega)]
  have hclear : thtbl_clear lp64 (some t) =
      (THTBL_EOK, some
        { t with
          rem_calls := t.rem_calls ++ occupied_values lp64 t,
          slots := List.replicate t.limit_overhead EMPTY,
          used := 0 }) := by
    unfold thtbl_clear remove_values occupied_values
    simp only [hrem, if_true, remove_values_loop_eq]
    rw [clear_loop_eq t.limit_overhead t.slots 0 (by omega)]
    simp only [List.take_zero, List.nil_append]
  refine ⟨hclear, hocc, ?_, ?_, ?_⟩
  · rw [hocc, List.countP_eq_length_filter]
  · rw [hclear]; rfl
  · intro v hv
    rw [hclear]
    rw [find_enoent_of_unused lp64 _ v hv rfl]

/-- Witness of C7: clearing `abc_table`, which holds 17 and 49 and one
tombstone, calls the destroyer on 17 and 49 (after the earlier call on 33). -/
theorem C7_clear_contract_witness :
    abc_table = some abc_record ∧
    (thtbl_clear false (some abc_record) =
      (THTBL_EOK, some
        { abc_record with
          rem_calls := [33] ++ occupied_values false abc_record,
          slots := List.replicate 16 EMPTY,
          used := 0 }) ∧
    occupied_values false abc_record =
      abc_record.slots.filter (fun s => IS_USED false s) ∧
    (occupied_values false abc_record).length =
      abc_record.slots.countP (fun s => IS_USED false s) ∧
    thtbl_size (thtbl_clear false (some abc_record)).2 = (THTBL_EOK, some 0) ∧
    ∀ v, v ≠ NULL →
      (thtbl_find false (thtbl_clear false (some abc_record)).2 v).1 = THTBL_ENOENT) ∧
    occupied_values false abc_record = [17, 49] :=
  ⟨rfl, C7_clear_contract false abc_record rfl rfl, by decide⟩

/-- C8 fails on the code: `thtbl_remove` tests `IS_NOT_USED`, so it stops
at a tombstone.  In the 32-bit table `tombstone_table` (16 and 32 inserted,
both with home slot 0, then 16 removed) `thtbl_find` of 32 returns
`THTBL_EOK` with 32, while `thtbl_remove` of 32 returns `THTBL_ENOENT` at the
Deleted slot 0 and leaves 32 stored, with `used` still 1. -/
theorem C8_remove_stops_at_tombstone :
    tombstone_table.map (fun t => t.slots) =
      some [DELETED false, 32, 0, 0, 0, 0, 0, 0, 0, 0, 0, 0, 0, 0, 0, 0] ∧
    (thtbl_find false tombstone_table 32).1 = THTBL_EOK ∧
    (thtbl_find false tombstone_table 32).2.2 = some 32 ∧
    (thtbl_remove false tombstone_table 32).1 = THTBL_ENOENT ∧
    (thtbl_remove false tombstone_table 32).2.map (fun t => (t.slots, t.used)) =
      some ([DELETED false, 32, 0, 0, 0, 0, 0, 0, 0, 0, 0, 0, 0, 0, 0, 0], 1) := by
  decide

/-- C9 (find follows the probe path).  On every table whose `limit_overhead`
is a power of two within `size_t`, for non-null `v`: `thtbl_find` returns
`THTBL_ENOENT` when `used` is 0; otherwise, scanning the slots at
`(hash(v) + k) mod limit_overhead` for `k` below `limit_overhead` and
skipping Deleted and non-equal Occupied slots, it returns `THTBL_EOK` with
`*found` set to the stored value of the first Occupied slot that compares
equal to `v` if the scan meets one before any Empty slot, `THTBL_ENOENT` if
it meets an Empty slot first, and `THTBL_EFULL` if every slot of the scan is
skipped.  Slots and `used` are returned as they were. -/
theorem C9_find_probe_path (lp64 : Bool) (t : thtbl_t) (v n : Nat) (hv : v ≠ NULL)
    (hn : n ≤ SIZE_BITS lp64) (hlo : t.limit_overhead = 2 ^ n) :
    (t.used = 0 → thtbl_find lp64 (some t) v = (THTBL_ENOENT, some t, none)) ∧
    (t.used ≠ 0 →
      (∀ k, k < t.limit_overhead → (∀ d, d < k → scan_skips lp64 t v d) →
        IS_USED lp64 (scan_slot t v k) = true → t.cmp v (scan_slot t v k) = 0 →
        (thtbl_find lp64 (some t) v).1 = THTBL_EOK ∧
        (thtbl_find lp64 (some t) v).2.2 = some (scan_slot t v k)) ∧
      (∀ k, k < t.limit_overhead → (∀ d, d < k → scan_skips lp64 t v d) →
        scan_slot t v k = EMPTY →
        (thtbl_find lp64 (some t) v).1 = THTBL_ENOENT ∧
        (thtbl_find lp64 (some t) v).2.2 = none) ∧
      ((∀ d, d < t.limit_overhead → scan_skips lp64 t v d) →
        (thtbl_find lp64 (some t) v).1 = THTBL_EFULL ∧
        (thtbl_find lp64 (some t) v).2.2 = none)) := by
  constructor
  · intro hu
    exact find_enoent_of_unused lp64 t v hv hu
  · intro hu
    have hrun := thtbl_find_run lp64 t v hv hu
    have hss := fun k => scan_slot_eq lp64 t v n k hn hlo
    have hcont : ∀ d, scan_skips lp64 t v d →
        IS_EMPTY (probe_slot lp64 { t with searches := (t.searches + 1) % SIZE_MOD lp64 }
          (t.hash v) d) = false ∧
        (IS_DELETED lp64 (probe_slot lp64
          { t with searches := (t.searches + 1) % SIZE_MOD lp64 } (t.hash v) d) = true ∨
          t.cmp v (probe_slot lp64
            { t with searches := (t.searches + 1) % SIZE_MOD lp64 } (t.hash v) d) ≠ 0) := by
      intro d hd
      rw [hss d]
      exact scan_skips_continue lp64 t v d hd
    refine ⟨?_, ?_, ?_⟩
    · intro k hk hpre husd hc
      have hstop : ¬ (IS_EMPTY (probe_slot lp64
            { t with searches := (t.searches + 1) % SIZE_MOD lp64 } (t.hash v) k) = false ∧
          (IS_DELETED lp64 (probe_slot lp64
            { t with searches := (t.searches + 1) % SIZE_MOD lp64 } (t.hash v) k) = true ∨
            t.cmp v (probe_slot lp64
              { t with searches := (t.searches + 1) % SIZE_MOD lp64 } (t.hash v) k) ≠ 0)) := by
        rw [hss k]
        rintro ⟨_, h | h⟩
        · exact ((is_used_iff lp64 _).mp husd).2 (by simpa [IS_DELETED] using h)
        · exact h hc
      have hne : ¬ IS_EMPTY (probe_slot lp64
          { t with searches := (t.searches + 1) % SIZE_MOD lp64 } (t.hash v) k) = true := by
        rw [hss k]
        simpa [IS_EMPTY] using ((is_used_iff lp64 _).mp husd).1
      rw [hrun, find_loop_first lp64 v (t.hash v) _ _ k hk (fun d hd => hcont d (hpre d hd))
        hstop, if_neg hne, hss k]
      exact ⟨rfl, rfl⟩
    · intro k hk hpre hemp
      have hemp' : IS_EMPTY (probe_slot lp64
          { t with searches := (t.searches + 1) % SIZE_MOD lp64 } (t.hash v) k) = true := by
        rw [hss k, hemp]; rfl
      have hstop : ¬ (IS_EMPTY (probe_slot lp64
            { t with searches := (t.searches + 1) % SIZE_MOD lp64 } (t.hash v) k) = false ∧
          (IS_DELETED lp64 (probe_slot lp64
            { t with searches := (t.searches + 1) % SIZE_MOD lp64 } (t.hash v) k) = true ∨
            t.cmp v (probe_slot lp64
              { t with searches := (t.searches + 1) % SIZE_MOD lp64 } (t.hash v) k) ≠ 0)) := by
        rw [hemp']
        rintro ⟨h, _⟩
        cases h
      rw [hrun, find_loop_first lp64 v (t.hash v) _ _ k hk (fun d hd => hcont d (hpre d hd))
        hstop, if_pos hemp']
      exact ⟨rfl, rfl⟩
    · intro hall
      rw [hrun, find_loop_full lp64 v (t.hash v) _ _ (fun d hd => hcont d (hall d hd))]
      exact ⟨rfl, rfl⟩

/-- Witness of C9: in `tombstone_table` the scan for 32 skips the Deleted
slot 0 and stops at slot 1, which holds 32. -/
theorem C9_find_probe_path_witness :
    tombstone_table = some tombstone_record ∧
    ((thtbl_find false (some tombstone_record) 32).1 = THTBL_EOK ∧
      (thtbl_find false (some tombstone_record) 32).2.2 =
        some (scan_slot tombstone_record 32 1)) ∧
    scan_slot tombstone_record 32 1 = 32 :=
  ⟨rfl,
    ((C9_find_probe_path false tombstone_record 32 4 (by decide) (by decide) rfl).2
      (by decide)).1 1 (by decide)
      (fun d hd => by
        have hd0 : d = 0 := by omega
        subst hd0
        exact Or.inl rfl)
      (by decide) (by decide),
    rfl⟩

/-- C10, as stated, fails for the sentinel: on a fresh 32-bit table of limit 4
take `a = 0xffffffff` (the `DELETED` pattern) and `b = 15`, two non-equal
values with the same home slot 15.  `thtbl_insert(a)` returns `THTBL_EOK`, but
the slot then reads as Deleted and `thtbl_remove(a)` returns `THTBL_ENOENT`,
not `THTBL_EOK`. -/
theorem C10_counterexample :
    DELETED false ≠ NULL ∧ ptr_cmp (DELETED false) 15 ≠ 0 ∧
    ptr_hash (DELETED false) % 16 = ptr_hash 15 % 16 ∧
    (thtbl_insert false (example_table false 4 false) (DELETED false)).1 = THTBL_EOK ∧
    (thtbl_remove false
      (thtbl_insert false (example_table false 4 false) (DELETED false)).2
      (DELETED false)).1 = THTBL_ENOENT := by
  decide

/-- C10, amended.  On the table `thtbl_create` returns for `limit` (below
`2 ^ 30` under `THTBL_LP64`), for non-null values `a` and `b` with the same
home slot `hash mod limit_overhead`, where `a` is not the `DELETED` sentinel
and compares equal to itself: `thtbl_insert(a)`, `thtbl_remove(a)`,
`thtbl_insert(b)` return `THTBL_EOK` three times; `a` is stored in its home
slot, the slot is then Deleted, and `b` is stored in that same slot, every
other slot staying Empty; `used` ends at 1 and `limit_overhead` keeps its
value.  The two values need not be non-equal for this. -/
theorem C10_tombstone_reuse (lp64 : Bool) (limit : Nat) (hash : Nat → Nat)
    (cmp : Nat → Nat → Int) (rem : Bool) (calloc : Nat → Nat → Bool) (t0 : thtbl_t) (a b : Nat)
    (hcreate : thtbl_create lp64 true limit (some hash) (some cmp) rem (some calloc) true =
      (THTBL_EOK, some t0))
    (hrange : lp64 = true → limit < 2 ^ 30)
    (ha0 : a ≠ NULL) (had : a ≠ DELETED lp64) (hb0 : b ≠ NULL) (hrefl : cmp a a = 0)
    (hcoll : hash a % t0.limit_overhead = hash b % t0.limit_overhead) :
    ∃ t1 t2 t3,
      thtbl_insert lp64 (some t0) a = (THTBL_EOK, some t1) ∧
      thtbl_remove lp64 (some t1) a = (THTBL_EOK, some t2) ∧
      thtbl_insert lp64 (some t2) b = (THTBL_EOK, some t3) ∧
      hash a % t0.limit_overhead < t0.limit_overhead ∧
      t1.slots = (List.replicate t0.limit_overhead EMPTY).set (hash a % t0.limit_overhead) a ∧
      t2.slots = (List.replicate t0.limit_overhead EMPTY).set (hash a % t0.limit_overhead)
        (DELETED lp64) ∧
      t3.slots = (List.replicate t0.limit_overhead EMPTY).set (hash a % t0.limit_overhead) b ∧
      t3.used = 1 ∧
      t1.limit_overhead = t0.limit_overhead ∧ t2.limit_overhead = t0.limit_overhead ∧
      t3.limit_overhead = t0.limit_overhead := by
  obtain ⟨hl0, hcl, hf, cf, hhf, hcf, ht0⟩ := create_eok _ _ _ _ _ _ _ _ _ hcreate
  cases hhf; cases hcf
  have hlim30 : limit < 2 ^ 30 := by
    cases lp64 with
    | true => exact hrange rfl
    | false =>
      by_contra hc
      exact hcl (calc_limit_32_large limit (Nat.le_of_not_lt hc))
  obtain ⟨m, _, hm30, hcalc, hlt, _⟩ := calc_limit_small lp64 limit hlim30
  have hbits : m ≤ SIZE_BITS lp64 := by
    cases lp64 <;> simp [SIZE_BITS] <;> omega
  have hM := one_lt_size_mod lp64
  subst ht0
  simp only at hcoll ⊢
  generalize hlo : calc_limit lp64 limit = lo at *
  have hlopos : 0 < lo := by rw [hcalc]; exact Nat.pos_pow_of_pos _ (by decide)
  have hidx : ∀ x, probe_index lp64 lo (hash x) 0 = hash x % lo := by
    intro x
    rw [hcalc, probe_index_pow2 lp64 m _ _ hbits, Nat.add_zero]
  have hplt : hash a % lo < lo := Nat.mod_lt _ hlopos
  have hplen : hash a % lo < (List.replicate lo EMPTY).length := by
    rw [List.length_replicate]; exact hplt
  -- first insertion
  have h1 : thtbl_insert lp64
      (some { hash := hash, cmp := cmp, rem := rem, limit_overhead := lo, limit := limit,
              used := 0, cols := 0, searches := 0, slots := List.replicate lo EMPTY,
              rem_calls := [] }) a =
      (THTBL_EOK, some
        { hash := hash, cmp := cmp, rem := rem, limit_overhead := lo, limit := limit,
          used := 1, cols := 0, searches := (0 + 1) % SIZE_MOD lp64,
          slots := (List.replicate lo EMPTY).set (hash a % lo) a, rem_calls := [] }) := by
    rw [thtbl_insert_run lp64 _ a ha0 (by show 0 < limit; omega)]
    rw [insert_loop_place lp64 a _ _ _ 0 hlopos
      (by
        show IS_NOT_USED lp64 ((List.replicate lo EMPTY).getD _ EMPTY) = true
        rw [getD_replicate_empty]; rfl)]
    simp only [hidx, Nat.zero_add, Nat.mod_eq_of_lt hM]
  -- removal
  have h2 : thtbl_remove lp64
      (some { hash := hash, cmp := cmp, rem := rem, limit_overhead := lo, limit := limit,
              used := 1, cols := 0, searches := (0 + 1) % SIZE_MOD lp64,
              slots := (List.replicate lo EMPTY).set (hash a % lo) a, rem_calls := [] }) a =
      (THTBL_EOK, some
        { hash := hash, cmp := cmp, rem := rem, limit_overhead := lo, limit := limit,
          used := 0, cols := 0,
          searches := ((0 + 1) % SIZE_MOD lp64 + 1) % SIZE_MOD lp64,
          slots := (List.replicate lo EMPTY).set (hash a % lo) (DELETED lp64),
          rem_calls := if rem then [a] else [] }) := by
    have hslot : probe_slot lp64
        { hash := hash, cmp := cmp, rem := rem, limit_overhead := lo, limit := limit,
          used := 1, cols := 0,
          searches := ((0 + 1) % SIZE_MOD lp64 + 1) % SIZE_MOD lp64,
          slots := (List.replicate lo EMPTY).set (hash a % lo) a, rem_calls := [] }
        (hash a) 0 = a := by
      show ((List.replicate lo EMPTY).set (hash a % lo) a).getD
        (probe_index lp64 lo (hash a) 0) EMPTY = a
      rw [hidx, getD_set, if_pos ⟨rfl, hplen⟩]
    rw [thtbl_remove_run lp64 _ a ha0 (by show (1 : Nat) ≠ 0; decide)]
    rw [remove_loop_hit lp64 a _ _ _ 0 hlopos
      (by
        rw [hslot]
        cases hnu : IS_NOT_USED lp64 a
        · rfl
        · rcases (not_used_iff lp64 a).mp hnu with h | h
          · exact absurd h ha0
          · exact absurd h had)
      (by rw [hslot]; exact hrefl)]
    simp only [hslot, hidx, List.set_set, List.nil_append]
  -- second insertion
  have h3 : thtbl_insert lp64
      (some { hash := hash, cmp := cmp, rem := rem, limit_overhead := lo, limit := limit,
              used := 0, cols := 0,
              searches := ((0 + 1) % SIZE_MOD lp64 + 1) % SIZE_MOD lp64,
              slots := (List.replicate lo EMPTY).set (hash a % lo) (DELETED lp64),
              rem_calls := if rem then [a] else [] }) b =
      (THTBL_EOK, some
        { hash := hash, cmp := cmp, rem := rem, limit_overhead := lo, limit := limit,
          used := 1, cols := 0,
          searches := (((0 + 1) % SIZE_MOD lp64 + 1) % SIZE_MOD lp64 + 1) % SIZE_MOD lp64,
          slots := (List.replicate lo EMPTY).set (hash a % lo) b,
          rem_calls := if rem then [a] else [] }) := by
    rw [thtbl_insert_run lp64 _ b hb0 (by show 0 < limit; omega)]
    rw [insert_loop_place lp64 b _ _ _ 0 hlopos
      (by
        show IS_NOT_USED lp64 (((List.replicate lo EMPTY).set (hash a % lo) (DELETED lp64)).getD
          (probe_index lp64 lo (hash b) 0) EMPTY) = true
        rw [hidx, ← hcoll, getD_set, if_pos ⟨rfl, hplen⟩]
        exact (not_used_iff lp64 _).mpr (Or.inr rfl))]
    simp only [hidx, ← hcoll, List.set_set, Nat.zero_add, Nat.mod_eq_of_lt hM]
  exact ⟨_, _, _, h1, h2, h3, hplt, rfl, rfl, rfl, rfl, rfl, rfl, rfl⟩

/-- Witness of the amended C10: the fresh 32-bit table of limit 4 and the
values 17 and 33, whose home is slot 1. -/
theorem C10_tombstone_reuse_witness :
    ∃ t1 t2 t3,
      thtbl_insert false (some fresh_record) 17 = (THTBL_EOK, some t1) ∧
      thtbl_remove false (some t1) 17 = (THTBL_EOK, some t2) ∧
      thtbl_insert false (some t2) 33 = (THTBL_EOK, some t3) ∧
      ptr_hash 17 % fresh_record.limit_overhead < fresh_record.limit_overhead ∧
      t1.slots = (List.replicate fresh_record.limit_overhead EMPTY).set
        (ptr_hash 17 % fresh_record.limit_overhead) 17 ∧
      t2.slots = (List.replicate fresh_record.limit_overhead EMPTY).set
        (ptr_hash 17 % fresh_record.limit_overhead) (DELETED false) ∧
      t3.slots = (List.replicate fresh_record.limit_overhead EMPTY).set
        (ptr_hash 17 % fresh_record.limit_overhead) 33 ∧
      t3.used = 1 ∧
      t1.limit_overhead = fresh_record.limit_overhead ∧
      t2.limit_overhead = fresh_record.limit_overhead ∧
      t3.limit_overhead = fresh_record.limit_overhead :=
  C10_tombstone_reuse false 4 ptr_hash ptr_cmp false ok_calloc fresh_record 17 33
    rfl (by decide) (by decide) (by decide) (by decide) (by decide) (by decide)

/-- C11 (failure atomicity).  For every table and value: when
`thtbl_insert` or `thtbl_remove` returns a code other than `THTBL_EOK`, the
table it leaves has the slot array, `used` and the destroyer trace of the
table it was given (no destroyer call), and `limit`, `limit_overhead` too;
`thtbl_find` leaves all of these as they were whatever it returns. -/
theorem C11_failure_atomicity (lp64 : Bool) (t : thtbl_t) (v : Nat) :
    ((thtbl_insert lp64 (some t) v).1 ≠ THTBL_EOK →
      ∃ t', (thtbl_insert lp64 (some t) v).2 = some t' ∧ t'.slots = t.slots ∧
        t'.used = t.used ∧ t'.rem_calls = t.rem_calls ∧ t'.limit = t.limit ∧
        t'.limit_overhead = t.limit_overhead) ∧
    ((thtbl_remove lp64 (some t) v).1 ≠ THTBL_EOK →
      ∃ t', (thtbl_remove lp64 (some t) v).2 = some t' ∧ t'.slots = t.slots ∧
        t'.used = t.used ∧ t'.rem_calls = t.rem_calls ∧ t'.limit = t.limit ∧
        t'.limit_overhead = t.limit_overhead) ∧
    (∃ t', (thtbl_find lp64 (some t) v).2.1 = some t' ∧ t'.slots = t.slots ∧
      t'.used = t.used ∧ t'.rem_calls = t.rem_calls ∧ t'.limit = t.limit ∧
      t'.limit_overhead = t.limit_overhead) := by
  refine ⟨?_, ?_, ?_⟩
  · intro hne
    rcases insert_result lp64 t v with ⟨_, h⟩ | ⟨_, _, h⟩ |
      ⟨_, _, ⟨m, _, _, _, h⟩ | ⟨m, _, _, _, _, h⟩ | ⟨_, h⟩⟩
    · rw [h]; exact ⟨_, rfl, rfl, rfl, rfl, rfl, rfl⟩
    · rw [h]; exact ⟨_, rfl, rfl, rfl, rfl, rfl, rfl⟩
    · rw [h] at hne; exact absurd rfl hne
    · rw [h]; exact ⟨_, rfl, rfl, rfl, rfl, rfl, rfl⟩
    · rw [h]; exact ⟨_, rfl, rfl, rfl, rfl, rfl, rfl⟩
  · intro hne
    rcases remove_result lp64 t v with ⟨_, h⟩ | ⟨_, _, h⟩ |
      ⟨_, _, ⟨m, _, _, _, h⟩ | ⟨m, _, _, _, _, h⟩ | ⟨_, h⟩⟩
    · rw [h]; exact ⟨_, rfl, rfl, rfl, rfl, rfl, rfl⟩
    · rw [h]; exact ⟨_, rfl, rfl, rfl, rfl, rfl, rfl⟩
    · rw [h]; exact ⟨_, rfl, rfl, rfl, rfl, rfl, rfl⟩
    · rw [h] at hne; exact absurd rfl hne
    · rw [h]; exact ⟨_, rfl, rfl, rfl, rfl, rfl, rfl⟩
  · rcases find_result lp64 t v with ⟨_, h⟩ | ⟨_, _, h⟩ |
      ⟨_, _, ⟨m, _, _, _, h⟩ | ⟨m, _, _, _, _, _, h⟩ | ⟨_, h⟩⟩ <;>
    · rw [h]; exact ⟨_, rfl, rfl, rfl, rfl, rfl, rfl⟩

/-- Witness of C11: on the full table `full_record` the insertion of 5 fails
(`THTBL_ENOMEM`) and leaves slots and `used` as they were. -/
theorem C11_failure_atomicity_witness :
    (thtbl_insert false (some full_record) 5).1 = THTBL_ENOMEM ∧
    ∃ t', (thtbl_insert false (some full_record) 5).2 = some t' ∧
      t'.slots = full_record.slots ∧ t'.used = full_record.used ∧
      t'.rem_calls = full_record.rem_calls ∧ t'.limit = full_record.limit ∧
      t'.limit_overhead = full_record.limit_overhead :=
  ⟨by decide, (C11_failure_atomicity false full_record 5).1 (by decide)⟩

/-- What `thtbl_create` returns, case by case, on both builds: the argument
checks in their order, then the two allocations, then the fresh table. -/
theorem create_result (lp64 self_ok : Bool) (limit : Nat) (hash : Option (Nat → Nat))
    (cmp : Option (Nat → Nat → Int)) (rem : Bool) (calloc : Option (Nat → Nat → Bool))
    (free : Bool) :
    ((self_ok = false ∨ limit = 0 ∨ calc_limit lp64 limit = 0 ∨ hash = none ∨ cmp = none ∨
        calloc = none ∨ free = false) →
      thtbl_create lp64 self_ok limit hash cmp rem calloc free = (THTBL_EINVAL, none)) ∧
    (∀ hf cf af, self_ok = true → limit ≠ 0 → calc_limit lp64 limit ≠ 0 → hash = some hf →
      cmp = some cf → calloc = some af → free = true →
      ((af 1 (11 * WORD_BYTES lp64) = false ∨
          af (calc_limit lp64 limit) (WORD_BYTES lp64) = false) →
        thtbl_create lp64 self_ok limit hash cmp rem calloc free = (THTBL_ENOMEM, none)) ∧
      (af 1 (11 * WORD_BYTES lp64) = true →
        af (calc_limit lp64 limit) (WORD_BYTES lp64) = true →
        thtbl_create lp64 self_ok limit hash cmp rem calloc free =
          (THTBL_EOK, some
            { hash := hf, cmp := cf, rem := rem, limit_overhead := calc_limit lp64 limit,
              limit := limit, used := 0, cols := 0, searches := 0,
              slots := List.replicate (calc_limit lp64 limit) EMPTY, rem_calls := [] }))) := by
  constructor
  · intro h
    unfold thtbl_create
    cases self_ok with
    | false => simp
    | true =>
      by_cases hl : limit = 0
      · simp [hl]
      by_cases hc : calc_limit lp64 limit = 0
      · simp [hl, hc]
      cases hash with
      | none => simp [hl, hc]
      | some hf =>
        cases cmp with
        | none => simp [hl, hc]
        | some cf =>
          cases calloc with
          | none => simp [hl, hc]
          | some af =>
            cases free with
            | false => simp [hl, hc]
            | true => simp [hl, hc] at h
  · intro hf cf af hs hl hc hh hcm hca hfr
    subst hs hh hcm hca hfr
    unfold thtbl_create
    constructor
    · intro hfail
      simp only [Bool.not_true, Bool.false_eq_true, if_false, if_neg hl, if_neg hc]
      by_cases h1 : af 1 (11 * WORD_BYTES lp64) = true
      · have h2 : af (calc_limit lp64 limit) (WORD_BYTES lp64) = false := by
          rcases hfail with h | h
          · rw [h1] at h; cases h
          · exact h
        simp [h1, h2]
      · simp [h1]
    · intro h1 h2
      simp [hl, hc, h1, h2]

/-- C12 fails on the code under `THTBL_LP64` at `limit = 2 ^ 63`, for which
no power of two above the limit fits `size_t`: `calc_limit` returns
`2 ^ 64 - 2 ^ 31` (the wrapped `int` shift `1 << 31`), not 0, so
`thtbl_create` does not return `THTBL_EINVAL` whatever the allocator does;
it returns `THTBL_ENOMEM` with an allocator that refuses the overflowing
request, and `THTBL_EOK` with one that grants it. -/
theorem C12_lp64_no_einval :
    calc_limit true (2 ^ 63) = 2 ^ 64 - 2 ^ 31 ∧
    (∀ n : Nat, 2 ^ 63 < 2 ^ n → ¬ 2 ^ n < SIZE_MOD true) ∧
    (∀ (calloc : Nat → Nat → Bool),
      (thtbl_create true true (2 ^ 63) (some ptr_hash) (some ptr_cmp) false
        (some calloc) true).1 ≠ THTBL_EINVAL) ∧
    (thtbl_create true true (2 ^ 63) (some ptr_hash) (some ptr_cmp) false
      (some (libc_calloc true)) true).1 = THTBL_ENOMEM ∧
    (thtbl_create true true (2 ^ 63) (some ptr_hash) (some ptr_cmp) false
      (some ok_calloc) true).1 = THTBL_EOK := by
  refine ⟨by decide, ?_, ?_, by decide, by decide⟩
  · intro n hn hlt
    have h1 := (Nat.pow_lt_pow_iff_right (by decide : 1 < 2)).mp hn
    have h2 : 2 ^ n < 2 ^ 64 := hlt
    have h3 := (Nat.pow_lt_pow_iff_right (by decide : 1 < 2)).mp h2
    omega
  · intro calloc
    have hc : calc_limit true (2 ^ 63) ≠ 0 := by decide
    obtain ⟨_, h⟩ := create_result true true (2 ^ 63) (some ptr_hash) (some ptr_cmp) false
      (some calloc) true
    obtain ⟨hfail, hok⟩ := h ptr_hash ptr_cmp calloc rfl (by decide) hc rfl rfl rfl rfl
    by_cases h1 : calloc 1 (11 * WORD_BYTES true) = true
    · by_cases h2 : calloc (calc_limit true (2 ^ 63)) (WORD_BYTES true) = true
      · rw [hok h1 h2]; decide
      · rw [hfail (Or.inr (by simpa using h2))]; decide
    · rw [hfail (Or.inl (by simpa using h1))]; decide

/-- C13 fails on the code: `thtbl_insert` stores the value in the first
Deleted slot of the probe without looking for an equal value further on.  On
the fresh 32-bit table of limit 4, with the pointer order as comparison (an
equivalence whose equal values are the same pointer, hence hash alike),
`insert(16)`, `insert(32)`, `remove(16)`, `insert(32)` all return
`THTBL_EOK`, and the table then holds 32 in slot 0 and in slot 1. -/
theorem C13_duplicate_after_tombstone :
    (∀ a b, ptr_cmp a b = 0 ↔ a = b) ∧
    (thtbl_insert false (some fresh_record) 16).1 = THTBL_EOK ∧
    (thtbl_insert false (thtbl_insert false (some fresh_record) 16).2 32).1 = THTBL_EOK ∧
    (thtbl_remove false
      (thtbl_insert false (thtbl_insert false (some fresh_record) 16).2 32).2 16).1 =
        THTBL_EOK ∧
    (thtbl_insert false
      (thtbl_remove false
        (thtbl_insert false (thtbl_insert false (some fresh_record) 16).2 32).2 16).2 32).1 =
        THTBL_EOK ∧
    duplicate_table.map (fun t => (t.slots, t.used)) =
      some ([32, 32, 0, 0, 0, 0, 0, 0, 0, 0, 0, 0, 0, 0, 0, 0], 2) ∧
    IS_USED false 32 = true ∧ ptr_cmp 32 32 = 0 := by
  refine ⟨?_, by decide, by decide, by decide, by decide, by decide, by decide, by decide⟩
  intro a b
  unfold ptr_cmp
  constructor
  · intro h
    split_ifs at h with h1 h2
    all_goals first | exact h2 | omega
  · intro h
    subst h
    simp

/-- C14 (capacity invariant).  In every table state reached from a table
`thtbl_create` returned, by any sequence of insert, remove, find, clear and
enum calls: `1 ≤ limit`, `used ≤ limit`, `limit < limit_overhead`, and
`limit` and `limit_overhead` have their creation-time values. -/
theorem C14_capacity_invariant (lp64 : Bool) (t0 t : thtbl_t) (h0 : created lp64 t0)
    (hreach : reachable lp64 t0 t) :
    1 ≤ t.limit ∧ t.used ≤ t.limit ∧ t.limit < t.limit_overhead ∧
    t.limit = t0.limit ∧ t.limit_overhead = t0.limit_overhead := by
  have hinv := cap_inv_reachable lp64 t0 t h0 hreach
  exact ⟨hinv.one_le, hinv.used_le, hinv.lim_lt, hinv.limit_eq, hinv.lo_eq⟩

/-- Witness of C14: the table `one_value_record`, reached from the fresh
32-bit table of limit 4 by one insertion. -/
theorem C14_capacity_invariant_witness :
    1 ≤ one_value_record.limit ∧ one_value_record.used ≤ one_value_record.limit ∧
    one_value_record.limit < one_value_record.limit_overhead ∧
    one_value_record.limit = fresh_record.limit ∧
    one_value_record.limit_overhead = fresh_record.limit_overhead :=
  C14_capacity_invariant false fresh_record one_value_record
    ⟨true, 4, some ptr_hash, some ptr_cmp, false, some ok_calloc, true, rfl⟩
    (reachable.insert fresh_record one_value_record 17 THTBL_EOK reachable.init rfl)

/-- C15, as stated, fails for the sentinel, a non-null value `thtbl_insert`
accepts: on the fresh 32-bit table of limit 4 the insertion of `0xffffffff`
returns `THTBL_EOK` and `thtbl_size` then reports 1, while no slot is
Occupied (the slot written reads as Deleted). -/
theorem C15_counterexample :
    DELETED false ≠ NULL ∧
    (thtbl_insert false (some fresh_record) (DELETED false)).1 = THTBL_EOK ∧
    thtbl_size (thtbl_insert false (some fresh_record) (DELETED false)).2 =
      (THTBL_EOK, some 1) ∧
    (thtbl_insert false (some fresh_record) (DELETED false)).2.map (count_used false) =
      some 0 := by
  decide

/-- C15, amended.  In every table state reached from a table `thtbl_create`
returned by insert, remove, find, clear and enum calls in which no inserted
value is the `DELETED` sentinel, the field `used`, which `thtbl_size` reports,
equals the number of Occupied slots. -/
theorem C15_size_is_occupancy (lp64 : Bool) (t0 t : thtbl_t) (h0 : created lp64 t0)
    (hreach : reachable_values lp64 t0 t) :
    thtbl_size (some t) = (THTBL_EOK, some t.used) ∧ t.used = count_used lp64 t :=
  ⟨rfl, (count_eq_reachable lp64 t0 t h0 hreach).symm⟩

/-- Witness of the amended C15: the table `one_value_record`, reached by the
insertion of 17, has `used = 1` and one Occupied slot. -/
theorem C15_size_is_occupancy_witness :
    thtbl_size (some one_value_record) = (THTBL_EOK, some one_value_record.used) ∧
    one_value_record.used = count_used false one_value_record :=
  C15_size_is_occupancy false fresh_record one_value_record
    ⟨true, 4, some ptr_hash, some ptr_cmp, false, some ok_calloc, true, rfl⟩
    (reachable_values.insert fresh_record one_value_record 17 THTBL_EOK
      reachable_values.init (by decide) rfl)

/-- C16, as stated, fails twice on the fresh 32-bit table of limit 4: a
successful `thtbl_insert` leaves `searches = 1` and `cols = 0`, not 1 (the
slot at which the probe ends is not counted); and a `thtbl_find`, which
fails with `THTBL_ENOENT` because `used` is 0, leaves `searches = 0` (a call
rejected before probing is not counted). -/
theorem C16_counterexample :
    (thtbl_insert false (some fresh_record) 17).1 = THTBL_EOK ∧
    thtbl_stat (thtbl_insert false (some fresh_record) 17).2 = (THTBL_EOK, some (1, 0)) ∧
    (thtbl_find false (some fresh_record) 17).1 = THTBL_ENOENT ∧
    thtbl_stat (thtbl_find false (some fresh_record) 17).2.1 = (THTBL_EOK, some (0, 0)) := by
  decide

/-- C16, amended.  On every table whose `cols` is a `size_t`: a call of
`thtbl_insert`, `thtbl_remove` or `thtbl_find` that is rejected before probing
(null value; `used >= limit` for insert; `used == 0` for remove and find)
leaves `searches` and `cols` as they were; every other call, failing or not,
increments `searches` by exactly 1 and `cols` by the number `m` of slots the
probe passed over (both modulo `2 ^ SIZE_BITS`), where the slot at which the
probe hit, inserted or stopped is not counted: `m = limit_overhead` when the
call returns `THTBL_EFULL`, and otherwise the probe ended at its slot number
`m < limit_overhead`. -/
theorem C16_counter_accounting (lp64 : Bool) (t : thtbl_t) (v : Nat)
    (hc : t.cols < SIZE_MOD lp64) :
    (∀ e t', thtbl_insert lp64 (some t) v = (e, some t') →
      ((v = NULL ∨ t.limit ≤ t.used) → uncounted t t') ∧
      (v ≠ NULL → t.used < t.limit →
        ∃ m, probe_passes lp64 t v m ∧ counted lp64 t t' m ∧
          ((e = THTBL_EFULL ∧ m = t.limit_overhead) ∨
            (e ≠ THTBL_EFULL ∧ m < t.limit_overhead ∧ ¬ probe_passes lp64 t v (m + 1))))) ∧
    (∀ e t', thtbl_remove lp64 (some t) v = (e, some t') →
      ((v = NULL ∨ t.used = 0) → uncounted t t') ∧
      (v ≠ NULL → t.used ≠ 0 →
        ∃ m, probe_passes lp64 t v m ∧ counted lp64 t t' m ∧
          ((e = THTBL_EFULL ∧ m = t.limit_overhead) ∨
            (e ≠ THTBL_EFULL ∧ m < t.limit_overhead ∧ ¬ probe_passes lp64 t v (m + 1))))) ∧
    (∀ e t' f, thtbl_find lp64 (some t) v = (e, some t', f) →
      ((v = NULL ∨ t.used = 0) → uncounted t t') ∧
      (v ≠ NULL → t.used ≠ 0 →
        ∃ m, find_passes lp64 t v m ∧ counted lp64 t t' m ∧
          ((e = THTBL_EFULL ∧ m = t.limit_overhead) ∨
            (e ≠ THTBL_EFULL ∧ m < t.limit_overhead ∧ ¬ find_passes lp64 t v (m + 1))))) := by
  refine ⟨?_, ?_, ?_⟩
  · intro e t' h
    rcases insert_result lp64 t v with ⟨hv, h'⟩ | ⟨hv, hu, h'⟩ |
      ⟨hv, hroom, ⟨m, hm, hpass, hnu, h'⟩ | ⟨m, hm, hpass, hnu, hcv, h'⟩ | ⟨hpass, h'⟩⟩
    · rw [h'] at h
      simp only [Prod.mk.injEq, Option.some.injEq] at h
      obtain ⟨_, rfl⟩ := h
      exact ⟨fun _ => ⟨rfl, rfl⟩, fun hne => absurd hv hne⟩
    · rw [h'] at h
      simp only [Prod.mk.injEq, Option.some.injEq] at h
      obtain ⟨_, rfl⟩ := h
      exact ⟨fun _ => ⟨rfl, rfl⟩, fun _ hlt => absurd hlt (Nat.not_lt.mpr hu)⟩
    · rw [h'] at h
      simp only [Prod.mk.injEq, Option.some.injEq] at h
      obtain ⟨rfl, rfl⟩ := h
      refine ⟨fun hg => ?_, fun _ _ => ⟨m, hpass, ⟨rfl, bump_cols_eq lp64 m t.cols hc⟩,
        Or.inr ⟨fun h => (by cases h), hm, ?_⟩⟩⟩
      · rcases hg with h1 | h1
        · exact absurd h1 hv
        · exact absurd hroom (Nat.not_lt.mpr h1)
      · intro hp
        have := (hp m (Nat.lt_succ_self m)).1
        rw [hnu] at this; cases this
    · rw [h'] at h
      simp only [Prod.mk.injEq, Option.some.injEq] at h
      obtain ⟨rfl, rfl⟩ := h
      refine ⟨fun hg => ?_, fun _ _ => ⟨m, hpass, ⟨rfl, bump_cols_eq lp64 m t.cols hc⟩,
        Or.inr ⟨fun h => (by cases h), hm, ?_⟩⟩⟩
      · rcases hg with h1 | h1
        · exact absurd h1 hv
        · exact absurd hroom (Nat.not_lt.mpr h1)
      · intro hp
        exact (hp m (Nat.lt_succ_self m)).2 hcv
    · rw [h'] at h
      simp only [Prod.mk.injEq, Option.some.injEq] at h
      obtain ⟨rfl, rfl⟩ := h
      refine ⟨fun hg => ?_, fun _ _ => ⟨t.limit_overhead, hpass,
        ⟨rfl, bump_cols_eq lp64 _ t.cols hc⟩, Or.inl ⟨rfl, rfl⟩⟩⟩
      rcases hg with h1 | h1
      · exact absurd h1 hv
      · exact absurd hroom (Nat.not_lt.mpr h1)
  · intro e t' h
    rcases remove_result lp64 t v with ⟨hv, h'⟩ | ⟨hv, hu, h'⟩ |
      ⟨hv, hroom, ⟨m, hm, hpass, hnu, h'⟩ | ⟨m, hm, hpass, hnu, hcv, h'⟩ | ⟨hpass, h'⟩⟩
    · rw [h'] at h
      simp only [Prod.mk.injEq, Option.some.injEq] at h
      obtain ⟨_, rfl⟩ := h
      exact ⟨fun _ => ⟨rfl, rfl⟩, fun hne => absurd hv hne⟩
    · rw [h'] at h
      simp only [Prod.mk.injEq, Option.some.injEq] at h
      obtain ⟨_, rfl⟩ := h
      exact ⟨fun _ => ⟨rfl, rfl⟩, fun _ hne => absurd hu hne⟩
    · rw [h'] at h
      simp only [Prod.mk.injEq, Option.some.injEq] at h
      obtain ⟨rfl, rfl⟩ := h
      refine ⟨fun hg => ?_, fun _ _ => ⟨m, hpass, ⟨rfl, bump_cols_eq lp64 m t.cols hc⟩,
        Or.inr ⟨fun h => (by cases h), hm, ?_⟩⟩⟩
      · rcases hg with h1 | h1
        · exact absurd h1 hv
        · exact absurd h1 hroom
      · intro hp
        have := (hp m (Nat.lt_succ_self m)).1
        rw [hnu] at this; cases this
    · rw [h'] at h
      simp only [Prod.mk.injEq, Option.some.injEq] at h
      obtain ⟨rfl, rfl⟩ := h
      refine ⟨fun hg => ?_, fun _ _ => ⟨m, hpass, ⟨rfl, bump_cols_eq lp64 m t.cols hc⟩,
        Or.inr ⟨fun h => (by cases h), hm, ?_⟩⟩⟩
      · rcases hg with h1 | h1
        · exact absurd h1 hv
        · exact absurd h1 hroom
      · intro hp
        exact (hp m (Nat.lt_succ_self m)).2 hcv
    · rw [h'] at h
      simp only [Prod.mk.injEq, Option.some.injEq] at h
      obtain ⟨rfl, rfl⟩ := h
      refine ⟨fun hg => ?_, fun _ _ => ⟨t.limit_overhead, hpass,
        ⟨rfl, bump_cols_eq lp64 _ t.cols hc⟩, Or.inl ⟨rfl, rfl⟩⟩⟩
      rcases hg with h1 | h1
      · exact absurd h1 hv
      · exact absurd h1 hroom
  · intro e t' f h
    rcases find_result lp64 t v with ⟨hv, h'⟩ | ⟨hv, hu, h'⟩ |
      ⟨hv, hroom, ⟨m, hm, hpass, hemp, h'⟩ | ⟨m, hm, hpass, hemp, hdel, hcv, h'⟩ |
        ⟨hpass, h'⟩⟩
    · rw [h'] at h
      simp only [Prod.mk.injEq, Option.some.injEq] at h
      obtain ⟨_, rfl, _⟩ := h
      exact ⟨fun _ => ⟨rfl, rfl⟩, fun hne => absurd hv hne⟩
    · rw [h'] at h
      simp only [Prod.mk.injEq, Option.some.injEq] at h
      obtain ⟨_, rfl, _⟩ := h
      exact ⟨fun _ => ⟨rfl, rfl⟩, fun _ hne => absurd hu hne⟩
    · rw [h'] at h
      simp only [Prod.mk.injEq, Option.some.injEq] at h
      obtain ⟨rfl, rfl, _⟩ := h
      refine ⟨fun hg => ?_, fun _ _ => ⟨m, hpass, ⟨rfl, bump_cols_eq lp64 m t.cols hc⟩,
        Or.inr ⟨fun h => (by cases h), hm, ?_⟩⟩⟩
      · rcases hg with h1 | h1
        · exact absurd h1 hv
        · exact absurd h1 hroom
      · intro hp
        have := (hp m (Nat.lt_succ_self m)).1
        rw [hemp] at this; cases this
    · rw [h'] at h
      simp only [Prod.mk.injEq, Option.some.injEq] at h
      obtain ⟨rfl, rfl, _⟩ := h
      refine ⟨fun hg => ?_, fun _ _ => ⟨m, hpass, ⟨rfl, bump_cols_eq lp64 m t.cols hc⟩,
        Or.inr ⟨fun h => (by cases h), hm, ?_⟩⟩⟩
      · rcases hg with h1 | h1
        · exact absurd h1 hv
        · exact absurd h1 hroom
      · intro hp
        rcases (hp m (Nat.lt_succ_self m)).2 with h1 | h1
        · rw [hdel] at h1; cases h1
        · exact h1 hcv
    · rw [h'] at h
      simp only [Prod.mk.injEq, Option.some.injEq] at h
      obtain ⟨rfl, rfl, _⟩ := h
      refine ⟨fun hg => ?_, fun _ _ => ⟨t.limit_overhead, hpass,
        ⟨rfl, bump_cols_eq lp64 _ t.cols hc⟩, Or.inl ⟨rfl, rfl⟩⟩⟩
      rcases hg with h1 | h1
      · exact absurd h1 hv
      · exact absurd h1 hroom

/-- Witness of the amended C16: the insertion of 17 into the fresh 32-bit
table of limit 4 counts one search and no collision. -/
theorem C16_counter_accounting_witness :
    (∃ m, probe_passes false fresh_record 17 m ∧ counted false fresh_record one_value_record m ∧
      ((THTBL_EOK = THTBL_EFULL ∧ m = fresh_record.limit_overhead) ∨
        (THTBL_EOK ≠ THTBL_EFULL ∧ m < fresh_record.limit_overhead ∧
          ¬ probe_passes false fresh_record 17 (m + 1)))) ∧
    one_value_record.searches = 1 ∧ one_value_record.cols = 0 :=
  ⟨((C16_counter_accounting false fresh_record 17 (by decide)).1 THTBL_EOK one_value_record
      rfl).2 (by decide) (by decide),
    rfl, rfl⟩

/-- C17, as stated, fails: no such sequence exists on a 32-bit build.  No
table state reached from a created table lets `thtbl_insert` return
`THTBL_EFULL` for a non-null value while `used < limit`. -/
theorem C17_counterexample :
    ¬ ∃ (t0 t : thtbl_t) (v : Nat), created false t0 ∧ reachable false t0 t ∧ v ≠ NULL ∧
      t.used < t.limit ∧ (thtbl_insert false (some t) v).1 = THTBL_EFULL := by
  rintro ⟨t0, t, v, h0, hreach, _, _, hfull⟩
  exact insert_never_full false t0 t v h0 (fun h => by cases h) hreach hfull

/-- C17, amended.  In every table state reached from a created table whose
capacity is a power of two (every 32-bit table; under `THTBL_LP64` the
tables of limit below `2 ^ 30`), `thtbl_insert` never returns `THTBL_EFULL`:
insertion reuses tombstones.  Tombstone churn exhausts the probe of
`thtbl_find` instead: in `no_empty_table` after the removal of 16, `used` is
14, below the limit 15, and `thtbl_find` of 16 returns `THTBL_EFULL`, while
`thtbl_insert` of 16 succeeds. -/
theorem C17_insert_never_full (lp64 : Bool) (t0 t : thtbl_t) (v : Nat)
    (h0 : created lp64 t0) (hrange : lp64 = true → t0.limit < 2 ^ 30)
    (hreach : reachable lp64 t0 t) :
    (thtbl_insert lp64 (some t) v).1 ≠ THTBL_EFULL ∧
    ((thtbl_remove false no_empty_table 16).2.map (fun s => (s.used, s.limit)) =
        some (14, 15) ∧
      (thtbl_find false (thtbl_remove false no_empty_table 16).2 16).1 = THTBL_EFULL ∧
      (thtbl_insert false (thtbl_remove false no_empty_table 16).2 16).1 = THTBL_EOK) :=
  ⟨insert_never_full lp64 t0 t v h0 hrange hreach, by decide⟩

/-- Witness of the amended C17: the table `one_value_record` and the value
33. -/
theorem C17_insert_never_full_witness :
    (thtbl_insert false (some one_value_record) 33).1 ≠ THTBL_EFULL ∧
    ((thtbl_remove false no_empty_table 16).2.map (fun s => (s.used, s.limit)) =
        some (14, 15) ∧
      (thtbl_find false (thtbl_remove false no_empty_table 16).2 16).1 = THTBL_EFULL ∧
      (thtbl_insert false (thtbl_remove false no_empty_table 16).2 16).1 = THTBL_EOK) :=
  C17_insert_never_full false fresh_record one_value_record 33
    ⟨true, 4, some ptr_hash, some ptr_cmp, false, some ok_calloc, true, rfl⟩
    (fun h => by cases h)
    (reachable.insert fresh_record one_value_record 17 THTBL_EOK reachable.init rfl)

/-- C18 (insert, then find, in any state).  In every table state reached from
a created table, tombstones or not, for a value `v` that is not the sentinel
and compares equal to itself: when `thtbl_insert(v)` returns `THTBL_EOK` (so
`v` is non-null), `v` was written to one slot `p`, which was Empty or Deleted,
every other slot is unchanged, `used` has increased by exactly 1, and the
`thtbl_find(v)` that follows returns `THTBL_EOK` with `*found` the pointer `v`
itself. -/
theorem C18_insert_then_find (lp64 : Bool) (t0 t t1 : thtbl_t) (v : Nat)
    (h0 : created lp64 t0) (hreach : reachable lp64 t0 t) (hvd : v ≠ DELETED lp64)
    (hrefl : t.cmp v v = 0) (hins : thtbl_insert lp64 (some t) v = (THTBL_EOK, some t1)) :
    (∃ p, p < t.slots.length ∧ IS_NOT_USED lp64 (t.slots.getD p EMPTY) = true ∧
      t1.slots = t.slots.set p v ∧ t1.slots.getD p EMPTY = v ∧
      ∀ j, j ≠ p → t1.slots.getD j EMPTY = t.slots.getD j EMPTY) ∧
    t1.used = t.used + 1 ∧
    ∃ t2, thtbl_find lp64 (some t1) v = (THTBL_EOK, some t2, some v) := by
  have hcap := cap_inv_reachable lp64 t0 t h0 hreach
  have hlen := hcap.len
  have hlt := hcap.lim_lt
  have hM := hcap.lo_lt
  obtain ⟨hv0, hroom, m, hm, hpass, hnu, ht1⟩ := insert_eok lp64 t t1 v hins
  have hplt : probe_index lp64 t.limit_overhead (t.hash v) m < t.slots.length := by
    rw [hlen]; exact probe_index_lt lp64 _ _ _ (by omega)
  have hused1 : t1.used = t.used + 1 := by
    rw [ht1]
    show (t.used + 1) % SIZE_MOD lp64 = t.used + 1
    exact Nat.mod_eq_of_lt (by omega)
  have hslots1 : t1.slots = t.slots.set (probe_index lp64 t.limit_overhead (t.hash v) m) v := by
    rw [ht1]
  have hlo1 : t1.limit_overhead = t.limit_overhead := by rw [ht1]
  have hcmp1 : t1.cmp = t.cmp := by rw [ht1]
  have hhash1 : t1.hash = t.hash := by rw [ht1]
  refine ⟨⟨probe_index lp64 t.limit_overhead (t.hash v) m, hplt, hnu, hslots1, ?_, ?_⟩,
    hused1, ?_⟩
  · rw [hslots1, getD_set, if_pos ⟨rfl, hplt⟩]
  · intro j hj
    rw [hslots1, getD_set, if_neg (fun h => hj h.1.symm)]
  · have hslot : ∀ d, probe_slot lp64 t1 (t1.hash v) d =
        if probe_index lp64 t.limit_overhead (t.hash v) m =
            probe_index lp64 t.limit_overhead (t.hash v) d ∧
            probe_index lp64 t.limit_overhead (t.hash v) m < t.slots.length
        then v else probe_slot lp64 t (t.hash v) d := by
      intro d
      unfold probe_slot
      rw [hslots1, hlo1, hhash1, getD_set]
    have hslotm : probe_slot lp64 t1 (t1.hash v) m = v := by
      rw [hslot m, if_pos ⟨rfl, hplt⟩]
    have hIsV : ∀ d, d < m → probe_slot lp64 t1 (t1.hash v) d = v ∨
        (probe_slot lp64 t1 (t1.hash v) d ≠ EMPTY ∧
          t1.cmp v (probe_slot lp64 t1 (t1.hash v) d) ≠ 0) := by
      intro d hd
      rw [hslot d]
      split
      · exact Or.inl rfl
      · right
        rw [hcmp1]
        exact ⟨((is_used_iff lp64 _).mp (is_used_of_not_not_used lp64 _ (hpass d hd).1)).1,
          (hpass d hd).2⟩
    have hstop : ¬ (IS_EMPTY (probe_slot lp64 t1 (t1.hash v) m) = false ∧
        (IS_DELETED lp64 (probe_slot lp64 t1 (t1.hash v) m) = true ∨
          t1.cmp v (probe_slot lp64 t1 (t1.hash v) m) ≠ 0)) := by
      rw [hslotm, hcmp1]
      rintro ⟨_, h | h⟩
      · exact hvd (by simpa [IS_DELETED] using h)
      · exact h hrefl
    rcases find_result lp64 t1 v with ⟨hv, _⟩ | ⟨_, hu, _⟩ |
      ⟨_, _, ⟨m', hm', hfp, hemp, _⟩ | ⟨m', hm', hfp, hemp, hdel, hcv, h'⟩ | ⟨hfp, _⟩⟩
    · exact absurd hv hv0
    · rw [hused1] at hu; omega
    · exfalso
      have hemp' : probe_slot lp64 t1 (t1.hash v) m' = EMPTY := by
        simpa [IS_EMPTY] using hemp
      rcases Nat.lt_trichotomy m' m with hlt' | heq | hgt
      · rcases hIsV m' hlt' with h | h
        · rw [h] at hemp'; exact hv0 hemp'
        · exact h.1 hemp'
      · rw [heq, hslotm] at hemp'; exact hv0 hemp'
      · exact hstop (hfp m hgt)
    · have hfound : probe_slot lp64 t1 (t1.hash v) m' = v := by
        rcases Nat.lt_trichotomy m' m with hlt' | heq | hgt
        · rcases hIsV m' hlt' with h | h
          · exact h
          · exact absurd hcv h.2
        · rw [heq]; exact hslotm
        · exact absurd (hfp m hgt) hstop
      rw [hfound] at h'
      exact ⟨_, h'⟩
    · exfalso
      exact hstop (hfp m (by rw [hlo1]; exact hm))

/-- Witness of C18: the insertion of 17 into the fresh 32-bit table of limit
4, then the search for 17. -/
theorem C18_insert_then_find_witness :
    (∃ p, p < fresh_record.slots.length ∧
      IS_NOT_USED false (fresh_record.slots.getD p EMPTY) = true ∧
      one_value_record.slots = fresh_record.slots.set p 17 ∧
      one_value_record.slots.getD p EMPTY = 17 ∧
      ∀ j, j ≠ p → one_value_record.slots.getD j EMPTY = fresh_record.slots.getD j EMPTY) ∧
    one_value_record.used = fresh_record.used + 1 ∧
    ∃ t2, thtbl_find false (some one_value_record) 17 = (THTBL_EOK, some t2, some 17) :=
  C18_insert_then_find false fresh_record fresh_record one_value_record 17
    ⟨true, 4, some ptr_hash, some ptr_cmp, false, some ok_calloc, true, rfl⟩
    reachable.init (by decide) (by decide) rfl

/-- C19 (duplicates are rejected on removal-free histories).  In every table
state reached from a created or cleared table by `thtbl_insert` and
`thtbl_find` calls only, with a symmetric comparison and a hash that agrees
on values comparing equal, for non-null `v` and `used < limit`:
`thtbl_insert(v)` returns `THTBL_EEXIST` if and only if some Occupied slot
holds a value comparing equal to `v`; no two Occupied slots compare equal;
and on a table of power-of-two capacity (every 32-bit table; under
`THTBL_LP64` limits below `2 ^ 30`) it never returns `THTBL_EFULL` and
returns `THTBL_EOK` when no Occupied slot compares equal to `v`. -/
theorem C19_removal_free_rejects_duplicates (lp64 : Bool) (t0 t : thtbl_t) (v : Nat)
    (h0 : created lp64 t0) (hrf : removal_free lp64 t0 t)
    (hsymm : ∀ a b, t0.cmp a b = 0 → t0.cmp b a = 0)
    (hhash : ∀ a b, t0.cmp a b = 0 → t0.hash a = t0.hash b)
    (hv : v ≠ NULL) (hroom : t.used < t.limit) :
    ((thtbl_insert lp64 (some t) v).1 = THTBL_EEXIST ↔
      ∃ j, j < t.limit_overhead ∧ IS_USED lp64 (t.slots.getD j EMPTY) = true ∧
        t.cmp v (t.slots.getD j EMPTY) = 0) ∧
    (∀ i j, i < t.limit_overhead → j < t.limit_overhead → i ≠ j →
      IS_USED lp64 (t.slots.getD i EMPTY) = true →
      IS_USED lp64 (t.slots.getD j EMPTY) = true →
      t.cmp (t.slots.getD i EMPTY) (t.slots.getD j EMPTY) ≠ 0) ∧
    ((lp64 = true → t0.limit < 2 ^ 30) →
      (thtbl_insert lp64 (some t) v).1 ≠ THTBL_EFULL ∧
      ((¬ ∃ j, j < t.limit_overhead ∧ IS_USED lp64 (t.slots.getD j EMPTY) = true ∧
          t.cmp v (t.slots.getD j EMPTY) = 0) →
        (thtbl_insert lp64 (some t) v).1 = THTBL_EOK)) := by
  have hreach := reachable_of_removal_free lp64 t0 t hrf
  have hcap := cap_inv_reachable lp64 t0 t h0 hreach
  have hinv := set_inv_removal_free lp64 t0 t h0 hsymm hhash hrf
  have hhash' : ∀ a b, t.cmp a b = 0 → t.hash a = t.hash b := by
    rw [hcap.cmp_eq, hcap.hash_eq]; exact hhash
  have hlopos : 0 < t.limit_overhead := by have := hcap.lim_lt; omega
  have hiff : (thtbl_insert lp64 (some t) v).1 = THTBL_EEXIST ↔
      ∃ j, j < t.limit_overhead ∧ IS_USED lp64 (t.slots.getD j EMPTY) = true ∧
        t.cmp v (t.slots.getD j EMPTY) = 0 := by
    constructor
    · intro he
      rcases insert_result lp64 t v with ⟨_, h'⟩ | ⟨_, _, h'⟩ |
        ⟨_, _, ⟨m, _, _, _, h'⟩ | ⟨m, _, _, hnu, hcv, _⟩ | ⟨_, h'⟩⟩
      · rw [h'] at he; cases he
      · rw [h'] at he; cases he
      · rw [h'] at he; cases he
      · exact ⟨probe_index lp64 t.limit_overhead (t.hash v) m,
          probe_index_lt lp64 _ _ _ hlopos, is_used_of_not_not_used lp64 _ hnu, hcv⟩
      · rw [h'] at he; cases he
    · rintro ⟨j, hj, hju, hcv⟩
      obtain ⟨k, hk, hidx, hch⟩ := hinv.chain j hj hju
      rw [← hhash' v _ hcv] at hidx hch
      have hslotk : probe_slot lp64 t (t.hash v) k = t.slots.getD j EMPTY := by
        unfold probe_slot; rw [hidx]
      have hused : ∀ d, d ≤ k → IS_NOT_USED lp64
          (probe_slot lp64 { t with searches := (t.searches + 1) % SIZE_MOD lp64 }
            (t.hash v) d) = false := by
        intro d hd
        show IS_NOT_USED lp64 (probe_slot lp64 t (t.hash v) d) = false
        rcases Nat.lt_or_eq_of_le hd with hlt | heq
        · exact hch d hlt
        · rw [heq, hslotk]
          cases hx : IS_NOT_USED lp64 (t.slots.getD j EMPTY)
          · rfl
          · have := is_used_false_of_not_used lp64 _ hx
            rw [hju] at this; cases this
      obtain ⟨c, hloop⟩ := insert_loop_eexist lp64 v (t.hash v)
        { t with searches := (t.searches + 1) % SIZE_MOD lp64 } t.limit_overhead k hk hused
        (by show t.cmp v (probe_slot lp64 t (t.hash v) k) = 0; rw [hslotk]; exact hcv)
      rw [thtbl_insert_run lp64 t v hv hroom, hloop]
  refine ⟨hiff, hinv.nodup, ?_⟩
  intro hrange
  have hnf := insert_never_full lp64 t0 t v h0 hrange hreach
  refine ⟨hnf, ?_⟩
  intro hnone
  rcases insert_result lp64 t v with ⟨h1, _⟩ | ⟨_, h1, _⟩ |
    ⟨_, _, ⟨m, _, _, _, h'⟩ | ⟨m, _, _, _, _, h'⟩ | ⟨_, h'⟩⟩
  · exact absurd h1 hv
  · exact absurd hroom (Nat.not_lt.mpr h1)
  · rw [h']
  · exact absurd (hiff.mp (by rw [h'])) hnone
  · exact absurd (by rw [h']) hnf

/-- Witness of C19: on the table `one_value_record`, reached from the fresh
32-bit table of limit 4 by the insertion of 17, a second insertion of 17 is
rejected and the insertion of 33, which has the same home slot, succeeds. -/
theorem C19_removal_free_rejects_duplicates_witness :
    (((thtbl_insert false (some one_value_record) 33).1 = THTBL_EEXIST ↔
        ∃ j, j < one_value_record.limit_overhead ∧
          IS_USED false (one_value_record.slots.getD j EMPTY) = true ∧
          one_value_record.cmp 33 (one_value_record.slots.getD j EMPTY) = 0) ∧
      (∀ i j, i < one_value_record.limit_overhead → j < one_value_record.limit_overhead →
        i ≠ j → IS_USED false (one_value_record.slots.getD i EMPTY) = true →
        IS_USED false (one_value_record.slots.getD j EMPTY) = true →
        one_value_record.cmp (one_value_record.slots.getD i EMPTY)
          (one_value_record.slots.getD j EMPTY) ≠ 0) ∧
      (((false : Bool) = true → fresh_record.limit < 2 ^ 30) →
        (thtbl_insert false (some one_value_record) 33).1 ≠ THTBL_EFULL ∧
        ((¬ ∃ j, j < one_value_record.limit_overhead ∧
            IS_USED false (one_value_record.slots.getD j EMPTY) = true ∧
            one_value_record.cmp 33 (one_value_record.slots.getD j EMPTY) = 0) →
          (thtbl_insert false (some one_value_record) 33).1 = THTBL_EOK))) ∧
    (thtbl_insert false (some one_value_record) 33).1 = THTBL_EOK ∧
    (thtbl_insert false (some one_value_record) 17).1 = THTBL_EEXIST :=
  ⟨C19_removal_free_rejects_duplicates false fresh_record one_value_record 33
      ⟨true, 4, some ptr_hash, some ptr_cmp, false, some ok_calloc, true, rfl⟩
      (removal_free.insert fresh_record one_value_record 17 THTBL_EOK removal_free.init rfl)
      (fun a b h => (ptr_cmp_zero_iff b a).mpr ((ptr_cmp_zero_iff a b).mp h).symm)
      (fun a b h => congrArg ptr_hash ((ptr_cmp_zero_iff a b).mp h))
      (by decide) (by decide),
    by decide, by decide⟩

/-- C20 (probe index arithmetic).  For a capacity `c = 2 ^ n` that divides
`2 ^ SIZE_BITS`, every hash `h` and every step `k`, the index the code
computes, `((h + k) mod 2 ^ SIZE_BITS) & (c - 1)`, equals
`((h mod c) + k) mod c` and is below `c`, whether or not `h + k` wraps; and
over the steps `k < c` the index takes every value below `c` exactly once. -/
theorem C20_probe_index (lp64 : Bool) (n h : Nat) (hn : n ≤ SIZE_BITS lp64) :
    (∀ k, probe_index lp64 (2 ^ n) h k = (h % 2 ^ n + k) % 2 ^ n ∧
      probe_index lp64 (2 ^ n) h k < 2 ^ n) ∧
    (∀ k1 k2, k1 < 2 ^ n → k2 < 2 ^ n →
      probe_index lp64 (2 ^ n) h k1 = probe_index lp64 (2 ^ n) h k2 → k1 = k2) ∧
    (∀ j, j < 2 ^ n → ∃ k, k < 2 ^ n ∧ probe_index lp64 (2 ^ n) h k = j) := by
  have hpos : 0 < 2 ^ n := Nat.pos_pow_of_pos _ (by decide)
  refine ⟨?_, ?_, ?_⟩
  · intro k
    rw [probe_index_pow2 lp64 n h k hn, Nat.mod_add_mod]
    exact ⟨rfl, Nat.mod_lt _ hpos⟩
  · intro k1 k2 h1 h2 heq
    rw [probe_index_pow2 lp64 n h k1 hn, probe_index_pow2 lp64 n h k2 hn] at heq
    have hmod : k1 % 2 ^ n = k2 % 2 ^ n := Nat.ModEq.add_left_cancel' h heq
    rwa [Nat.mod_eq_of_lt h1, Nat.mod_eq_of_lt h2] at hmod
  · intro j hj
    exact probe_index_surj lp64 n h j hn hj

/-- Witness of C20: a 32-bit build, capacity 16 and the hash `2 ^ 32 - 1`,
for which `h + 1` wraps around to 0. -/
theorem C20_probe_index_witness :
    ((∀ k, probe_index false (2 ^ 4) (2 ^ 32 - 1) k = ((2 ^ 32 - 1) % 2 ^ 4 + k) % 2 ^ 4 ∧
        probe_index false (2 ^ 4) (2 ^ 32 - 1) k < 2 ^ 4) ∧
      (∀ k1 k2, k1 < 2 ^ 4 → k2 < 2 ^ 4 →
        probe_index false (2 ^ 4) (2 ^ 32 - 1) k1 = probe_index false (2 ^ 4) (2 ^ 32 - 1) k2 →
        k1 = k2) ∧
      (∀ j, j < 2 ^ 4 → ∃ k, k < 2 ^ 4 ∧ probe_index false (2 ^ 4) (2 ^ 32 - 1) k = j)) ∧
    probe_index false (2 ^ 4) (2 ^ 32 - 1) 0 = 15 ∧
    probe_index false (2 ^ 4) (2 ^ 32 - 1) 1 = 0 :=
  ⟨C20_probe_index false 4 (2 ^ 32 - 1) (by decide), by decide, by decide⟩

end Thtbl
